import Mathlib

/-!
Verification of the algorithms library of the `tech-notes` repository:
the ten sorting routines of
`snippets/algorithms/sorting-algorithms/sorting_algorithms.py` and the
graph-traversal routines of
`snippets/algorithms/graph-traversal/graph_traversal.py`.

Python lists are modelled as Lean `List`s, in-place loops as explicit
state passing, Python `float` arithmetic as exact rational arithmetic
(`ℚ`), and fallible operations (`ZeroDivisionError`, out-of-range
indexing, unbounded loops) as `Option`-valued functions where `none`
models a raised exception / divergence.
-/

namespace TechNotes

open List

/-! ## Insertion sort (`insertion_sort`, sorting_algorithms.py lines 43-59)

The Python function sorts `arr` in place: for each `i` from 1 upward it
saves `key = arr[i]`, shifts every element of the (already sorted)
prefix `arr[0..i-1]` that is greater than `key` one slot to the right
(the inner `while j >= 0 and arr[j] > key` loop, walking the prefix
from its right end), and drops `key` into the hole.

We model the prefix in reversed form (`revPre`, head = right end of the
prefix, i.e. `arr[i-1]`), so one iteration of the inner `while` loop is
one recursive step of `insRev`.  The whole pass is parametrised by a
`key` projection so that the same definition covers both plain ordered
elements (`key = id`, as in the source, where `>` is the element order)
and key/value pairs compared by key (used to state stability). -/

variable {α : Type} {κ : Type} [LinearOrder κ]

/-- One run of the inner `while j >= 0 and arr[j] > key` loop of
`insertion_sort` (lines 53-57): walking the reversed prefix, each
element greater than the inserted element `k` is passed over (shifted
right in the array picture); the first element not greater than `k`
stops the loop and `k` is placed (`arr[j + 1] = key`). -/
def insRev (key : α → κ) (k : α) : List α → List α
  | [] => [k]
  | x :: t => if key x > key k then x :: insRev key k t else k :: x :: t

/-- The outer `for i in range(1, len(arr))` loop of `insertion_sort`
(line 48): state is the reversed already-sorted prefix and the list of
elements still to insert. -/
def insOuter (key : α → κ) : List α → List α → List α
  | revPre, [] => revPre.reverse
  | revPre, k :: rest => insOuter key (insRev key k revPre) rest

/-- `insertion_sort` of sorting_algorithms.py (lines 43-59), keyed
form.  The loop starts at `i = 1`, so the initial prefix is the first
element alone; an empty list is returned unchanged. -/
def insertion_sort_key (key : α → κ) : List α → List α
  | [] => []
  | a :: t => insOuter key [a] t

/-- `insertion_sort` as applied in the source to plainly ordered
elements: the key is the element itself. -/
def insertion_sort {β : Type} [LinearOrder β] (l : List β) : List β :=
  insertion_sort_key id l

theorem insRev_perm (key : α → κ) (k : α) :
    ∀ rp : List α, insRev key k rp ~ k :: rp := by
  intro rp
  induction rp with
  | nil => simp [insRev]
  | cons x t ih =>
      by_cases h : key x > key k
      · simpa [insRev, h] using ((ih.cons x).trans (Perm.swap k x t))
      · simp [insRev, h]

theorem insOuter_perm (key : α → κ) :
    ∀ rp rest : List α, insOuter key rp rest ~ rp ++ rest := by
  intro rp rest
  induction rest generalizing rp with
  | nil => simp [insOuter, reverse_perm]
  | cons k rest ih =>
      calc insOuter key (insRev key k rp) rest
          ~ insRev key k rp ++ rest := ih _
        _ ~ (k :: rp) ++ rest := Perm.append_right rest (insRev_perm key k rp)
        _ ~ rp ++ k :: rest := perm_middle.symm

theorem insertion_sort_key_perm (key : α → κ) (l : List α) :
    insertion_sort_key key l ~ l := by
  cases l with
  | nil => simp [insertion_sort_key]
  | cons a t => simpa [insertion_sort_key] using insOuter_perm key [a] t

/-- The reversed prefix is kept sorted in the reversed sense. -/
theorem insRev_pairwise (key : α → κ) (k : α) (rp : List α)
    (h : rp.Pairwise (fun a b => key b ≤ key a)) :
    (insRev key k rp).Pairwise (fun a b => key b ≤ key a) := by
  induction rp with
  | nil => simp [insRev]
  | cons x t ih =>
      rw [pairwise_cons] at h
      by_cases hx : key x > key k
      · rw [insRev, if_pos hx, pairwise_cons]
        refine ⟨?_, ih h.2⟩
        intro b hb
        rcases mem_cons.mp ((insRev_perm key k t).mem_iff.mp hb) with hb | hb
        · exact hb ▸ le_of_lt hx
        · exact h.1 b hb
      · rw [insRev, if_neg hx, pairwise_cons, pairwise_cons]
        refine ⟨?_, h⟩
        intro b hb
        rcases mem_cons.mp hb with hb | hb
        · exact hb ▸ le_of_not_lt hx
        · exact le_trans (h.1 b hb) (le_of_not_lt hx)

theorem insOuter_sorted (key : α → κ) :
    ∀ rp rest : List α, rp.Pairwise (fun a b => key b ≤ key a) →
      (insOuter key rp rest).Pairwise (fun a b => key a ≤ key b) := by
  intro rp rest
  induction rest generalizing rp with
  | nil =>
      intro h
      simpa [insOuter, pairwise_reverse] using h
  | cons k rest ih =>
      intro h
      exact ih _ (insRev_pairwise key k rp h)

theorem insertion_sort_key_sorted (key : α → κ) (l : List α) :
    (insertion_sort_key key l).Pairwise (fun a b => key a ≤ key b) := by
  cases l with
  | nil => simp [insertion_sort_key]
  | cons a t => exact insOuter_sorted key [a] t (by simp)

theorem insertion_sort_sorted {β : Type} [LinearOrder β] (l : List β) :
    (insertion_sort l).Sorted (· ≤ ·) :=
  insertion_sort_key_sorted (id : β → β) l

theorem insertion_sort_perm {β : Type} [LinearOrder β] (l : List β) :
    insertion_sort l ~ l :=
  insertion_sort_key_perm (id : β → β) l

/-- Inserting `k` never reorders elements of any fixed key class `c`:
elements passed over by the `while` loop are strictly greater than `k`,
so `k` lands after every earlier element of its own class. -/
theorem insRev_filter (key : α → κ) (k : α) (c : κ) (rp : List α) :
    (insRev key k rp).filter (fun x => key x = c) =
      if key k = c then k :: rp.filter (fun x => key x = c)
      else rp.filter (fun x => key x = c) := by
  induction rp with
  | nil => by_cases h : key k = c <;> simp [insRev, h]
  | cons x t ih =>
      by_cases hx : key x > key k
      · have step : insRev key k (x :: t) = x :: insRev key k t := by
          rw [insRev, if_pos hx]
        rw [step]
        by_cases hxeq : key x = c
        · have hk : ¬key k = c := by
            intro hk
            rw [hk, hxeq] at hx
            exact lt_irrefl c hx
          simp [hxeq, ih, hk]
        · simp [hxeq, ih]
      · have step : insRev key k (x :: t) = k :: x :: t := by
          rw [insRev, if_neg hx]
        rw [step]
        by_cases hk : key k = c <;> simp [hk]

theorem insOuter_filter (key : α → κ) (c : κ) :
    ∀ rp rest : List α,
      (insOuter key rp rest).filter (fun x => key x = c) =
        (rp.filter (fun x => key x = c)).reverse ++
          rest.filter (fun x => key x = c) := by
  intro rp rest
  induction rest generalizing rp with
  | nil => simp [insOuter, filter_reverse]
  | cons k rest ih =>
      rw [insOuter, ih, insRev_filter]
      by_cases hk : key k = c <;> simp [hk]

/-- Stability of `insertion_sort`: each key class of the output is the
key class of the input, in the original order. -/
theorem insertion_sort_key_stable (key : α → κ) (c : κ) (l : List α) :
    (insertion_sort_key key l).filter (fun x => key x = c) =
      l.filter (fun x => key x = c) := by
  cases l with
  | nil => simp [insertion_sort_key]
  | cons a t =>
      rw [insertion_sort_key, insOuter_filter]
      by_cases ha : key a = c <;> simp [ha]

/-! ## Merge sort (`merge_sort`, sorting_algorithms.py lines 62-101)

The Python function recursively sorts the two halves `L = arr[:mid]`
and `R = arr[mid:]` (`mid = len(arr) // 2`) and then merges them back
into `arr` with three `while` loops: the main loop takes from `L` while
`L[i] <= R[j]` (ties keep the left half) and the two trailing loops
copy the leftovers.  Since `L` and `R` are slices (copies), the final
content of `arr` — which is also the return value — is exactly the
merge of the two sorted halves. -/

/-- The merge step of `merge_sort` (lines 78-99): the main
`while i < len(L) and j < len(R)` loop with its `L[i] <= R[j]` test,
followed by the two leftover-copying loops (the `[], r` / `l, []`
equations). -/
def pymerge (key : α → κ) : List α → List α → List α
  | [], r => r
  | a :: l, [] => a :: l
  | a :: l, b :: r =>
      if key a ≤ key b then a :: pymerge key l (b :: r)
      else b :: pymerge key (a :: l) r
termination_by l r => l.length + r.length

/-- `merge_sort` of sorting_algorithms.py (lines 62-101), keyed form:
lists of length at most 1 are returned as they are (the
`if len(arr) > 1` guard), longer lists are split at `len(arr) // 2`,
recursively sorted and merged. -/
def merge_sort_key (key : α → κ) (l : List α) : List α :=
  if l.length ≤ 1 then l
  else
    pymerge key (merge_sort_key key (l.take (l.length / 2)))
      (merge_sort_key key (l.drop (l.length / 2)))
termination_by l.length
decreasing_by
  · simp only [length_take]
    omega
  · simp only [length_drop]
    omega

/-- `merge_sort` as applied in the source to plainly ordered
elements. -/
def merge_sort {β : Type} [LinearOrder β] (l : List β) : List β :=
  merge_sort_key id l

theorem pymerge_perm (key : α → κ) :
    ∀ l r : List α, pymerge key l r ~ l ++ r
  | [], r => by rw [pymerge, nil_append]
  | a :: l, [] => by rw [pymerge, append_nil]
  | a :: l, b :: r => by
      rw [pymerge]
      by_cases h : key a ≤ key b
      · rw [if_pos h]
        exact (pymerge_perm key l (b :: r)).cons a
      · rw [if_neg h]
        calc b :: pymerge key (a :: l) r
            ~ b :: (a :: l ++ r) := (pymerge_perm key (a :: l) r).cons b
          _ ~ a :: l ++ b :: r := perm_middle.symm
termination_by l r => l.length + r.length

theorem pymerge_pairwise (key : α → κ) :
    ∀ l r : List α, l.Pairwise (fun a b => key a ≤ key b) →
      r.Pairwise (fun a b => key a ≤ key b) →
      (pymerge key l r).Pairwise (fun a b => key a ≤ key b)
  | [], r => fun _ hr => by rw [pymerge]; exact hr
  | a :: l, [] => fun hl _ => by rw [pymerge]; exact hl
  | a :: l, b :: r => fun hl hr => by
      rw [pairwise_cons] at hl hr
      rw [pymerge]
      by_cases h : key a ≤ key b
      · rw [if_pos h, pairwise_cons]
        refine ⟨?_, pymerge_pairwise key l (b :: r) hl.2 (pairwise_cons.mpr hr)⟩
        intro x hx
        rcases mem_append.mp ((pymerge_perm key l (b :: r)).subset hx) with hx | hx
        · exact hl.1 x hx
        · rcases mem_cons.mp hx with hx | hx
          · exact hx ▸ h
          · exact le_trans h (hr.1 x hx)
      · rw [if_neg h, pairwise_cons]
        refine ⟨?_, pymerge_pairwise key (a :: l) r (pairwise_cons.mpr hl) hr.2⟩
        intro x hx
        have hba : key b ≤ key a := le_of_lt (lt_of_not_le h)
        rcases mem_append.mp ((pymerge_perm key (a :: l) r).subset hx) with hx | hx
        · rcases mem_cons.mp hx with hx | hx
          · exact hx ▸ hba
          · exact le_trans hba (hl.1 x hx)
        · exact hr.1 x hx
termination_by l r => l.length + r.length

/-- Stability of the merge step: because ties take the left element,
merging two key-sorted lists concatenates each key class of the left
list before that of the right list. -/
theorem pymerge_filter (key : α → κ) (c : κ) :
    ∀ l r : List α, l.Pairwise (fun a b => key a ≤ key b) →
      r.Pairwise (fun a b => key a ≤ key b) →
      (pymerge key l r).filter (fun x => key x = c) =
        l.filter (fun x => key x = c) ++ r.filter (fun x => key x = c)
  | [], r => fun _ _ => by rw [pymerge]; simp
  | a :: l, [] => fun _ _ => by rw [pymerge]; simp
  | a :: l, b :: r => fun hl hr => by
      rw [pairwise_cons] at hl hr
      rw [pymerge]
      by_cases h : key a ≤ key b
      · rw [if_pos h, filter_cons, filter_cons]
        rw [pymerge_filter key c l (b :: r) hl.2 (pairwise_cons.mpr hr)]
        by_cases ha : key a = c <;> simp [ha]
      · rw [if_neg h, filter_cons]
        rw [pymerge_filter key c (a :: l) r (pairwise_cons.mpr hl) hr.2]
        by_cases hb : key b = c
        · have hnone : (a :: l).filter (fun x => key x = c) = [] := by
            rw [filter_eq_nil_iff]
            intro x hx
            have hax : key a ≤ key x := by
              rcases mem_cons.mp hx with hx | hx
              · exact hx ▸ le_rfl
              · exact hl.1 x hx
            have : key b < key x := lt_of_lt_of_le (lt_of_not_le h) hax
            simp only [decide_eq_true_eq]
            intro hc
            rw [hc, ← hb] at this
            exact lt_irrefl _ this
          simp [hb, hnone, filter_cons]
        · simp [hb]
termination_by l r => l.length + r.length

theorem take_half_length_lt {l : List α} (h : ¬l.length ≤ 1) :
    (l.take (l.length / 2)).length < l.length := by
  rw [length_take]
  exact lt_of_le_of_lt (min_le_left _ _) (Nat.div_lt_self (by omega) (by omega))

theorem drop_half_length_lt {l : List α} (h : ¬l.length ≤ 1) :
    (l.drop (l.length / 2)).length < l.length := by
  rw [length_drop]
  have : 1 ≤ l.length / 2 := by
    have : 2 ≤ l.length := by omega
    exact Nat.le_div_iff_mul_le (by omega) |>.mpr (by omega)
  omega

theorem merge_sort_key_perm (key : α → κ) (l : List α) :
    merge_sort_key key l ~ l := by
  generalize hn : l.length = n
  induction n using Nat.strong_induction_on generalizing l with
  | _ n ih =>
      subst hn
      rw [merge_sort_key]
      by_cases h : l.length ≤ 1
      · rw [if_pos h]
      · rw [if_neg h]
        have h1 := ih _ (take_half_length_lt h) _ rfl
        have h2 := ih _ (drop_half_length_lt h) _ rfl
        calc pymerge key (merge_sort_key key (l.take (l.length / 2)))
              (merge_sort_key key (l.drop (l.length / 2)))
            ~ merge_sort_key key (l.take (l.length / 2)) ++
                merge_sort_key key (l.drop (l.length / 2)) :=
              pymerge_perm key _ _
          _ ~ l.take (l.length / 2) ++ l.drop (l.length / 2) := h1.append h2
          _ = l := take_append_drop _ l

theorem merge_sort_key_pairwise (key : α → κ) (l : List α) :
    (merge_sort_key key l).Pairwise (fun a b => key a ≤ key b) := by
  generalize hn : l.length = n
  induction n using Nat.strong_induction_on generalizing l with
  | _ n ih =>
      subst hn
      rw [merge_sort_key]
      by_cases h : l.length ≤ 1
      · rw [if_pos h]
        cases l with
        | nil => exact Pairwise.nil
        | cons a t =>
            cases t with
            | nil => exact pairwise_singleton _ a
            | cons b t2 => simp at h
      · rw [if_neg h]
        exact pymerge_pairwise key _ _
          (ih _ (take_half_length_lt h) _ rfl)
          (ih _ (drop_half_length_lt h) _ rfl)

/-- Stability of `merge_sort`. -/
theorem merge_sort_key_stable (key : α → κ) (c : κ) (l : List α) :
    (merge_sort_key key l).filter (fun x => key x = c) =
      l.filter (fun x => key x = c) := by
  generalize hn : l.length = n
  induction n using Nat.strong_induction_on generalizing l with
  | _ n ih =>
      subst hn
      rw [merge_sort_key]
      by_cases h : l.length ≤ 1
      · rw [if_pos h]
      · rw [if_neg h]
        rw [pymerge_filter key c _ _
          (merge_sort_key_pairwise key (l.take (l.length / 2)))
          (merge_sort_key_pairwise key (l.drop (l.length / 2)))]
        rw [ih _ (take_half_length_lt h) _ rfl]
        rw [ih _ (drop_half_length_lt h) _ rfl]
        rw [← filter_append, take_append_drop]

theorem merge_sort_sorted {β : Type} [LinearOrder β] (l : List β) :
    (merge_sort l).Sorted (· ≤ ·) :=
  merge_sort_key_pairwise (id : β → β) l

theorem merge_sort_perm {β : Type} [LinearOrder β] (l : List β) :
    merge_sort l ~ l :=
  merge_sort_key_perm (id : β → β) l

/-! ## Bubble sort (`bubble_sort`, sorting_algorithms.py lines 1-20)

The Python function sorts `arr` in place.  The inner
`for j in range(0, n - i - 1)` loop performs `n - i - 1` adjacent
comparisons from the left end, swapping out-of-order pairs and setting
the `swapped` flag; the outer `for i in range(n)` loop repeats it with
a shrinking bound and stops early (`break`) as soon as a pass swaps
nothing.  We model the inner loop structurally: walking the list while
counting down the remaining comparisons, the currently compared left
element is carried along (a swap keeps carrying it, otherwise the right
element is carried next). -/

variable {β : Type} [LinearOrder β]

/-- One inner pass of `bubble_sort` (lines 11-14): `stop` remaining
comparisons, `sw` the current value of the `swapped` flag; returns the
rewritten list and the final flag. -/
def bubblePass : Nat → Bool → List β → List β × Bool
  | 0, sw, l => (l, sw)
  | _ + 1, sw, [] => ([], sw)
  | _ + 1, sw, [a] => ([a], sw)
  | k + 1, sw, a :: b :: t =>
      if a > b then
        let r := bubblePass k true (a :: t)
        (b :: r.1, r.2)
      else
        let r := bubblePass k sw (b :: t)
        (a :: r.1, r.2)

/-- The outer `for i in range(n)` loop of `bubble_sort` (lines 7-18)
with its early `break`: when `m + 1` iterations remain the inner pass
performs `n - i - 1 = m` comparisons. -/
def bubbleLoop : Nat → List β → List β
  | 0, l => l
  | m + 1, l =>
      let r := bubblePass m false l
      if r.2 then bubbleLoop m r.1 else r.1

/-- `bubble_sort` of sorting_algorithms.py (lines 1-20). -/
def bubble_sort (l : List β) : List β := bubbleLoop l.length l

theorem bubblePass_flag_true (k : Nat) :
    ∀ l : List β, (bubblePass k true l).2 = true := by
  induction k with
  | zero => intro l; rw [bubblePass]
  | succ k ih =>
      intro l
      match l with
      | [] => rw [bubblePass]
      | [a] => rw [bubblePass]
      | a :: b :: t =>
          rw [bubblePass]
          by_cases h : a > b <;> simp [h, ih]

theorem bubblePass_perm (k : Nat) (sw : Bool) :
    ∀ l : List β, (bubblePass k sw l).1 ~ l := by
  induction k generalizing sw with
  | zero => intro l; rw [bubblePass]
  | succ k ih =>
      intro l
      match l with
      | [] => rw [bubblePass]
      | [a] => rw [bubblePass]
      | a :: b :: t =>
          rw [bubblePass]
          by_cases h : a > b
          · simp only [h, if_true]
            calc b :: (bubblePass k true (a :: t)).1
                ~ b :: a :: t := ((ih true) (a :: t)).cons b
              _ ~ a :: b :: t := Perm.swap a b t
          · simp only [h, if_false]
            exact ((ih sw) (b :: t)).cons a

theorem bubblePass_length (k : Nat) (sw : Bool) (l : List β) :
    (bubblePass k sw l).1.length = l.length :=
  (bubblePass_perm k sw l).length_eq

/-- A pass that ends with the flag still `false` made no swap: the list
is returned unchanged and its first `k + 1` elements are in order. -/
theorem bubblePass_no_swap (k : Nat) :
    ∀ l : List β, (bubblePass k false l).2 = false →
      (bubblePass k false l).1 = l ∧ Chain' (· ≤ ·) (l.take (k + 1)) := by
  induction k with
  | zero =>
      intro l _
      refine ⟨by rw [bubblePass], ?_⟩
      match l with
      | [] => simp
      | a :: t => simp
  | succ k ih =>
      intro l hflag
      match l with
      | [] => exact ⟨by rw [bubblePass], by simp⟩
      | [a] => exact ⟨by rw [bubblePass], by simp⟩
      | a :: b :: t =>
          by_cases h : a > b
          · exfalso
            rw [bubblePass] at hflag
            simp only [h, if_true] at hflag
            rw [bubblePass_flag_true] at hflag
            exact Bool.noConfusion hflag
          · rw [bubblePass] at hflag ⊢
            simp only [h, if_false] at hflag ⊢
            have h2 := ih (b :: t) hflag
            refine ⟨by rw [h2.1], ?_⟩
            have hchain : Chain' (· ≤ ·) (b :: t.take k) := by
              have := h2.2
              rwa [take_succ_cons] at this
            rw [take_succ_cons, take_succ_cons]
            exact chain'_cons.mpr ⟨le_of_not_lt h, hchain⟩

/-- A pass with `k` comparisons only rewrites the first `k + 1`
positions: beyond them the list is unchanged, within them it is
permuted. -/
theorem bubblePass_take_drop (k : Nat) (sw : Bool) :
    ∀ l : List β, (bubblePass k sw l).1.drop (k + 1) = l.drop (k + 1) ∧
      (bubblePass k sw l).1.take (k + 1) ~ l.take (k + 1) := by
  induction k generalizing sw with
  | zero => intro l; rw [bubblePass]; exact ⟨rfl, Perm.refl _⟩
  | succ k ih =>
      intro l
      match l with
      | [] => rw [bubblePass]; exact ⟨rfl, Perm.refl _⟩
      | [a] => rw [bubblePass]; exact ⟨rfl, Perm.refl _⟩
      | a :: b :: t =>
          rw [bubblePass]
          by_cases h : a > b
          · simp only [h, if_true]
            refine ⟨?_, ?_⟩
            · simp only [drop_succ_cons]
              rw [(ih true (a :: t)).1, drop_succ_cons]
            · rw [take_succ_cons, take_succ_cons, take_succ_cons]
              calc b :: (bubblePass k true (a :: t)).1.take (k + 1)
                  ~ b :: (a :: t).take (k + 1) := ((ih true (a :: t)).2).cons b
                _ = b :: a :: t.take k := by rw [take_succ_cons]
                _ ~ a :: b :: t.take k := Perm.swap a b _
          · simp only [h, if_false]
            refine ⟨?_, ?_⟩
            · simp only [drop_succ_cons]
              rw [(ih sw (b :: t)).1, drop_succ_cons]
            · rw [take_succ_cons, take_succ_cons]
              exact ((ih sw (b :: t)).2).cons a

/-- After a pass with `k` comparisons the element at position `k` is an
upper bound of the first `k + 1` positions (the maximum has bubbled to
the right end of the touched region). -/
theorem bubblePass_max (k : Nat) (sw : Bool) :
    ∀ l : List β, k < l.length →
      ∃ mx, (bubblePass k sw l).1[k]? = some mx ∧
        ∀ x ∈ (bubblePass k sw l).1.take (k + 1), x ≤ mx := by
  induction k generalizing sw with
  | zero =>
      intro l hk
      match l with
      | a :: t =>
          rw [bubblePass]
          exact ⟨a, by simp, by simp⟩
  | succ k ih =>
      intro l hk
      match l with
      | [a] => simp at hk
      | a :: b :: t =>
          rw [bubblePass]
          by_cases h : a > b
          · simp only [h, if_true]
            have hlen : k < (a :: t).length := by
              simp only [length_cons] at hk ⊢
              omega
            obtain ⟨mx, hmx, hbound⟩ := ih true (a :: t) hlen
            refine ⟨mx, by rw [getElem?_cons_succ]; exact hmx, ?_⟩
            intro x hx
            rw [take_succ_cons] at hx
            have hamem : a ∈ (bubblePass k true (a :: t)).1.take (k + 1) := by
              have : a ∈ (a :: t).take (k + 1) := by
                rw [take_succ_cons]; exact mem_cons_self a _
              exact ((bubblePass_take_drop k true (a :: t)).2.mem_iff).mpr this
            rcases mem_cons.mp hx with hx | hx
            · exact hx ▸ le_trans (le_of_lt h) (hbound a hamem)
            · exact hbound x hx
          · simp only [h, if_false]
            have hlen : k < (b :: t).length := by
              simp only [length_cons] at hk ⊢
              omega
            obtain ⟨mx, hmx, hbound⟩ := ih sw (b :: t) hlen
            refine ⟨mx, by rw [getElem?_cons_succ]; exact hmx, ?_⟩
            intro x hx
            rw [take_succ_cons] at hx
            have hbmem : b ∈ (bubblePass k sw (b :: t)).1.take (k + 1) := by
              have : b ∈ (b :: t).take (k + 1) := by
                rw [take_succ_cons]; exact mem_cons_self b _
              exact ((bubblePass_take_drop k sw (b :: t)).2.mem_iff).mpr this
            rcases mem_cons.mp hx with hx | hx
            · exact hx ▸ le_trans (le_of_not_lt h) (hbound b hbmem)
            · exact hbound x hx

/-- Invariant of the outer loop: with `m` iterations remaining, the
suffix `l.drop m` is sorted and dominates the prefix, and the loop
returns a sorted permutation. -/
theorem bubbleLoop_correct :
    ∀ (m : Nat) (l : List β), m ≤ l.length →
      Chain' (· ≤ ·) (l.drop m) →
      (∀ x ∈ l.take m, ∀ y ∈ l.drop m, x ≤ y) →
      bubbleLoop m l ~ l ∧ Chain' (· ≤ ·) (bubbleLoop m l) := by
  intro m
  induction m with
  | zero =>
      intro l _ hchain _
      rw [bubbleLoop]
      exact ⟨Perm.refl _, by rwa [drop_zero] at hchain⟩
  | succ m ih =>
      intro l hlen hchain hbnd
      rw [bubbleLoop]
      have hm : m < l.length := by omega
      set r := bubblePass m false l with hr
      have hperm : r.1 ~ l := bubblePass_perm m false l
      have hrlen : r.1.length = l.length := hperm.length_eq
      have hlocal := bubblePass_take_drop m false l
      obtain ⟨mx, hmx, hmxbound⟩ := bubblePass_max m false l hm
      have hmxmem : mx ∈ r.1.take (m + 1) := by
        apply getElem?_mem
        rw [getElem?_take_of_succ]
        exact hmx
      have hmxmem' : mx ∈ l.take (m + 1) := (hlocal.2.mem_iff).mp hmxmem
      have hmxle : ∀ y ∈ l.drop (m + 1), mx ≤ y := fun y hy =>
        hbnd mx hmxmem' y hy
      have hdropr : r.1.drop m = mx :: l.drop (m + 1) := by
        have hmr : m < r.1.length := by omega
        have := drop_eq_getElem_cons hmr
        rw [this, hlocal.1]
        have : r.1[m] = mx := by
          have := getElem?_eq_getElem hmr
          rw [this] at hmx
          exact (Option.some.injEq _ _).mp hmx
        rw [this]
      have hchain' : Chain' (· ≤ ·) (r.1.drop m) := by
        rw [hdropr]
        rw [chain'_cons']
        exact ⟨fun y hy => hmxle y (mem_of_mem_head? hy), hchain⟩
      have hbnd' : ∀ x ∈ r.1.take m, ∀ y ∈ r.1.drop m, x ≤ y := by
        intro x hx y hy
        have hx1 : x ∈ r.1.take (m + 1) := by
          have : r.1.take m = (r.1.take (m + 1)).take m := by
            rw [take_take]
            have : min m (m + 1) = m := by omega
            rw [this]
          rw [this] at hx
          exact mem_of_mem_take hx
        rw [hdropr] at hy
        rcases mem_cons.mp hy with hy | hy
        · exact hy ▸ hmxbound x hx1
        · exact hbnd x ((hlocal.2.mem_iff).mp hx1) y hy
      by_cases hflag : r.2 = true
      · rw [if_pos hflag]
        have hrec := ih r.1 (by omega) hchain' hbnd'
        exact ⟨hrec.1.trans hperm, hrec.2⟩
      · rw [if_neg hflag]
        have hns := bubblePass_no_swap m l (Bool.not_eq_true _ ▸ hflag)
        refine ⟨by rw [hns.1], ?_⟩
        rw [hns.1, ← take_append_drop (m + 1) l]
        rw [chain'_append]
        refine ⟨hns.2, hchain, ?_⟩
        · intro x hxl y hyh
          obtain ⟨hne, hxe⟩ := mem_getLast?_eq_getLast hxl
          have hxmem : x ∈ l.take (m + 1) := hxe ▸ getLast_mem hne
          exact hbnd x hxmem y (mem_of_mem_head? hyh)

theorem bubble_sort_perm (l : List β) : bubble_sort l ~ l := by
  have := bubbleLoop_correct l.length l le_rfl (by simp) (by simp)
  exact this.1

theorem bubble_sort_sorted (l : List β) : (bubble_sort l).Sorted (· ≤ ·) := by
  have := bubbleLoop_correct l.length l le_rfl (by simp) (by simp)
  exact (chain'_iff_pairwise).mp this.2

/-! ## Selection sort (`selection_sort`, sorting_algorithms.py lines 23-40)

The Python function sorts `arr` in place: for each `i` the inner
`for j in range(i + 1, n)` loop scans for the index of the minimum of
the unsorted suffix (`min_idx`, updated only on a strict `<`, hence the
first occurrence of the minimum), and then `arr[i]` and `arr[min_idx]`
are swapped.  We model the outer loop as structural recursion on the
unsorted suffix.  The scan carries the value at `min_idx` alongside the
index (the source re-reads `arr[min_idx]` instead). -/

/-- The inner scan of `selection_sort` (lines 31-35): `mv`/`mi` are the
value and index of the current minimum, `j` the index of the head of
the unscanned rest. -/
def findMin : β → Nat → List β → Nat → β × Nat
  | mv, mi, [], _ => (mv, mi)
  | mv, mi, x :: rest, j =>
      if x < mv then findMin x j rest (j + 1) else findMin mv mi rest (j + 1)

/-- One iteration of the outer loop of `selection_sort` (lines 30-38)
acting on the unsorted suffix `a :: t` (`a` at relative index 0): scan
for the minimum, then swap it with `a` (`arr[i], arr[min_idx] = ...`;
the swap is a no-op when the minimum is at index 0). -/
def selStep (a : β) (t : List β) : β × List β :=
  let m := findMin a 0 t 1
  if m.2 = 0 then (a, t) else (m.1, t.set (m.2 - 1) a)

theorem findMin_spec :
    ∀ (rest : List β) (mv : β) (mi j : Nat),
      ((findMin mv mi rest j).1 ≤ mv ∧
        ∀ x ∈ rest, (findMin mv mi rest j).1 ≤ x) ∧
      (findMin mv mi rest j = (mv, mi) ∨
        ∃ i, i < rest.length ∧ (findMin mv mi rest j).2 = j + i ∧
          rest[i]? = some (findMin mv mi rest j).1) := by
  intro rest
  induction rest with
  | nil => intro mv mi j; rw [findMin]; exact ⟨⟨le_rfl, by simp⟩, Or.inl rfl⟩
  | cons x rest ih =>
      intro mv mi j
      rw [findMin]
      by_cases h : x < mv
      · rw [if_pos h]
        obtain ⟨⟨h1, h2⟩, h3⟩ := ih x j (j + 1)
        refine ⟨⟨le_trans h1 (le_of_lt h), ?_⟩, ?_⟩
        · intro y hy
          rcases mem_cons.mp hy with hy | hy
          · exact hy ▸ h1
          · exact h2 y hy
        · rcases h3 with h3 | ⟨i, hi, hidx, hval⟩
          · refine Or.inr ⟨0, by simp, ?_, ?_⟩
            · simp [h3]
            · simp [h3]
          · refine Or.inr ⟨i + 1, by simpa using hi, by omega, by simpa using hval⟩
      · rw [if_neg h]
        obtain ⟨⟨h1, h2⟩, h3⟩ := ih mv mi (j + 1)
        refine ⟨⟨h1, ?_⟩, ?_⟩
        · intro y hy
          rcases mem_cons.mp hy with hy | hy
          · exact hy ▸ le_trans h1 (le_of_not_lt h)
          · exact h2 y hy
        · rcases h3 with h3 | ⟨i, hi, hidx, hval⟩
          · exact Or.inl h3
          · refine Or.inr ⟨i + 1, by simpa using hi, by omega, by simpa using hval⟩

/-- Overwriting the position of a known element is, up to permutation,
replacing it:  `x :: t.set i a ~ a :: t` when `t[i] = x`. -/
theorem set_perm :
    ∀ (t : List β) (i : Nat) (a x : β), t[i]? = some x →
      x :: t.set i a ~ a :: t := by
  intro t
  induction t with
  | nil => intro i a x h; simp at h
  | cons y t2 ih =>
      intro i a x h
      match i with
      | 0 =>
          simp only [getElem?_cons_zero, Option.some.injEq] at h
          rw [set_cons_zero, ← h]
          exact Perm.swap a y t2
      | i + 1 =>
          rw [getElem?_cons_succ] at h
          rw [set_cons_succ]
          calc x :: y :: t2.set i a
              ~ y :: x :: t2.set i a := Perm.swap y x _
            _ ~ y :: a :: t2 := (ih i a x h).cons y
            _ ~ a :: y :: t2 := Perm.swap a y t2

theorem selStep_spec (a : β) (t : List β) :
    (selStep a t).1 :: (selStep a t).2 ~ a :: t ∧
      ∀ x ∈ a :: t, (selStep a t).1 ≤ x := by
  obtain ⟨⟨h1, h2⟩, h3⟩ := findMin_spec t a 0 1
  have hbound : ∀ x ∈ a :: t, (findMin a 0 t 1).1 ≤ x := by
    intro x hx
    rcases mem_cons.mp hx with hx | hx
    · exact hx ▸ h1
    · exact h2 x hx
  rw [selStep]
  by_cases hz : (findMin a 0 t 1).2 = 0
  · rw [if_pos hz]
    have hval : (findMin a 0 t 1).1 = a := by
      rcases h3 with h3 | ⟨i, _, hidx, _⟩
      · rw [h3]
      · omega
    exact ⟨Perm.refl _, by simpa [hval] using hbound⟩
  · rw [if_neg hz]
    rcases h3 with h3 | ⟨i, hi, hidx, hval⟩
    · exact absurd (by rw [h3]) hz
    · have hidx' : (findMin a 0 t 1).2 - 1 = i := by omega
      exact ⟨by rw [hidx']; exact set_perm t i a _ hval, hbound⟩

theorem selStep_snd_length (a : β) (t : List β) :
    (selStep a t).2.length = t.length := by
  have := (selStep_spec a t).1.length_eq
  simpa using this

/-- `selection_sort` of sorting_algorithms.py (lines 23-40): the
already-selected prefix is final, so the loop is recursion on the
suffix (the last iteration, `i = n - 1`, scans an empty range and
swaps `arr[i]` with itself, matching the singleton step). -/
def selection_sort : List β → List β
  | [] => []
  | a :: t =>
      (selStep a t).1 :: selection_sort (selStep a t).2
termination_by l => l.length
decreasing_by
  rw [selStep_snd_length]
  simp only [length_cons]
  omega

theorem selection_sort_perm (l : List β) : selection_sort l ~ l := by
  generalize hn : l.length = n
  induction n using Nat.strong_induction_on generalizing l with
  | _ n ih =>
      subst hn
      match l with
      | [] => rw [selection_sort]
      | a :: t =>
          rw [selection_sort]
          have hlt : (selStep a t).2.length < (a :: t).length := by
            rw [selStep_snd_length]
            simp only [length_cons]
            omega
          calc (selStep a t).1 :: selection_sort (selStep a t).2
              ~ (selStep a t).1 :: (selStep a t).2 :=
                (ih _ hlt _ rfl).cons _
            _ ~ a :: t := (selStep_spec a t).1

theorem selection_sort_sorted (l : List β) :
    (selection_sort l).Sorted (· ≤ ·) := by
  generalize hn : l.length = n
  induction n using Nat.strong_induction_on generalizing l with
  | _ n ih =>
      subst hn
      match l with
      | [] => rw [selection_sort]; exact Pairwise.nil
      | a :: t =>
          rw [selection_sort]
          have hlt : (selStep a t).2.length < (a :: t).length := by
            rw [selStep_snd_length]
            simp only [length_cons]
            omega
          rw [sorted_cons]
          refine ⟨?_, ih _ hlt _ rfl⟩
          intro x hx
          have hx2 : x ∈ (selStep a t).2 :=
            (selection_sort_perm _).subset hx
          have : x ∈ a :: t :=
            (selStep_spec a t).1.subset (mem_cons_of_mem _ hx2)
          exact (selStep_spec a t).2 x this

/-! ## Quick sort (`quick_sort`, sorting_algorithms.py lines 104-136)

The Python function copies `arr` and runs Lomuto partitioning on the
segment `arr[low..high]`: pivot `arr[high]`, and a scan of `j` over
`[low, high)` maintaining positions `[low..i]` as the `<= pivot` region
and `[i+1..j-1]` as the `> pivot` region.  We pass this segment state
explicitly: `lo` is the content of `[low..i]`, `hi` of `[i+1..j-1]`.
When `arr[j] <= pivot`, the swap `arr[i+1] <-> arr[j]` appends the
scanned element to `lo` and moves the first element of `hi` (the one
that sat at position `i+1`) to the end of `hi` (position `j`); when
`hi` is empty the swap is a self-swap.  Otherwise the scanned element
joins the end of `hi`.  The final `arr[i+1] <-> arr[high]` swap
(line 122) likewise puts the pivot right after `lo` and rotates `hi`
once more, after which the two sub-segments are sorted recursively. -/

/-- Effect of a swap `arr[i+1] <-> arr[j]` on the `> pivot` region
(its first element moves to the freshly scanned last position; a no-op
on an empty region, where the swap is a self-swap). -/
def rotateOne : List β → List β
  | [] => []
  | h :: ht => ht ++ [h]

/-- The `for j in range(low, high)` loop of `partition`
(lines 116-120), with the two regions as explicit state. -/
def lomuto (p : β) : List β → List β → List β → List β × List β
  | lo, hi, [] => (lo, hi)
  | lo, hi, c :: rest =>
      if c ≤ p then lomuto p (lo ++ [c]) (rotateOne hi) rest
      else lomuto p lo (hi ++ [c]) rest

theorem rotateOne_length (l : List β) : (rotateOne l).length = l.length := by
  cases l with
  | nil => rfl
  | cons h ht => simp [rotateOne]

theorem rotateOne_perm (l : List β) : rotateOne l ~ l := by
  cases l with
  | nil => exact Perm.refl _
  | cons h ht => exact perm_append_singleton h ht

theorem lomuto_length (p : β) (lo hi rest : List β) :
    (lomuto p lo hi rest).1.length + (lomuto p lo hi rest).2.length =
      lo.length + hi.length + rest.length := by
  induction rest generalizing lo hi with
  | nil => rw [lomuto]; simp
  | cons c rest ih =>
      rw [lomuto]
      by_cases h : c ≤ p
      · rw [if_pos h, ih]
        simp [rotateOne_length]
        omega
      · rw [if_neg h, ih]
        simp
        omega

/-- The `<= pivot` region collects exactly the scanned elements that
compare `<= pivot`, in scan order. -/
theorem lomuto_fst (p : β) (lo hi rest : List β) :
    (lomuto p lo hi rest).1 = lo ++ rest.filter (fun c => c ≤ p) := by
  induction rest generalizing lo hi with
  | nil => rw [lomuto]; simp
  | cons c rest ih =>
      rw [lomuto]
      by_cases h : c ≤ p
      · have hf : (c :: rest).filter (fun c => decide (c ≤ p)) =
            c :: rest.filter (fun c => decide (c ≤ p)) := by simp [h]
        rw [if_pos h, ih, hf]
        simp
      · have hf : (c :: rest).filter (fun c => decide (c ≤ p)) =
            rest.filter (fun c => decide (c ≤ p)) := by simp [h]
        rw [if_neg h, ih, hf]

/-- The `> pivot` region is, up to the rotations caused by the swaps,
the scanned elements that compare `> pivot`. -/
theorem lomuto_snd (p : β) (lo hi rest : List β) :
    (lomuto p lo hi rest).2 ~ hi ++ rest.filter (fun c => !decide (c ≤ p)) := by
  induction rest generalizing lo hi with
  | nil => rw [lomuto]; simp
  | cons c rest ih =>
      rw [lomuto]
      by_cases h : c ≤ p
      · have hf : (c :: rest).filter (fun c => !decide (c ≤ p)) =
            rest.filter (fun c => !decide (c ≤ p)) := by simp [h]
        rw [if_pos h, hf]
        calc (lomuto p (lo ++ [c]) (rotateOne hi) rest).2
            ~ rotateOne hi ++ rest.filter (fun c => !decide (c ≤ p)) :=
              ih (lo ++ [c]) (rotateOne hi)
          _ ~ hi ++ rest.filter (fun c => !decide (c ≤ p)) :=
              Perm.append_right _ (rotateOne_perm hi)
      · have hf : (c :: rest).filter (fun c => !decide (c ≤ p)) =
            c :: rest.filter (fun c => !decide (c ≤ p)) := by simp [h]
        rw [if_neg h, hf]
        calc (lomuto p lo (hi ++ [c]) rest).2
            ~ (hi ++ [c]) ++ rest.filter (fun c => !decide (c ≤ p)) :=
              ih lo (hi ++ [c])
          _ = hi ++ c :: rest.filter (fun c => !decide (c ≤ p)) := by
              rw [append_assoc, singleton_append]

theorem lomuto_helper_fst_lt (p a : β) (t : List β) :
    (lomuto p [] [] ((a :: t).dropLast)).1.length < (a :: t).length := by
  have h := lomuto_length p [] [] ((a :: t).dropLast)
  simp only [length_nil, length_dropLast, length_cons] at h
  simp only [length_cons]
  omega

theorem lomuto_helper_snd_lt (p a : β) (t : List β) :
    (rotateOne (lomuto p [] [] ((a :: t).dropLast)).2).length <
      (a :: t).length := by
  have h := lomuto_length p [] [] ((a :: t).dropLast)
  simp only [length_nil, length_dropLast, length_cons] at h
  rw [rotateOne_length]
  simp only [length_cons]
  omega

/-- `quick_sort_helper` (lines 125-132) acting on a whole nonempty
segment: partition around the last element, then recurse on the two
sub-segments (`arr[low..pi-1]` and `arr[pi+1..high]`). -/
def quickHelper : List β → List β
  | [] => []
  | a :: t =>
      let p := (a :: t).getLast (cons_ne_nil a t)
      let pr := lomuto p [] [] ((a :: t).dropLast)
      quickHelper pr.1 ++ p :: quickHelper (rotateOne pr.2)
termination_by l => l.length
decreasing_by
  · exact lomuto_helper_fst_lt _ _ _
  · exact lomuto_helper_snd_lt _ _ _

/-- `quick_sort` of sorting_algorithms.py (lines 104-136): lists of
length at most 1 are returned as they are (line 109), otherwise the
helper runs over the whole copied list (`low = 0`,
`high = len - 1`). -/
def quick_sort (l : List β) : List β :=
  if l.length ≤ 1 then l else quickHelper l

theorem quickHelper_perm (l : List β) : quickHelper l ~ l := by
  generalize hn : l.length = n
  induction n using Nat.strong_induction_on generalizing l with
  | _ n ih =>
      subst hn
      match l with
      | [] => rw [quickHelper]
      | a :: t =>
          rw [quickHelper]
          have hfst := lomuto_fst ((a :: t).getLast (cons_ne_nil a t)) [] []
            ((a :: t).dropLast)
          have hsnd := lomuto_snd ((a :: t).getLast (cons_ne_nil a t)) [] []
            ((a :: t).dropLast)
          rw [nil_append] at hfst
          rw [nil_append] at hsnd
          set p := (a :: t).getLast (cons_ne_nil a t) with hp
          set pr := lomuto p [] [] ((a :: t).dropLast) with hpr
          have ihl := ih _ (lomuto_helper_fst_lt p a t) pr.1 rfl
          have ihr := ih _ (lomuto_helper_snd_lt p a t) (rotateOne pr.2) rfl
          calc quickHelper pr.1 ++ p :: quickHelper (rotateOne pr.2)
              ~ pr.1 ++ p :: rotateOne pr.2 :=
                Perm.append ihl (Perm.cons p ihr)
            _ ~ pr.1 ++ p :: pr.2 :=
                Perm.append_left _ (Perm.cons p (rotateOne_perm _))
            _ ~ pr.1 ++ p :: ((a :: t).dropLast.filter
                  (fun c => !decide (c ≤ p))) :=
                Perm.append_left _ (Perm.cons p hsnd)
            _ ~ p :: (pr.1 ++ (a :: t).dropLast.filter
                  (fun c => !decide (c ≤ p))) := perm_middle
            _ ~ p :: (a :: t).dropLast := by
                refine Perm.cons p ?_
                rw [hfst]
                exact filter_append_perm _ _
            _ ~ (a :: t).dropLast ++ [p] :=
                (perm_append_singleton p _).symm
            _ = a :: t := by
                rw [hp, dropLast_append_getLast]

theorem quickHelper_sorted (l : List β) :
    (quickHelper l).Sorted (· ≤ ·) := by
  generalize hn : l.length = n
  induction n using Nat.strong_induction_on generalizing l with
  | _ n ih =>
      subst hn
      match l with
      | [] => rw [quickHelper]; exact Pairwise.nil
      | a :: t =>
          rw [quickHelper]
          have hfst := lomuto_fst ((a :: t).getLast (cons_ne_nil a t)) [] []
            ((a :: t).dropLast)
          have hsnd := lomuto_snd ((a :: t).getLast (cons_ne_nil a t)) [] []
            ((a :: t).dropLast)
          rw [nil_append] at hfst
          rw [nil_append] at hsnd
          set p := (a :: t).getLast (cons_ne_nil a t) with hp
          set pr := lomuto p [] [] ((a :: t).dropLast) with hpr
          have hmem1 : ∀ x ∈ quickHelper pr.1, x ≤ p := by
            intro x hx
            have hx1 : x ∈ pr.1 := (quickHelper_perm pr.1).subset hx
            rw [hfst] at hx1
            have hx3 := of_mem_filter hx1
            simpa using hx3
          have hmem2 : ∀ x ∈ quickHelper (rotateOne pr.2), p ≤ x := by
            intro x hx
            have hx1 : x ∈ pr.2 :=
              (rotateOne_perm pr.2).subset ((quickHelper_perm _).subset hx)
            have hx2 := of_mem_filter (hsnd.subset hx1)
            simp only [Bool.not_eq_true', decide_eq_false_iff_not] at hx2
            exact le_of_not_le hx2
          rw [Sorted, pairwise_append]
          refine ⟨ih _ (lomuto_helper_fst_lt p a t) pr.1 rfl, ?_, ?_⟩
          · rw [pairwise_cons]
            exact ⟨fun x hx => hmem2 x hx,
              ih _ (lomuto_helper_snd_lt p a t) (rotateOne pr.2) rfl⟩
          · intro x hx y hy
            rcases mem_cons.mp hy with hy | hy
            · exact hy ▸ hmem1 x hx
            · exact le_trans (hmem1 x hx) (hmem2 y hy)

theorem quick_sort_perm (l : List β) : quick_sort l ~ l := by
  rw [quick_sort]
  by_cases h : l.length ≤ 1
  · rw [if_pos h]
  · rw [if_neg h]
    exact quickHelper_perm l

theorem quick_sort_sorted (l : List β) : (quick_sort l).Sorted (· ≤ ·) := by
  rw [quick_sort]
  by_cases h : l.length ≤ 1
  · rw [if_pos h]
    match l, h with
    | [], _ => exact Pairwise.nil
    | [a], _ => exact pairwise_singleton _ a
  · rw [if_neg h]
    exact quickHelper_sorted l

/-! ## Shell sort (`shell_sort`, sorting_algorithms.py lines 308-337)

The Python function copies `arr` and runs gapped insertion passes: for
each gap in the sequence `n // 2, n // 4, ..., 1` an insertion pass
processes indices `i` from `gap` to `n - 1`, shifting the gapped
predecessors greater than `temp = arr_copy[i]` up by `gap` until the
slot for `temp` is found.  Array cells are read with a default value
(`default` of an `Inhabited` instance) that is never actually used:
every access in a reachable state is in range.  The inner `while` loop
gets the fuel `j`, which dominates its iteration count since `j`
decreases by `gap ≥ 1` each time. -/

variable [Inhabited β]

/-- The inner `while j >= gap and arr_copy[j - gap] > temp` loop of
`shell_sort` (lines 327-332), including the final `arr_copy[j] = temp`
store. -/
def shellInner (g : Nat) (temp : β) : Nat → List β → Nat → List β
  | 0, l, j => l.set j temp
  | fuel + 1, l, j =>
      if g ≤ j ∧ l.getD (j - g) default > temp then
        shellInner g temp fuel (l.set j (l.getD (j - g) default)) (j - g)
      else l.set j temp

/-- The `for i in range(gap, n)` loop of `shell_sort` (lines 320-332):
`fuel` many iterations starting at index `i`. -/
def gapPassAux (g : Nat) : Nat → Nat → List β → List β
  | 0, _, l => l
  | fuel + 1, i, l =>
      gapPassAux g fuel (i + 1) (shellInner g (l.getD i default) i l i)

/-- One whole pass of `shell_sort` for a given gap: indices `gap` to
`n - 1`. -/
def gapPass (g : Nat) (l : List β) : List β :=
  gapPassAux g (l.length - g) g l

/-- The `while gap > 0` loop of `shell_sort` (lines 319-335). -/
def shellLoop (g : Nat) (l : List β) : List β :=
  if h : g = 0 then l else shellLoop (g / 2) (gapPass g l)
termination_by g
decreasing_by exact Nat.div_lt_self (Nat.pos_of_ne_zero h) (by omega)

/-- `shell_sort` of sorting_algorithms.py (lines 308-337): the initial
gap is `n // 2`. -/
def shell_sort (l : List β) : List β := shellLoop (l.length / 2) l

omit [LinearOrder β] [Inhabited β] in
theorem set_getD_self {l : List β} {i : Nat} {d : β} (h : i < l.length) :
    l.set i (l.getD i d) = l := by
  induction l generalizing i with
  | nil => simp at h
  | cons a t ih =>
      match i with
      | 0 => simp
      | i + 1 =>
          simp only [length_cons] at h
          simp only [getD_eq_getElem?_getD, getElem?_cons_succ, set_cons_succ]
          rw [← getD_eq_getElem?_getD, ih (by omega)]

theorem shellInner_perm (g : Nat) (temp : β) :
    ∀ (fuel : Nat) (l : List β) (j : Nat), j < l.length →
      shellInner g temp fuel l j ~ l.set j temp := by
  intro fuel
  induction fuel with
  | zero => intro l j _; rw [shellInner]
  | succ fuel ih =>
      intro l j hj
      rw [shellInner]
      by_cases hc : g ≤ j ∧ l.getD (j - g) default > temp
      · rw [if_pos hc]
        by_cases hg : g = 0
        · subst hg
          have := ih (l.set j (l.getD (j - 0) default)) (j - 0) (by simpa using hj)
          simp only [Nat.sub_zero] at this ⊢
          rw [set_set] at this
          exact this
        · have hlt : j - g < j := by omega
          have hjg : j - g < l.length := by omega
          have := ih (l.set j (l.getD (j - g) default)) (j - g)
            (by rw [length_set]; omega)
          refine Perm.trans this ?_
          set v := l.getD (j - g) default with hv
          have hsplit : l.set j v = l.take j ++ v :: l.drop (j + 1) := by
            rw [set_eq_take_append_cons_drop, if_pos hj]
          have hsplit2 : l.set j temp = l.take j ++ temp :: l.drop (j + 1) := by
            rw [set_eq_take_append_cons_drop, if_pos hj]
          have htklen : (l.take j).length = j := by
            rw [length_take]
            omega
          have hset_app : (l.set j v).set (j - g) temp =
              (l.take j).set (j - g) temp ++ v :: l.drop (j + 1) := by
            rw [hsplit, set_append_left]
            omega
          have hgetv : (l.take j)[j - g]? = some v := by
            rw [getElem?_take_of_lt hlt, hv, getD_eq_getElem?_getD,
              getElem?_eq_getElem hjg]
            rfl
          rw [hset_app, hsplit2]
          calc (l.take j).set (j - g) temp ++ v :: l.drop (j + 1)
              ~ v :: ((l.take j).set (j - g) temp ++ l.drop (j + 1)) :=
                perm_middle
            _ ~ temp :: (l.take j ++ l.drop (j + 1)) := by
                have hsw := set_perm (l.take j) (j - g) temp v hgetv
                calc v :: ((l.take j).set (j - g) temp ++ l.drop (j + 1))
                    = (v :: (l.take j).set (j - g) temp) ++ l.drop (j + 1) :=
                      rfl
                  _ ~ (temp :: l.take j) ++ l.drop (j + 1) :=
                      Perm.append_right _ hsw
                  _ = temp :: (l.take j ++ l.drop (j + 1)) := rfl
            _ ~ l.take j ++ temp :: l.drop (j + 1) := perm_middle.symm
      · rw [if_neg hc]

theorem gapPassAux_perm (g : Nat) :
    ∀ (fuel i : Nat) (l : List β), i + fuel ≤ l.length →
      gapPassAux g fuel i l ~ l := by
  intro fuel
  induction fuel with
  | zero => intro i l _; rw [gapPassAux]
  | succ fuel ih =>
      intro i l hle
      rw [gapPassAux]
      have hi : i < l.length := by omega
      have h1 : shellInner g (l.getD i default) i l i ~ l.set i (l.getD i default) :=
        shellInner_perm g _ i l i hi
      have h2 : l.set i (l.getD i default) = l := set_getD_self hi
      have h3 : shellInner g (l.getD i default) i l i ~ l := by rw [h2] at h1; exact h1
      calc gapPassAux g fuel (i + 1) (shellInner g (l.getD i default) i l i)
          ~ shellInner g (l.getD i default) i l i := by
            refine ih (i + 1) _ ?_
            rw [h3.length_eq]
            omega
        _ ~ l := h3

theorem gapPass_perm (g : Nat) (l : List β) : gapPass g l ~ l := by
  rw [gapPass]
  by_cases h : g ≤ l.length
  · exact gapPassAux_perm g (l.length - g) g l (by omega)
  · have h0 : l.length - g = 0 := by omega
    rw [h0, gapPassAux]

/-- With gap 1 and enough fuel, the inner loop is exactly one
insertion step of `insertion_sort`. -/
theorem shellInner_one (temp : β) :
    ∀ (j : Nat) (fuel : Nat) (l : List β), j < l.length → j ≤ fuel →
      shellInner 1 temp fuel l j =
        (insRev id temp ((l.take j).reverse)).reverse ++ l.drop (j + 1) := by
  intro j
  induction j with
  | zero =>
      intro fuel l hj _
      have hbase : shellInner 1 temp fuel l 0 = l.set 0 temp := by
        cases fuel with
        | zero => rw [shellInner]
        | succ f =>
            rw [shellInner]
            have : ¬(1 ≤ 0 ∧ l.getD (0 - 1) default > temp) := by
              intro h
              omega
            rw [if_neg this]
      rw [hbase, set_eq_take_append_cons_drop, if_pos hj]
      simp [insRev]
  | succ m ih =>
      intro fuel l hj hfuel
      match fuel with
      | f + 1 =>
          rw [shellInner]
          have hm : m < l.length := by omega
          have hvm : l.getD (m + 1 - 1) default = l[m] := by
            simp only [Nat.add_sub_cancel]
            rw [getD_eq_getElem?_getD, getElem?_eq_getElem hm]
            rfl
          have htake : (l.take (m + 1)).reverse = l[m] :: (l.take m).reverse := by
            rw [take_succ, getElem?_eq_getElem hm]
            simp
          by_cases hgt : l[m] > temp
          · have hc : 1 ≤ m + 1 ∧ l.getD (m + 1 - 1) default > temp := by
              refine ⟨by omega, ?_⟩
              rw [hvm]
              exact hgt
            rw [if_pos hc]
            rw [hvm]
            have hsimp : m + 1 - 1 = m := by omega
            rw [hsimp]
            have hlen2 : (l.set (m + 1) l[m]).length = l.length := length_set l _ _
            have ih2 := ih f (l.set (m + 1) l[m]) (by omega) (by omega)
            rw [ih2]
            have htk2 : (l.set (m + 1) l[m]).take m = l.take m :=
              take_set_of_lt _ l (by omega)
            have hdp2 : (l.set (m + 1) l[m]).drop (m + 1) =
                l[m] :: l.drop (m + 1 + 1) := by
              have hlt : m + 1 < (l.set (m + 1) l[m]).length := by omega
              rw [drop_eq_getElem_cons hlt]
              congr 1
              · exact getElem_set_self hlt
              · exact drop_set_of_lt _ l (by omega)
            rw [htk2, hdp2]
            have hkey : id l[m] > id temp := hgt
            have hins : insRev id temp ((l.take (m + 1)).reverse) =
                l[m] :: insRev id temp ((l.take m).reverse) := by
              rw [htake, insRev, if_pos hkey]
            rw [hins, reverse_cons, append_assoc, singleton_append]
          · have hc : ¬(1 ≤ m + 1 ∧ l.getD (m + 1 - 1) default > temp) := by
              intro h
              rw [hvm] at h
              exact hgt h.2
            rw [if_neg hc]
            rw [set_eq_take_append_cons_drop, if_pos hj]
            have hkey : ¬(id l[m] > id temp) := hgt
            have hins : insRev id temp ((l.take (m + 1)).reverse) =
                temp :: l[m] :: (l.take m).reverse := by
              rw [htake, insRev, if_neg hkey]
            rw [hins]
            have htk1 : l.take (m + 1) = l.take m ++ [l[m]] := by
              rw [take_succ, getElem?_eq_getElem hm]
              rfl
            rw [htk1]
            simp

/-- With gap 1, the whole pass is exactly `insertion_sort`'s outer
loop: the processed prefix is kept sorted and each element is inserted
into it. -/
theorem gapPassAux_one (fuel : Nat) :
    ∀ (i : Nat) (l : List β), 1 ≤ i → i + fuel = l.length →
      gapPassAux 1 fuel i l = insOuter id ((l.take i).reverse) (l.drop i) := by
  induction fuel with
  | zero =>
      intro i l hi hlen
      rw [gapPassAux]
      rw [show l.drop i = [] from drop_eq_nil_of_le (by omega)]
      rw [insOuter, reverse_reverse, take_of_length_le (by omega)]
  | succ fuel ih =>
      intro i l hi hlen
      rw [gapPassAux]
      have hi_lt : i < l.length := by omega
      have hinner := shellInner_one (l.getD i default) i i l hi_lt le_rfl
      rw [hinner]
      set A := insRev id (l.getD i default) ((l.take i).reverse) with hA
      have hAlen : A.length = i + 1 := by
        rw [hA, (insRev_perm id _ _).length_eq]
        simp only [length_cons, length_reverse, length_take]
        omega
      have hrevlen : A.reverse.length = i + 1 := by rw [length_reverse, hAlen]
      have htk : (A.reverse ++ l.drop (i + 1)).take (i + 1) = A.reverse :=
        take_left' hrevlen
      have hdp : (A.reverse ++ l.drop (i + 1)).drop (i + 1) = l.drop (i + 1) :=
        drop_left' hrevlen
      have ih2 := ih (i + 1) (A.reverse ++ l.drop (i + 1)) (by omega)
        (by rw [length_append, hrevlen, length_drop]; omega)
      rw [ih2, htk, hdp, reverse_reverse]
      rw [show l.drop i = l[i] :: l.drop (i + 1) from drop_eq_getElem_cons hi_lt]
      have hstep : insOuter id ((l.take i).reverse) (l[i] :: l.drop (i + 1)) =
          insOuter id (insRev id l[i] ((l.take i).reverse)) (l.drop (i + 1)) := by
        rw [insOuter]
      rw [hstep, hA]
      have hget : l.getD i default = l[i] := by
        rw [getD_eq_getElem?_getD, getElem?_eq_getElem hi_lt]
        rfl
      rw [hget]

theorem gapPass_one (l : List β) : gapPass 1 l = insertion_sort l := by
  match l with
  | [] =>
      rw [gapPass]
      simp only [length_nil, Nat.zero_sub]
      rw [gapPassAux, insertion_sort, insertion_sort_key]
  | a :: t =>
      rw [gapPass]
      have hlen : (a :: t).length - 1 = t.length := by simp
      rw [hlen]
      have hbr := gapPassAux_one t.length 1 (a :: t) le_rfl (by simp; omega)
      rw [hbr]
      rw [insertion_sort, insertion_sort_key]
      have h1 : ((a :: t).take 1).reverse = [a] := by simp
      have h2 : (a :: t).drop 1 = t := by simp
      rw [h1, h2]

theorem shellLoop_correct (g : Nat) (l : List β) (hg : 1 ≤ g) :
    shellLoop g l ~ l ∧ (shellLoop g l).Sorted (· ≤ ·) := by
  induction g using Nat.strong_induction_on generalizing l with
  | _ g ih =>
      rw [shellLoop, dif_neg (by omega : ¬g = 0)]
      by_cases h1 : g = 1
      · subst h1
        rw [show (1 : Nat) / 2 = 0 from rfl]
        rw [shellLoop, dif_pos rfl, gapPass_one]
        exact ⟨insertion_sort_perm l, insertion_sort_sorted l⟩
      · have h3 : g / 2 < g := Nat.div_lt_self (by omega) (by omega)
        obtain ⟨p, srt⟩ := ih (g / 2) h3 (gapPass g l) (by omega)
        exact ⟨p.trans (gapPass_perm g l), srt⟩

theorem shell_sort_perm (l : List β) : shell_sort l ~ l := by
  rw [shell_sort]
  by_cases h : l.length ≤ 1
  · have h0 : l.length / 2 = 0 := by omega
    rw [h0, shellLoop, dif_pos rfl]
  · exact (shellLoop_correct (l.length / 2) l (by omega)).1

theorem shell_sort_sorted (l : List β) : (shell_sort l).Sorted (· ≤ ·) := by
  rw [shell_sort]
  by_cases h : l.length ≤ 1
  · have h0 : l.length / 2 = 0 := by omega
    rw [h0, shellLoop, dif_pos rfl]
    match l, h with
    | [], _ => exact Pairwise.nil
    | [a], _ => exact pairwise_singleton _ a
  · exact (shellLoop_correct (l.length / 2) l (by omega)).2

/-! ## Counting passes (`counting_sort`, sorting_algorithms.py lines
179-209, and the per-digit passes of `radix_sort`, lines 252-270)

Both loops share one structure, modelled by `countPass`: tally the key
of every element into a count table of size `K` (`count[...] += 1`),
turn the table into running position sums (`count[i] += count[i - 1]`),
then walk the input backwards placing each element at
`output[count[key] - 1]` and decrementing its count.  `counting_sort`
instantiates it with `K = max - min + 1` and key `x - min`;
each digit pass of `radix_sort` instantiates it with `K = 10` and key
`(x // exp) % 10`.  Count cells are read with `getD _ 0`; every access
in a reachable state is in range (keys are below `K`). -/

/-- The tally loop (`count[arr[i] - min_val] += 1`, counting_sort line
197-198; `count[index] += 1`, radix_sort lines 257-259). -/
def countTally (key : α → ℕ) : List α → List ℕ → List ℕ
  | [], c => c
  | a :: t, c => countTally key t (c.set (key a) (c.getD (key a) 0 + 1))

/-- The running-sum loop (`count[i] += count[i - 1]`, counting_sort
lines 201-202, radix_sort lines 261-262): `acc` is the value written
one cell earlier. -/
def cumsum (acc : ℕ) : List ℕ → List ℕ
  | [] => []
  | x :: t => (acc + x) :: cumsum (acc + x) t

/-- The backward placement loop (counting_sort lines 205-207,
radix_sort lines 264-267): the input is walked from the last element to
the first, so the recursion places the tail before the head. -/
def placeLoop (key : α → ℕ) : List α → List α × List ℕ → List α × List ℕ
  | [], s => s
  | a :: t, s =>
      let s2 := placeLoop key t s
      (s2.1.set (s2.2.getD (key a) 0 - 1) a,
        s2.2.set (key a) (s2.2.getD (key a) 0 - 1))

/-- One whole counting pass: count table of size `K` (`[0] * K`),
running sums, and an output array of the input's length (`[0] * n`,
generalized to a `dflt` filler, every cell of which is overwritten)
filled backwards. -/
def countPass (K : ℕ) (key : α → ℕ) (dflt : α) (l : List α) : List α :=
  (placeLoop key l (List.replicate l.length dflt,
    cumsum 0 (countTally key l (List.replicate K 0)))).1

theorem countTally_length (key : α → ℕ) :
    ∀ (t : List α) (c : List ℕ), (countTally key t c).length = c.length := by
  intro t
  induction t with
  | nil => intro c; rw [countTally]
  | cons a t ih => intro c; rw [countTally, ih, length_set]

theorem countTally_getD (key : α → ℕ) :
    ∀ (t : List α) (c : List ℕ) (j : ℕ), j < c.length →
      (countTally key t c).getD j 0 =
        c.getD j 0 + t.countP (fun a => key a = j) := by
  intro t
  induction t with
  | nil => intro c j _; rw [countTally, countP_nil]; omega
  | cons a t ih =>
      intro c j hj
      rw [countTally, ih _ j (by rw [length_set]; exact hj)]
      by_cases hk : key a = j
      · subst hk
        have hset : (c.set (key a) (c.getD (key a) 0 + 1)).getD (key a) 0 =
            c.getD (key a) 0 + 1 := by
          rw [getD_eq_getElem?_getD, getElem?_set_self hj]
          rfl
        rw [hset, countP_cons_of_pos _ _ (by simp)]
        omega
      · have hset : (c.set (key a) (c.getD (key a) 0 + 1)).getD j 0 =
            c.getD j 0 := by
          rw [getD_eq_getElem?_getD, getElem?_set_ne hk, ← getD_eq_getElem?_getD]
        rw [hset, countP_cons_of_neg _ _ (by simp [hk])]

theorem cumsum_length (acc : ℕ) (c : List ℕ) :
    (cumsum acc c).length = c.length := by
  induction c generalizing acc with
  | nil => rw [cumsum]
  | cons x t ih => rw [cumsum, length_cons, length_cons, ih]

theorem cumsum_getD :
    ∀ (c : List ℕ) (acc j : ℕ), j < c.length →
      (cumsum acc c).getD j 0 = acc + (c.take (j + 1)).sum := by
  intro c
  induction c with
  | nil => intro acc j h; simp at h
  | cons x t ih =>
      intro acc j hj
      rw [cumsum]
      match j with
      | 0 => simp
      | j + 1 =>
          rw [take_succ_cons, sum_cons]
          rw [show ((acc + x) :: cumsum (acc + x) t).getD (j + 1) 0 =
              (cumsum (acc + x) t).getD j 0 from rfl]
          rw [ih (acc + x) j (by simp at hj; omega)]
          omega

/-- Indexing into a concatenation of blocks: position `r` of block `j`
sits at offset (total length of the blocks before `j`) plus `r`. -/
theorem flatten_getElem? {γ : Type} :
    ∀ (Ls : List (List γ)) (j : ℕ) (B : List γ) (r : ℕ),
      Ls[j]? = some B → r < B.length →
      Ls.flatten[((Ls.take j).map length).sum + r]? = B[r]? := by
  intro Ls
  induction Ls with
  | nil => intro j B r h _; simp at h
  | cons C Ls ih =>
      intro j B r hB hr
      match j with
      | 0 =>
          simp only [getElem?_cons_zero, Option.some.injEq] at hB
          subst hB
          rw [flatten_cons, take_zero, map_nil, sum_nil, Nat.zero_add]
          exact getElem?_append_left hr
      | j + 1 =>
          rw [getElem?_cons_succ] at hB
          rw [flatten_cons, take_succ_cons, map_cons, sum_cons]
          have harith : C.length + (((Ls.take j).map length).sum + r) - C.length =
              ((Ls.take j).map length).sum + r := by omega
          rw [Nat.add_assoc]
          rw [getElem?_append_right (by omega)]
          rw [harith]
          exact ih j B r hB hr

/-- Number of elements of `l` whose key is `j`. -/
def keyCount (key : α → ℕ) (l : List α) (j : ℕ) : ℕ :=
  l.countP (fun a => key a = j)

/-- Start position of the key-`j` segment in the output of a counting
pass. -/
def segStart (key : α → ℕ) (l : List α) (j : ℕ) : ℕ :=
  ((range j).map (keyCount key l)).sum

theorem segStart_succ (key : α → ℕ) (l : List α) (j : ℕ) :
    segStart key l (j + 1) = segStart key l j + keyCount key l j := by
  rw [segStart, segStart, range_succ, map_append, sum_append]
  simp

theorem segStart_add (key : α → ℕ) (l : List α) :
    ∀ (d j : ℕ), segStart key l j ≤ segStart key l (j + d) := by
  intro d
  induction d with
  | zero => intro j; exact le_rfl
  | succ d ih =>
      intro j
      calc segStart key l j ≤ segStart key l (j + d) := ih j
        _ ≤ segStart key l (j + d) + keyCount key l (j + d) := Nat.le_add_right _ _
        _ = segStart key l (j + d + 1) := (segStart_succ key l (j + d)).symm

theorem segStart_mono (key : α → ℕ) (l : List α) {j j' : ℕ} (h : j ≤ j') :
    segStart key l j ≤ segStart key l j' := by
  have := segStart_add key l (j' - j) j
  rwa [show j + (j' - j) = j' from by omega] at this

theorem countP_lt_succ (key : α → ℕ) (K : ℕ) (l : List α) :
    l.countP (fun a => key a < K + 1) =
      l.countP (fun a => key a < K) + keyCount key l K := by
  induction l with
  | nil => simp [keyCount]
  | cons a t ih =>
      rw [keyCount, countP_cons, countP_cons, countP_cons, ← keyCount, ih]
      by_cases h1 : key a < K
      · simp only [h1, decide_eq_true_eq, if_pos, if_neg]
        have h2 : key a < K + 1 := by omega
        have h3 : ¬key a = K := by omega
        simp [h2, h3]
        omega
      · by_cases h2 : key a = K
        · have h4 : key a < K + 1 := by omega
          simp [h1, h2, h4]
          omega
        · have h4 : ¬key a < K + 1 := by omega
          simp [h1, h2, h4]

/-- With all keys below `K`, the segments cover the whole output. -/
theorem segStart_total (key : α → ℕ) (K : ℕ) (l : List α)
    (hK : ∀ a ∈ l, key a < K) : segStart key l K = l.length := by
  have h : ∀ K' : ℕ, segStart key l K' = l.countP (fun a => key a < K') := by
    intro K'
    induction K' with
    | zero =>
        rw [segStart, range_zero, map_nil, sum_nil]
        symm
        rw [countP_eq_zero]
        intro a _
        simp
    | succ K' ih => rw [segStart_succ, ih, countP_lt_succ]
  rw [h K]
  rw [countP_eq_length]
  intro a ha
  simp [hK a ha]

/-- The running-sum table built by a counting pass holds the segment
end positions. -/
theorem cumsum_tally_getD (key : α → ℕ) (K : ℕ) (l : List α) (j : ℕ)
    (hj : j < K) :
    (cumsum 0 (countTally key l (List.replicate K 0))).getD j 0 =
      segStart key l (j + 1) := by
  have hlen : (countTally key l (List.replicate K 0)).length = K := by
    rw [countTally_length, length_replicate]
  rw [cumsum_getD _ 0 j (by rw [hlen]; exact hj)]
  have hsum : ∀ m, m ≤ K →
      ((countTally key l (List.replicate K 0)).take m).sum = segStart key l m := by
    intro m
    induction m with
    | zero =>
        intro _
        rw [take_zero, sum_nil, segStart, range_zero, map_nil, sum_nil]
    | succ m ih =>
        intro hm
        rw [sum_take_succ _ m (by rw [hlen]; omega), ih (by omega), segStart_succ]
        congr 1
        have hgd := countTally_getD key l (List.replicate K 0) m
          (by rw [length_replicate]; omega)
        have hm2 : m < (countTally key l (List.replicate K 0)).length := by
          rw [hlen]
          omega
        simp only [getD_eq_getElem?_getD] at hgd
        rw [getElem?_eq_getElem hm2, getElem?_replicate_of_lt (by omega)] at hgd
        simp only [Option.getD_some] at hgd
        rw [keyCount, hgd]
        omega
  rw [hsum (j + 1) (by omega)]
  omega

/-- Invariant of the backward placement loop: after processing the
suffix `t` of `l`, each count cell `j` has retreated by the number of
key-`j` elements of `t`, and those elements sit in the top `|t|_j`
slots of segment `j` in their original order. -/
theorem placeLoop_spec (key : α → ℕ) (K : ℕ) (dflt : α) (l : List α)
    (hK : ∀ a ∈ l, key a < K) :
    ∀ t : List α, t.IsSuffix l →
      (placeLoop key t (List.replicate l.length dflt,
          cumsum 0 (countTally key l (List.replicate K 0)))).2.length = K ∧
      (placeLoop key t (List.replicate l.length dflt,
          cumsum 0 (countTally key l (List.replicate K 0)))).1.length = l.length ∧
      (∀ j, j < K →
        (placeLoop key t (List.replicate l.length dflt,
            cumsum 0 (countTally key l (List.replicate K 0)))).2.getD j 0 =
          segStart key l (j + 1) - t.countP (fun x => key x = j)) ∧
      (∀ j, j < K → ∀ i, i < t.countP (fun x => key x = j) →
        (placeLoop key t (List.replicate l.length dflt,
            cumsum 0 (countTally key l (List.replicate K 0)))).1[
              segStart key l (j + 1) - t.countP (fun x => key x = j) + i]? =
          (t.filter (fun x => key x = j))[i]?) := by
  intro t
  induction t with
  | nil =>
      intro _
      rw [placeLoop]
      refine ⟨?_, ?_, ?_, ?_⟩
      · rw [cumsum_length, countTally_length, length_replicate]
      · rw [length_replicate]
      · intro j hj
        rw [cumsum_tally_getD key K l j hj]
        simp
      · intro j hj i hi
        simp at hi
  | cons a t ih =>
      intro hsuf
      have hsuf' : t.IsSuffix l := by
        rcases hsuf with ⟨pre, hpre⟩
        exact ⟨pre ++ [a], by rw [append_assoc, singleton_append, hpre]⟩
      obtain ⟨h1, h2, h3, h4⟩ := ih hsuf'
      have ha_mem : a ∈ l := hsuf.subset (mem_cons_self a t)
      have hka : key a < K := hK a ha_mem
      have hcnt_le : (a :: t).countP (fun x => key x = key a) ≤
          keyCount key l (key a) := by
        rw [keyCount]
        exact hsuf.sublist.countP_le _
      have hcntA : (a :: t).countP (fun x => key x = key a) =
          t.countP (fun x => key x = key a) + 1 :=
        countP_cons_of_pos _ _ (by simp)
      have hS2 : segStart key l (key a + 1) =
          segStart key l (key a) + keyCount key l (key a) :=
        segStart_succ key l (key a)
      have hS2n : segStart key l (key a + 1) ≤ l.length := by
        rw [← segStart_total key K l hK]
        exact segStart_mono key l (by omega)
      have hpos := h3 (key a) hka
      have hSge : t.countP (fun x => key x = key a) + 1 ≤
          segStart key l (key a + 1) := by omega
      have hkalen : key a < (placeLoop key t (List.replicate l.length dflt,
          cumsum 0 (countTally key l (List.replicate K 0)))).2.length := by
        rw [h1]
        exact hka
      simp only [placeLoop]
      refine ⟨?_, ?_, ?_, ?_⟩
      · rw [length_set, h1]
      · rw [length_set, h2]
      · intro j hj
        by_cases hjka : j = key a
        · subst hjka
          rw [getD_eq_getElem?_getD, getElem?_set_self hkalen]
          simp only [Option.getD_some]
          rw [hpos, hcntA]
          omega
        · rw [getD_eq_getElem?_getD,
            getElem?_set_ne (fun h => hjka h.symm), ← getD_eq_getElem?_getD]
          rw [h3 j hj, countP_cons_of_neg _ _ (by simp; intro h; exact hjka h.symm)]
      · intro j hj i hi
        by_cases hjka : j = key a
        · subst hjka
          rw [hcntA] at hi ⊢
          rw [filter_cons_of_pos (by simp)]
          rw [hpos]
          match i with
          | 0 =>
              have hidx : segStart key l (key a + 1) -
                  (t.countP (fun x => key x = key a) + 1) + 0 =
                  segStart key l (key a + 1) -
                    t.countP (fun x => key x = key a) - 1 := by omega
              rw [hidx]
              rw [getElem?_set_self (by rw [h2]; omega)]
              rw [getElem?_cons_zero]
          | i + 1 =>
              have hne : segStart key l (key a + 1) -
                  t.countP (fun x => key x = key a) - 1 ≠
                  segStart key l (key a + 1) -
                    (t.countP (fun x => key x = key a) + 1) + (i + 1) := by
                omega
              rw [getElem?_set_ne hne]
              have hidx : segStart key l (key a + 1) -
                  (t.countP (fun x => key x = key a) + 1) + (i + 1) =
                  segStart key l (key a + 1) -
                    t.countP (fun x => key x = key a) + i := by omega
              rw [hidx, getElem?_cons_succ]
              exact h4 (key a) hka i (by omega)
        · have hcntj : (a :: t).countP (fun x => key x = j) =
              t.countP (fun x => key x = j) :=
            countP_cons_of_neg _ _ (by simp; intro h; exact hjka h.symm)
          have hfil : (a :: t).filter (fun x => key x = j) =
              t.filter (fun x => key x = j) :=
            filter_cons_of_neg (by simp; intro h; exact hjka h.symm)
          rw [hcntj] at hi ⊢
          rw [hfil, hpos]
          have hcntj_le : t.countP (fun x => key x = j) ≤ keyCount key l j := by
            rw [keyCount]
            exact hsuf'.sublist.countP_le _
          have hSj : segStart key l (j + 1) =
              segStart key l j + keyCount key l j := segStart_succ key l j
          have hne : segStart key l (key a + 1) -
              t.countP (fun x => key x = key a) - 1 ≠
              segStart key l (j + 1) - t.countP (fun x => key x = j) + i := by
            by_cases hlt : j < key a
            · have hmono : segStart key l (j + 1) ≤ segStart key l (key a) :=
                segStart_mono key l (by omega)
              omega
            · have hmono : segStart key l (key a + 1) ≤ segStart key l j :=
                segStart_mono key l (by omega)
              omega
          rw [getElem?_set_ne hne]
          exact h4 j hj i hi

theorem segStart_find (key : α → ℕ) (l : List α) :
    ∀ (K p : ℕ), p < segStart key l K →
      ∃ j, j < K ∧ segStart key l j ≤ p ∧ p < segStart key l (j + 1) := by
  intro K
  induction K with
  | zero =>
      intro p h
      rw [segStart, range_zero, map_nil, sum_nil] at h
      omega
  | succ K ih =>
      intro p h
      by_cases h2 : p < segStart key l K
      · obtain ⟨j, h3, h4, h5⟩ := ih p h2
        exact ⟨j, by omega, h4, h5⟩
      · exact ⟨K, by omega, by omega, h⟩

/-- A counting pass produces exactly the key classes of the input,
concatenated in ascending key order and each in input order. -/
theorem countPass_eq (K : ℕ) (key : α → ℕ) (dflt : α) (l : List α)
    (hK : ∀ a ∈ l, key a < K) :
    countPass K key dflt l =
      ((range K).map (fun j => l.filter (fun x => key x = j))).flatten := by
  obtain ⟨h1, h2, h3, h4⟩ := placeLoop_spec key K dflt l hK l (suffix_refl l)
  have hoff : ∀ m, m ≤ K →
      (((((range K).map (fun j => l.filter (fun x => key x = j))).take m).map
        length).sum) = segStart key l m := by
    intro m hm
    rw [← map_take, take_range, show min m K = m from by omega, map_map]
    rw [segStart]
    congr 1
    apply map_congr_left
    intro i _
    rw [keyCount, countP_eq_length_filter]
    rfl
  have hlen_flat :
      (((range K).map (fun j => l.filter (fun x => key x = j))).flatten).length =
        l.length := by
    rw [length_flatten]
    have := hoff K le_rfl
    rw [take_of_length_le (by rw [length_map, length_range]) ] at this
    rw [this, segStart_total key K l hK]
  rw [countPass]
  apply ext_getElem?
  intro p
  by_cases hp : p < l.length
  · obtain ⟨j, hj, hj1, hj2⟩ := segStart_find key l K p
      (by rw [segStart_total key K l hK]; exact hp)
    have hSj : segStart key l (j + 1) = segStart key l j + keyCount key l j :=
      segStart_succ key l j
    have hcnt_full : l.countP (fun x => key x = j) = keyCount key l j := rfl
    have hi : p - segStart key l j < l.countP (fun x => key x = j) := by
      rw [hcnt_full]
      omega
    have hL := h4 j hj (p - segStart key l j) hi
    have hidx : segStart key l (j + 1) - l.countP (fun x => key x = j) +
        (p - segStart key l j) = p := by
      rw [hcnt_full]
      omega
    rw [hidx] at hL
    rw [hL]
    have hblock : ((range K).map (fun j => l.filter (fun x => key x = j)))[j]? =
        some (l.filter (fun x => key x = j)) := by
      rw [getElem?_map, getElem?_range hj]
      rfl
    have hr : p - segStart key l j < (l.filter (fun x => key x = j)).length := by
      rw [← countP_eq_length_filter]
      exact hi
    have hflat := flatten_getElem?
      ((range K).map (fun j => l.filter (fun x => key x = j)))
      j (l.filter (fun x => key x = j)) (p - segStart key l j) hblock hr
    rw [hoff j (by omega)] at hflat
    rw [show segStart key l j + (p - segStart key l j) = p from by omega] at hflat
    rw [hflat]
  · have ha : (placeLoop key l (List.replicate l.length dflt,
        cumsum 0 (countTally key l (List.replicate K 0)))).1[p]? = none :=
      getElem?_eq_none (by rw [h2]; omega)
    have hb : (((range K).map
        (fun j => l.filter (fun x => key x = j))).flatten)[p]? = none :=
      getElem?_eq_none (by rw [hlen_flat]; omega)
    rw [ha, hb]

/-- Consing an element onto the list conses it onto its own key block
and leaves the other blocks alone; up to permutation that is a cons on
the concatenation. -/
theorem flatten_blocks_cons {γ : Type} (f g : ℕ → List γ) (a : γ) (ka : ℕ) :
    ∀ K, ka < K → (∀ j, g j = if j = ka then a :: f j else f j) →
      ((range K).map g).flatten ~ a :: ((range K).map f).flatten := by
  intro K
  induction K with
  | zero => intro h _; omega
  | succ K ih =>
      intro hka hg
      rw [range_succ, map_append, map_append, flatten_append, flatten_append]
      by_cases hlt : ka < K
      · have hgK : g K = f K := by rw [hg K, if_neg (by omega)]
        simp only [map_cons, map_nil, flatten_cons, flatten_nil]
        rw [hgK]
        exact Perm.append_right _ (ih hlt hg)
      · have hK_eq : ka = K := by omega
        subst hK_eq
        have hsame : (range ka).map g = (range ka).map f := by
          apply map_congr_left
          intro i hi
          rw [mem_range] at hi
          rw [hg i, if_neg (by omega)]
        rw [hsame]
        simp only [map_cons, map_nil, flatten_cons, flatten_nil]
        rw [hg ka, if_pos rfl]
        exact perm_middle

theorem flatten_filter_perm (key : α → ℕ) (K : ℕ) :
    ∀ l : List α, (∀ a ∈ l, key a < K) →
      ((range K).map (fun j => l.filter (fun x => key x = j))).flatten ~ l := by
  intro l
  induction l with
  | nil =>
      intro _
      simp
  | cons a t ih =>
      intro h
      have hka : key a < K := h a (mem_cons_self a t)
      have ht : ∀ x ∈ t, key x < K := fun x hx => h x (mem_cons_of_mem _ hx)
      have hblocks : ∀ j : ℕ, (a :: t).filter (fun x => key x = j) =
          if j = key a then a :: t.filter (fun x => key x = j)
          else t.filter (fun x => key x = j) := by
        intro j
        by_cases hj : j = key a
        · rw [if_pos hj, filter_cons_of_pos (by simp [hj])]
        · rw [if_neg hj, filter_cons_of_neg (by simp; intro hh; exact hj hh.symm)]
      exact (flatten_blocks_cons (fun j => t.filter (fun x => key x = j))
        (fun j => (a :: t).filter (fun x => key x = j)) a (key a) K hka
        hblocks).trans ((ih ht).cons a)

theorem countPass_perm (K : ℕ) (key : α → ℕ) (dflt : α) (l : List α)
    (hK : ∀ a ∈ l, key a < K) : countPass K key dflt l ~ l := by
  rw [countPass_eq K key dflt l hK]
  exact flatten_filter_perm key K l hK

theorem countPass_pairwise (K : ℕ) (key : α → ℕ) (dflt : α) (l : List α)
    (hK : ∀ a ∈ l, key a < K) :
    (countPass K key dflt l).Pairwise (fun x y => key x ≤ key y) := by
  rw [countPass_eq K key dflt l hK]
  rw [pairwise_flatten]
  constructor
  · intro bl hbl
    rw [mem_map] at hbl
    obtain ⟨j, _, rfl⟩ := hbl
    refine pairwise_of_forall_mem_list ?_
    intro x hx y hy
    have hxj : key x = j := by simpa using of_mem_filter hx
    have hyj : key y = j := by simpa using of_mem_filter hy
    omega
  · rw [pairwise_map]
    refine (pairwise_lt_range K).imp ?_
    intro i j hij x hx y hy
    have hxi : key x = i := by simpa using of_mem_filter hx
    have hyj : key y = j := by simpa using of_mem_filter hy
    omega

/-- Stability of a counting pass: each key class of the output is the
key class of the input, in the original order. -/
theorem countPass_filter (K : ℕ) (key : α → ℕ) (dflt : α) (l : List α)
    (hK : ∀ a ∈ l, key a < K) (c : ℕ) :
    (countPass K key dflt l).filter (fun x => key x = c) =
      l.filter (fun x => key x = c) := by
  rw [countPass_eq K key dflt l hK]
  rw [filter_flatten]
  have hcase : ((range K).map (fun j => l.filter (fun x => key x = j))).map
      (filter (fun x => key x = c)) =
      ((range K).map
        (fun j => if j = c then l.filter (fun x => key x = c) else [])) := by
    rw [map_map]
    apply map_congr_left
    intro j _
    show (l.filter (fun x => key x = j)).filter (fun x => key x = c) = _
    by_cases hj : j = c
    · subst hj
      rw [if_pos rfl, filter_filter]
      apply filter_congr
      intro x _
      simp
    · rw [if_neg hj, filter_eq_nil_iff]
      intro x hx
      have hxj : key x = j := by simpa using of_mem_filter hx
      simp
      omega
  rw [hcase]
  have hflat : ∀ K' : ℕ, (((range K').map
      (fun j => if j = c then l.filter (fun x => key x = c) else [])).flatten) =
      if c < K' then l.filter (fun x => key x = c) else [] := by
    intro K'
    induction K' with
    | zero => simp
    | succ K' ih =>
        rw [range_succ, map_append, flatten_append, ih]
        by_cases hc : c < K'
        · rw [if_pos hc, if_pos (by omega)]
          simp [show ¬(K' = c) from by omega]
        · by_cases hc2 : c = K'
          · rw [if_neg hc, if_pos (by omega)]
            simp [hc2.symm]
          · rw [if_neg hc, if_neg (by omega)]
            simp [show ¬(K' = c) from by omega]
  rw [hflat K]
  by_cases hcK : c < K
  · rw [if_pos hcK]
  · rw [if_neg hcK]
    symm
    rw [filter_eq_nil_iff]
    intro x hx
    have := hK x hx
    simp
    omega

/-! ## Counting sort (`counting_sort`, sorting_algorithms.py lines
179-209)

`max(arr)` / `min(arr)` are modelled by `pymax` / `pymin` (folds over
the list; the `[]` case is never used because of the `if not arr`
guard).  The count table has `max - min + 1` cells and the key of `x`
is `x - min_val`. -/

/-- Python's built-in `max` on a list (meaningful for nonempty input,
as used under the emptiness guard). -/
def pymax {γ : Type} [LinearOrder γ] [Inhabited γ] : List γ → γ
  | [] => default
  | a :: t => t.foldl max a

/-- Python's built-in `min`. -/
def pymin {γ : Type} [LinearOrder γ] [Inhabited γ] : List γ → γ
  | [] => default
  | a :: t => t.foldl min a

theorem foldl_min_spec {γ : Type} [LinearOrder γ] :
    ∀ (t : List γ) (a : γ), t.foldl min a ≤ a ∧ ∀ x ∈ t, t.foldl min a ≤ x := by
  intro t
  induction t with
  | nil => intro a; exact ⟨le_rfl, by simp⟩
  | cons b t ih =>
      intro a
      rw [foldl_cons]
      obtain ⟨h1, h2⟩ := ih (min a b)
      refine ⟨le_trans h1 (min_le_left a b), ?_⟩
      intro x hx
      rcases mem_cons.mp hx with hx | hx
      · rw [hx]
        exact le_trans h1 (min_le_right a b)
      · exact h2 x hx

theorem foldl_max_spec {γ : Type} [LinearOrder γ] :
    ∀ (t : List γ) (a : γ), a ≤ t.foldl max a ∧ ∀ x ∈ t, x ≤ t.foldl max a := by
  intro t
  induction t with
  | nil => intro a; exact ⟨le_rfl, by simp⟩
  | cons b t ih =>
      intro a
      rw [foldl_cons]
      obtain ⟨h1, h2⟩ := ih (max a b)
      refine ⟨le_trans (le_max_left a b) h1, ?_⟩
      intro x hx
      rcases mem_cons.mp hx with hx | hx
      · rw [hx]
        exact le_trans (le_max_right a b) h1
      · exact h2 x hx

theorem pymin_le_of_mem {γ : Type} [LinearOrder γ] [Inhabited γ]
    {l : List γ} {x : γ} (hx : x ∈ l) : pymin l ≤ x := by
  match l with
  | a :: t =>
      rw [pymin]
      rcases mem_cons.mp hx with h | h
      · exact h ▸ (foldl_min_spec t a).1
      · exact (foldl_min_spec t a).2 x h

theorem le_pymax_of_mem {γ : Type} [LinearOrder γ] [Inhabited γ]
    {l : List γ} {x : γ} (hx : x ∈ l) : x ≤ pymax l := by
  match l with
  | a :: t =>
      rw [pymax]
      rcases mem_cons.mp hx with h | h
      · exact h ▸ (foldl_max_spec t a).1
      · exact (foldl_max_spec t a).2 x h

/-- `counting_sort` of sorting_algorithms.py (lines 179-209): empty
guard, then a counting pass with table size `max - min + 1` and key
`x - min` (both cast to `ℕ`; they are nonnegative). -/
def counting_sort (l : List ℤ) : List ℤ :=
  if l = [] then []
  else countPass (pymax l - pymin l + 1).toNat
    (fun x => (x - pymin l).toNat) 0 l

theorem counting_key_lt (l : List ℤ) :
    ∀ a ∈ l, (a - pymin l).toNat < (pymax l - pymin l + 1).toNat := by
  intro a ha
  have h1 := pymin_le_of_mem ha
  have h2 := le_pymax_of_mem ha
  omega

theorem counting_sort_perm (l : List ℤ) : counting_sort l ~ l := by
  rw [counting_sort]
  by_cases h : l = []
  · rw [if_pos h, h]
  · rw [if_neg h]
    exact countPass_perm _ _ 0 l (counting_key_lt l)

theorem counting_sort_sorted (l : List ℤ) :
    (counting_sort l).Sorted (· ≤ ·) := by
  rw [counting_sort]
  by_cases h : l = []
  · rw [if_pos h]
    exact Pairwise.nil
  · rw [if_neg h]
    have hpw := countPass_pairwise _ _ 0 l (counting_key_lt l)
    have hperm := countPass_perm _ _ 0 l (counting_key_lt l)
    refine Pairwise.imp_of_mem ?_ hpw
    intro a b ha hb hk
    have h1 := pymin_le_of_mem (hperm.subset ha)
    have h2 := pymin_le_of_mem (hperm.subset hb)
    omega

/-- `counting_sort` generalized to key/value pairs compared by the
first component: the count table is indexed by the key of the pair and
whole pairs are placed, with the same loop structure as the integer
version in the source. -/
def counting_sort_pairs (l : List (ℤ × ℤ)) : List (ℤ × ℤ) :=
  if l = [] then []
  else countPass
    (pymax (l.map Prod.fst) - pymin (l.map Prod.fst) + 1).toNat
    (fun x => (x.1 - pymin (l.map Prod.fst)).toNat) (0, 0) l

theorem counting_pairs_key_lt (l : List (ℤ × ℤ)) :
    ∀ a ∈ l, (a.1 - pymin (l.map Prod.fst)).toNat <
      (pymax (l.map Prod.fst) - pymin (l.map Prod.fst) + 1).toNat := by
  intro a ha
  have h1 := pymin_le_of_mem (mem_map_of_mem Prod.fst ha)
  have h2 := le_pymax_of_mem (mem_map_of_mem Prod.fst ha)
  omega

theorem counting_sort_pairs_perm (l : List (ℤ × ℤ)) :
    counting_sort_pairs l ~ l := by
  rw [counting_sort_pairs]
  by_cases h : l = []
  · rw [if_pos h, h]
  · rw [if_neg h]
    exact countPass_perm _ _ (0, 0) l (counting_pairs_key_lt l)

theorem counting_sort_pairs_sorted (l : List (ℤ × ℤ)) :
    (counting_sort_pairs l).Pairwise (fun a b => a.1 ≤ b.1) := by
  rw [counting_sort_pairs]
  by_cases h : l = []
  · rw [if_pos h]
    exact Pairwise.nil
  · rw [if_neg h]
    have hpw := countPass_pairwise _ _ (0, 0) l (counting_pairs_key_lt l)
    have hperm := countPass_perm _ _ (0, 0) l (counting_pairs_key_lt l)
    refine Pairwise.imp_of_mem ?_ hpw
    intro a b ha hb hk
    have h1 := pymin_le_of_mem (mem_map_of_mem Prod.fst (hperm.subset ha))
    have h2 := pymin_le_of_mem (mem_map_of_mem Prod.fst (hperm.subset hb))
    omega

/-- Stability of the keyed counting sort: each key class keeps its
original order. -/
theorem counting_sort_pairs_stable (l : List (ℤ × ℤ)) (c : ℤ) :
    (counting_sort_pairs l).filter (fun x => x.1 = c) =
      l.filter (fun x => x.1 = c) := by
  rw [counting_sort_pairs]
  by_cases h : l = []
  · rw [if_pos h, h]
  · rw [if_neg h]
    have hK := counting_pairs_key_lt l
    have hperm := countPass_perm _ _ (0, 0) l hK
    have hbound : ∀ x ∈ l, pymin (l.map Prod.fst) ≤ x.1 := by
      intro x hx
      exact pymin_le_of_mem (mem_map_of_mem Prod.fst hx)
    by_cases hc : pymin (l.map Prod.fst) ≤ c
    · have hcongr : ∀ (m : List (ℤ × ℤ)), (∀ x ∈ m, pymin (l.map Prod.fst) ≤ x.1) →
          m.filter (fun x => (x.1 - pymin (l.map Prod.fst)).toNat =
            (c - pymin (l.map Prod.fst)).toNat) =
          m.filter (fun x => x.1 = c) := by
        intro m hm
        apply filter_congr
        intro x hx
        have := hm x hx
        rw [decide_eq_decide]
        omega
      have hfil := countPass_filter _ _ (0, 0) l hK
        (c - pymin (l.map Prod.fst)).toNat
      rw [hcongr _ (fun x hx => hbound x (hperm.subset hx))] at hfil
      rw [hcongr l hbound] at hfil
      exact hfil
    · have h1 : l.filter (fun x => x.1 = c) = [] := by
        rw [filter_eq_nil_iff]
        intro x hx
        have := hbound x hx
        simp
        omega
      have h2 : (countPass
          (pymax (l.map Prod.fst) - pymin (l.map Prod.fst) + 1).toNat
          (fun x => (x.1 - pymin (l.map Prod.fst)).toNat) (0, 0) l).filter
            (fun x => x.1 = c) = [] := by
        rw [filter_eq_nil_iff]
        intro x hx
        have := hbound x (hperm.subset hx)
        simp
        omega
      rw [h1, h2]

/-! ## Radix sort (`radix_sort`, sorting_algorithms.py lines 212-272)

Nonnegative lists go through `digits` least-significant-first counting
passes on the decimal digit `(x // exp) % 10` (Lean's `/` and `%` on
`ℤ` are floor division and the matching modulus, exactly Python's `//`
and `%`).  A list with a negative member is split into the negative
and nonnegative parts (lines 225-240); the magnitudes of the negative
part are sorted by a recursive call and put back by negation plus
reversal, and the nonnegative part is sorted by a second recursive
call (`radix_sort(pos) if pos else []`). -/

/-- The `while max_num > 0: digits += 1; max_num //= 10` loop
(lines 243-246). -/
def numDigits (n : ℕ) : ℕ :=
  if n = 0 then 0 else numDigits (n / 10) + 1
termination_by n
decreasing_by exact Nat.div_lt_self (Nat.pos_of_ne_zero (by assumption)) (by omega)

theorem numDigits_bound (n : ℕ) : n < 10 ^ numDigits n := by
  induction n using Nat.strong_induction_on with
  | _ n ih =>
      rw [numDigits]
      by_cases h : n = 0
      · rw [if_pos h]
        omega
      · rw [if_neg h]
        have hlt : n / 10 < n := Nat.div_lt_self (Nat.pos_of_ne_zero h) (by omega)
        have := ih (n / 10) hlt
        rw [pow_succ]
        omega

/-- Writing `x mod m*n` from `x mod m` and the next "digit". -/
theorem emod_mul_decomp (x m n : ℤ) (hm : 0 < m) (hn : 0 < n) :
    x % (m * n) = x % m + m * ((x / m) % n) := by
  have h1 : m * (x / m) + x % m = x := Int.ediv_add_emod x m
  have h2 : n * ((x / m) / n) + (x / m) % n = x / m := Int.ediv_add_emod (x / m) n
  have hr1 : 0 ≤ x % m := Int.emod_nonneg x (by omega)
  have hr2 : x % m < m := Int.emod_lt_of_pos x hm
  have hs1 : 0 ≤ (x / m) % n := Int.emod_nonneg _ (by omega)
  have hs2 : (x / m) % n < n := Int.emod_lt_of_pos _ hn
  have hx : x = x % m + m * ((x / m) % n) + m * n * ((x / m) / n) := by
    calc x = m * (x / m) + x % m := h1.symm
      _ = m * (n * ((x / m) / n) + (x / m) % n) + x % m := by rw [h2]
      _ = x % m + m * ((x / m) % n) + m * n * ((x / m) / n) := by ring
  calc x % (m * n)
      = (x % m + m * ((x / m) % n) + m * n * ((x / m) / n)) % (m * n) := by
        rw [← hx]
    _ = (x % m + m * ((x / m) % n)) % (m * n) := Int.add_mul_emod_self_left _ _ _
    _ = x % m + m * ((x / m) % n) := by
        apply Int.emod_eq_of_lt
        · have : 0 ≤ m * ((x / m) % n) := mul_nonneg (by omega) hs1
          omega
        · have hle : m * ((x / m) % n) ≤ m * (n - 1) :=
            mul_le_mul_of_nonneg_left (by omega) (by omega)
          have h3 : m * (n - 1) = m * n - m := by ring
          omega

/-- The `for _ in range(digits)` loop of `radix_sort` (lines 252-270):
one counting pass per decimal digit, with `exp *= 10` between
passes. -/
def radixPasses : ℕ → ℤ → List ℤ → List ℤ
  | 0, _, r => r
  | d + 1, exp, r =>
      radixPasses d (exp * 10)
        (countPass 10 (fun x => ((x / exp) % 10).toNat) 0 r)

theorem digit_key_lt (e : ℕ) (r : List ℤ) :
    ∀ x ∈ r, ((x / (10:ℤ) ^ e) % 10).toNat < 10 := by
  intro x _
  have h1 : (0:ℤ) ≤ (x / (10:ℤ) ^ e) % 10 := Int.emod_nonneg _ (by norm_num)
  have h2 : (x / (10:ℤ) ^ e) % 10 < 10 := Int.emod_lt_of_pos _ (by norm_num)
  omega

/-- After a pass on digit `e` of a list sorted by `x mod 10 ^ e`, the
list is sorted by `x mod 10 ^ (e + 1)`: the pass groups by digit `e`
and, within a group, stability keeps the `mod 10 ^ e` order. -/
theorem digit_pass_sorted (e : ℕ) (r : List ℤ) (hpos : ∀ x ∈ r, 0 ≤ x)
    (hsorted : r.Pairwise (fun a b => a % (10 ^ e : ℤ) ≤ b % (10 ^ e : ℤ))) :
    (countPass 10 (fun x => ((x / (10:ℤ) ^ e) % 10).toNat) 0 r).Pairwise
      (fun a b => a % (10 ^ (e + 1) : ℤ) ≤ b % (10 ^ (e + 1) : ℤ)) := by
  have hdec : ∀ x : ℤ, x % (10 ^ (e + 1) : ℤ) =
      x % (10 ^ e : ℤ) + 10 ^ e * ((x / (10 ^ e : ℤ)) % 10) := by
    intro x
    rw [pow_succ]
    exact emod_mul_decomp x _ 10 (by positivity) (by norm_num)
  have hdig : ∀ {x : ℤ} {j : ℕ}, ((x / (10:ℤ) ^ e) % 10).toNat = j →
      (x / (10:ℤ) ^ e) % 10 = (j : ℤ) := by
    intro x j h
    have h0 : (0:ℤ) ≤ (x / (10:ℤ) ^ e) % 10 := Int.emod_nonneg _ (by norm_num)
    omega
  rw [countPass_eq 10 _ 0 r (digit_key_lt e r)]
  rw [pairwise_flatten]
  constructor
  · intro bl hbl
    rw [mem_map] at hbl
    obtain ⟨j, _, rfl⟩ := hbl
    have hsub : r.filter (fun x => ((x / (10:ℤ) ^ e) % 10).toNat = j) <+ r :=
      filter_sublist r
    have hblsorted := hsorted.sublist hsub
    refine Pairwise.imp_of_mem ?_ hblsorted
    intro a b ha hb hab
    have hda : (a / (10:ℤ) ^ e) % 10 = (j : ℤ) :=
      hdig (by simpa using of_mem_filter ha)
    have hdb : (b / (10:ℤ) ^ e) % 10 = (j : ℤ) :=
      hdig (by simpa using of_mem_filter hb)
    rw [hdec a, hdec b, hda, hdb]
    omega
  · rw [pairwise_map]
    refine (pairwise_lt_range 10).imp ?_
    intro i j hij a ha b hb
    have hda : (a / (10:ℤ) ^ e) % 10 = (i : ℤ) :=
      hdig (by simpa using of_mem_filter ha)
    have hdb : (b / (10:ℤ) ^ e) % 10 = (j : ℤ) :=
      hdig (by simpa using of_mem_filter hb)
    have hra : a % (10 ^ e : ℤ) < 10 ^ e := Int.emod_lt_of_pos _ (by positivity)
    have hrb : 0 ≤ b % (10 ^ e : ℤ) := Int.emod_nonneg _ (by positivity)
    have hij2 : ((i : ℤ) + 1) * 10 ^ e ≤ (j : ℤ) * 10 ^ e := by
      apply mul_le_mul_of_nonneg_right ?_ (by positivity)
      exact_mod_cast hij
    rw [hdec a, hdec b, hda, hdb]
    have hring1 : ((i : ℤ) + 1) * 10 ^ e = 10 ^ e * (i : ℤ) + 10 ^ e := by ring
    have hring2 : (j : ℤ) * 10 ^ e = 10 ^ e * (j : ℤ) := by ring
    omega

theorem radixPasses_spec :
    ∀ (d e : ℕ) (r : List ℤ), (∀ x ∈ r, 0 ≤ x) →
      r.Pairwise (fun a b => a % (10 ^ e : ℤ) ≤ b % (10 ^ e : ℤ)) →
      radixPasses d ((10 : ℤ) ^ e) r ~ r ∧
      (radixPasses d ((10 : ℤ) ^ e) r).Pairwise
        (fun a b => a % (10 ^ (e + d) : ℤ) ≤ b % (10 ^ (e + d) : ℤ)) := by
  intro d
  induction d with
  | zero =>
      intro e r _ hsorted
      rw [radixPasses]
      exact ⟨Perm.refl _, hsorted⟩
  | succ d ih =>
      intro e r hpos hsorted
      rw [radixPasses]
      have hperm := countPass_perm 10 (fun x => ((x / (10:ℤ) ^ e) % 10).toNat)
        0 r (digit_key_lt e r)
      have hpos2 : ∀ x ∈ countPass 10 (fun x => ((x / (10:ℤ) ^ e) % 10).toNat)
          0 r, 0 ≤ x := fun x hx => hpos x (hperm.subset hx)
      have hsorted2 := digit_pass_sorted e r hpos hsorted
      have hexp : (10 : ℤ) ^ e * 10 = (10 : ℤ) ^ (e + 1) := (pow_succ 10 e).symm
      rw [hexp]
      obtain ⟨hp, hs⟩ := ih (e + 1)
        (countPass 10 (fun x => ((x / (10:ℤ) ^ e) % 10).toNat) 0 r) hpos2 hsorted2
      refine ⟨hp.trans hperm, ?_⟩
      rw [show e + (d + 1) = e + 1 + d from by omega]
      exact hs

/-- `radix_sort` of sorting_algorithms.py (lines 212-272). -/
def radix_sort (l : List ℤ) : List ℤ :=
  if l = [] then []
  else if hneg : l.any (fun x => x < 0) then
    ((radix_sort ((l.filter (fun x => x < 0)).map (fun x => -x))).map
        (fun x => -x)).reverse ++
      (if l.filter (fun x => 0 ≤ x) = [] then []
       else radix_sort (l.filter (fun x => 0 ≤ x)))
  else
    radixPasses (numDigits (pymax (l.map (fun x => |x|))).toNat) 1 l
termination_by l.countP (fun x => x < 0)
decreasing_by
  · have h0 : ((l.filter (fun x => x < 0)).map (fun x => -x)).countP
        (fun x => decide (x < 0)) = 0 := by
      rw [countP_eq_zero]
      intro a ha
      rw [mem_map] at ha
      obtain ⟨b, hb, rfl⟩ := ha
      have hb2 := of_mem_filter hb
      simp at hb2 ⊢
      omega
    have h1 : 0 < l.countP (fun x => decide (x < 0)) := by
      rw [countP_pos]
      rw [any_eq_true] at hneg
      obtain ⟨x, hx, hxlt⟩ := hneg
      exact ⟨x, hx, hxlt⟩
    omega
  · have h0 : (l.filter (fun x => 0 ≤ x)).countP (fun x => decide (x < 0)) = 0 := by
      rw [countP_eq_zero]
      intro a ha
      have hb2 := of_mem_filter ha
      simp at hb2 ⊢
      omega
    have h1 : 0 < l.countP (fun x => decide (x < 0)) := by
      rw [countP_pos]
      rw [any_eq_true] at hneg
      obtain ⟨x, hx, hxlt⟩ := hneg
      exact ⟨x, hx, hxlt⟩
    omega

theorem radix_nonneg (l : List ℤ) (hpos : ∀ x ∈ l, 0 ≤ x) :
    radixPasses (numDigits (pymax (l.map (fun x => |x|))).toNat) 1 l ~ l ∧
    (radixPasses (numDigits (pymax (l.map (fun x => |x|))).toNat) 1
      l).Sorted (· ≤ ·) := by
  have h1 : (1 : ℤ) = 10 ^ (0 : ℕ) := by norm_num
  have hinit : l.Pairwise
      (fun a b => a % (10 ^ (0:ℕ) : ℤ) ≤ b % (10 ^ (0:ℕ) : ℤ)) := by
    apply pairwise_of_forall_mem_list
    intro a _ b _
    simp
  rw [h1]
  obtain ⟨hp, hs⟩ := radixPasses_spec
    (numDigits (pymax (l.map (fun x => |x|))).toNat) 0 l hpos hinit
  have hbound : ∀ x ∈ l,
      x < (10:ℤ) ^ numDigits (pymax (l.map (fun x => |x|))).toNat := by
    intro x hx
    have hmx : |x| ≤ pymax (l.map (fun x => |x|)) :=
      le_pymax_of_mem (mem_map_of_mem (fun x => |x|) hx)
    have habs : x ≤ |x| := le_abs_self x
    have hnd := numDigits_bound (pymax (l.map (fun x => |x|))).toNat
    have hcast : ((10 ^ numDigits (pymax (l.map (fun x => |x|))).toNat : ℕ) : ℤ) =
        (10:ℤ) ^ numDigits (pymax (l.map (fun x => |x|))).toNat := by
      push_cast
      rfl
    omega
  refine ⟨hp, ?_⟩
  refine Pairwise.imp_of_mem ?_ hs
  intro a b ha hb hab
  have ha2 : a ∈ l := hp.subset ha
  have hb2 : b ∈ l := hp.subset hb
  rw [Nat.zero_add] at hab
  rw [Int.emod_eq_of_lt (hpos a ha2) (hbound a ha2)] at hab
  rw [Int.emod_eq_of_lt (hpos b hb2) (hbound b hb2)] at hab
  exact hab

theorem radix_sort_correct (l : List ℤ) :
    radix_sort l ~ l ∧ (radix_sort l).Sorted (· ≤ ·) := by
  generalize hn : l.countP (fun x => decide (x < 0)) = n
  induction n using Nat.strong_induction_on generalizing l with
  | _ n ih =>
      subst hn
      rw [radix_sort]
      by_cases hemp : l = []
      · rw [if_pos hemp, hemp]
        exact ⟨Perm.refl _, Pairwise.nil⟩
      · rw [if_neg hemp]
        by_cases hneg : l.any (fun x => x < 0) = true
        · rw [dif_pos hneg]
          have hcnt_neg : ((l.filter (fun x => x < 0)).map
              (fun x => -x)).countP (fun x => decide (x < 0)) = 0 := by
            rw [countP_eq_zero]
            intro a ha
            rw [mem_map] at ha
            obtain ⟨b, hb, rfl⟩ := ha
            have hb2 := of_mem_filter hb
            simp at hb2 ⊢
            omega
          have hcnt_pos : (l.filter (fun x => 0 ≤ x)).countP
              (fun x => decide (x < 0)) = 0 := by
            rw [countP_eq_zero]
            intro a ha
            have hb2 := of_mem_filter ha
            simp at hb2 ⊢
            omega
          have hcnt_l : 0 < l.countP (fun x => decide (x < 0)) := by
            rw [countP_pos]
            rw [any_eq_true] at hneg
            obtain ⟨x, hx, hxlt⟩ := hneg
            exact ⟨x, hx, hxlt⟩
          obtain ⟨hrp, hrs⟩ := ih 0 hcnt_l
            ((l.filter (fun x => x < 0)).map (fun x => -x)) hcnt_neg
          have hnegperm : ((radix_sort ((l.filter (fun x => x < 0)).map
              (fun x => -x))).map (fun x => -x)).reverse ~
              l.filter (fun x => x < 0) := by
            calc ((radix_sort ((l.filter (fun x => x < 0)).map
                  (fun x => -x))).map (fun x => -x)).reverse
                ~ (radix_sort ((l.filter (fun x => x < 0)).map
                  (fun x => -x))).map (fun x => -x) := reverse_perm _
              _ ~ ((l.filter (fun x => x < 0)).map (fun x => -x)).map
                  (fun x => -x) := hrp.map _
              _ = l.filter (fun x => x < 0) := by
                  rw [map_map]
                  have : ((fun x : ℤ => -x) ∘ fun x : ℤ => -x) = id := by
                    funext x
                    simp
                  rw [this, map_id]
          have hnegsorted : (((radix_sort ((l.filter (fun x => x < 0)).map
              (fun x => -x))).map (fun x => -x)).reverse).Pairwise (· ≤ ·) := by
            rw [pairwise_reverse, pairwise_map]
            refine hrs.imp ?_
            intro a b hab
            simp
            omega
          have hposresult : (if l.filter (fun x => 0 ≤ x) = [] then []
              else radix_sort (l.filter (fun x => 0 ≤ x))) ~
                l.filter (fun x => 0 ≤ x) ∧
              (if l.filter (fun x => 0 ≤ x) = [] then []
              else radix_sort (l.filter (fun x => 0 ≤ x))).Pairwise (· ≤ ·) := by
            by_cases hpe : l.filter (fun x => 0 ≤ x) = []
            · rw [if_pos hpe, hpe]
              exact ⟨Perm.refl _, Pairwise.nil⟩
            · rw [if_neg hpe]
              exact ih 0 hcnt_l (l.filter (fun x => 0 ≤ x)) hcnt_pos
          have hmem_neg : ∀ x ∈ ((radix_sort ((l.filter (fun x => x < 0)).map
              (fun x => -x))).map (fun x => -x)).reverse, x < 0 := by
            intro x hx
            have h2 := of_mem_filter (hnegperm.subset hx)
            simpa using h2
          have hmem_pos : ∀ x ∈ (if l.filter (fun x => 0 ≤ x) = [] then []
              else radix_sort (l.filter (fun x => 0 ≤ x))), 0 ≤ x := by
            intro x hx
            have h2 := of_mem_filter (hposresult.1.subset hx)
            simpa using h2
          constructor
          · calc ((radix_sort ((l.filter (fun x => x < 0)).map
                  (fun x => -x))).map (fun x => -x)).reverse ++
                (if l.filter (fun x => 0 ≤ x) = [] then []
                 else radix_sort (l.filter (fun x => 0 ≤ x)))
                ~ l.filter (fun x => x < 0) ++ l.filter (fun x => 0 ≤ x) :=
                  Perm.append hnegperm hposresult.1
              _ ~ l := by
                  have hpart := filter_append_perm (fun x => decide (x < 0)) l
                  have hpos_eq : l.filter (fun x => !decide (x < 0)) =
                      l.filter (fun x => 0 ≤ x) := by
                    apply filter_congr
                    intro x _
                    by_cases h : x < 0 <;> simp [h] <;> omega
                  rw [hpos_eq] at hpart
                  exact hpart
          · rw [Sorted, pairwise_append]
            refine ⟨hnegsorted, hposresult.2, ?_⟩
            intro x hx y hy
            have h1 := hmem_neg x hx
            have h2 := hmem_pos y hy
            omega
        · rw [dif_neg hneg]
          apply radix_nonneg
          intro x hx
          by_contra hcon
          apply hneg
          rw [any_eq_true]
          exact ⟨x, hx, by simp; omega⟩

/-! ## Bucket sort (`bucket_sort`, sorting_algorithms.py lines 275-305)

Python float arithmetic is modelled by exact rational arithmetic.  The
function can raise `ZeroDivisionError`: when `num_buckets == 0`, at
`bucket_range = (max_val - min_val) / num_buckets`, and — the case the
source does NOT guard — when all elements are equal (`max == min`), at
`(i - min_val) / bucket_range` in the placement loop, which runs at
least once for a nonempty list.  Both are modelled by `none`.
`int(...)` truncates toward zero; its argument is nonnegative here, so
it is the floor.  Every computed index is within the bucket list
(proved in `bucketIndex_lt`), so the `buckets[index]` accesses never
fault and are modelled by total `set`/`getD`. -/

/-- Index computation of the placement loop (lines 292-297), with the
`if index == num_buckets: index -= 1` clamp for the maximum. -/
def bucketIndex (mn rng : ℚ) (nb : ℕ) (x : ℚ) : ℕ :=
  let idx := (⌊(x - mn) / rng⌋).toNat
  if idx = nb then idx - 1 else idx

/-- `bucket_sort` of sorting_algorithms.py (lines 275-305); the source
calls it with the default `num_buckets = 10`. -/
def bucket_sort (l : List ℚ) (nb : ℕ) : Option (List ℚ) :=
  if l = [] then some []
  else if nb = 0 then none
  else if (pymax l - pymin l) / (nb : ℚ) = 0 then none
  else
    some (((l.foldl
      (fun bs x => bs.set
        (bucketIndex (pymin l) ((pymax l - pymin l) / (nb : ℚ)) nb x)
        (bs.getD (bucketIndex (pymin l) ((pymax l - pymin l) / (nb : ℚ)) nb x)
          [] ++ [x]))
      (List.replicate nb ([] : List ℚ))).map (fun b => insertion_sort b)).flatten)

theorem pymin_lt_pymax (l : List ℚ) (hl : l ≠ [])
    (hmm : pymin l ≠ pymax l) : pymin l < pymax l := by
  match l, hl with
  | a :: t, _ =>
      have h1 : pymin (a :: t) ≤ a := pymin_le_of_mem (mem_cons_self a t)
      have h2 : a ≤ pymax (a :: t) := le_pymax_of_mem (mem_cons_self a t)
      exact lt_of_le_of_ne (le_trans h1 h2) hmm

theorem bucket_rng_pos (l : List ℚ) (nb : ℕ) (hnb : 0 < nb) (hl : l ≠ [])
    (hmm : pymin l ≠ pymax l) : 0 < (pymax l - pymin l) / (nb : ℚ) := by
  apply div_pos
  · have := pymin_lt_pymax l hl hmm
    linarith
  · exact_mod_cast hnb

theorem bucket_raw_le (l : List ℚ) (nb : ℕ) (hnb : 0 < nb) (hl : l ≠ [])
    (hmm : pymin l ≠ pymax l) :
    ∀ x ∈ l, 0 ≤ ⌊(x - pymin l) / ((pymax l - pymin l) / (nb : ℚ))⌋ ∧
      ⌊(x - pymin l) / ((pymax l - pymin l) / (nb : ℚ))⌋ ≤ (nb : ℤ) := by
  intro x hx
  have hmn : pymin l ≤ x := pymin_le_of_mem hx
  have hmx : x ≤ pymax l := le_pymax_of_mem hx
  have hrpos := bucket_rng_pos l nb hnb hl hmm
  have hq0 : (0:ℚ) ≤ (x - pymin l) / ((pymax l - pymin l) / (nb : ℚ)) :=
    div_nonneg (by linarith) (le_of_lt hrpos)
  have hnb0 : ((nb : ℚ)) ≠ 0 := by
    exact_mod_cast Nat.pos_iff_ne_zero.mp hnb
  have hmul : (nb : ℚ) * ((pymax l - pymin l) / (nb : ℚ)) =
      pymax l - pymin l := by
    field_simp
  have hq1 : (x - pymin l) / ((pymax l - pymin l) / (nb : ℚ)) ≤ (nb : ℚ) := by
    rw [div_le_iff hrpos, mul_comm, ← mul_comm (nb : ℚ), hmul]
    linarith
  constructor
  · exact Int.floor_nonneg.mpr hq0
  · calc ⌊(x - pymin l) / ((pymax l - pymin l) / (nb : ℚ))⌋
        ≤ ⌊((nb : ℕ) : ℚ)⌋ := Int.floor_le_floor hq1
      _ = (nb : ℤ) := Int.floor_natCast nb

theorem bucketIndex_lt (l : List ℚ) (nb : ℕ) (hnb : 0 < nb) (hl : l ≠ [])
    (hmm : pymin l ≠ pymax l) :
    ∀ x ∈ l, bucketIndex (pymin l) ((pymax l - pymin l) / (nb : ℚ)) nb x < nb := by
  intro x hx
  obtain ⟨h0, h1⟩ := bucket_raw_le l nb hnb hl hmm x hx
  rw [bucketIndex]
  by_cases h : (⌊(x - pymin l) / ((pymax l - pymin l) / (nb : ℚ))⌋).toNat = nb
  · rw [if_pos h]
    omega
  · rw [if_neg h]
    omega

theorem bucketIndex_mono (l : List ℚ) (nb : ℕ) (hnb : 0 < nb) (hl : l ≠ [])
    (hmm : pymin l ≠ pymax l) {x y : ℚ} (hx : x ∈ l) (hy : y ∈ l)
    (hxy : x ≤ y) :
    bucketIndex (pymin l) ((pymax l - pymin l) / (nb : ℚ)) nb x ≤
      bucketIndex (pymin l) ((pymax l - pymin l) / (nb : ℚ)) nb y := by
  obtain ⟨hx0, hx1⟩ := bucket_raw_le l nb hnb hl hmm x hx
  obtain ⟨hy0, hy1⟩ := bucket_raw_le l nb hnb hl hmm y hy
  have hrpos := bucket_rng_pos l nb hnb hl hmm
  have hdiv : (x - pymin l) / ((pymax l - pymin l) / (nb : ℚ)) ≤
      (y - pymin l) / ((pymax l - pymin l) / (nb : ℚ)) :=
    div_le_div_of_nonneg_right (by linarith) (le_of_lt hrpos)
  have hfl : ⌊(x - pymin l) / ((pymax l - pymin l) / (nb : ℚ))⌋ ≤
      ⌊(y - pymin l) / ((pymax l - pymin l) / (nb : ℚ))⌋ :=
    Int.floor_le_floor hdiv
  rw [bucketIndex, bucketIndex]
  by_cases h2 : (⌊(y - pymin l) / ((pymax l - pymin l) / (nb : ℚ))⌋).toNat = nb
  · rw [if_pos h2]
    by_cases h3 : (⌊(x - pymin l) / ((pymax l - pymin l) / (nb : ℚ))⌋).toNat = nb
    · rw [if_pos h3]
      omega
    · rw [if_neg h3]
      omega
  · rw [if_neg h2]
    by_cases h3 : (⌊(x - pymin l) / ((pymax l - pymin l) / (nb : ℚ))⌋).toNat = nb
    · rw [if_pos h3]
      omega
    · rw [if_neg h3]
      omega


theorem bucketFold_length (f : ℚ → ℕ) :
    ∀ (l : List ℚ) (bs : List (List ℚ)),
      (l.foldl (fun bs x => bs.set (f x) (bs.getD (f x) [] ++ [x])) bs).length =
        bs.length := by
  intro l
  induction l with
  | nil => intro bs; rfl
  | cons x t ih =>
      intro bs
      rw [foldl_cons, ih]
      simp

theorem bucketFold_getD (f : ℚ → ℕ) :
    ∀ (l : List ℚ) (bs : List (List ℚ)), (∀ x ∈ l, f x < bs.length) →
      ∀ j, (l.foldl (fun bs x => bs.set (f x) (bs.getD (f x) [] ++ [x])) bs).getD j [] =
        bs.getD j [] ++ l.filter (fun x => f x = j) := by
  intro l
  induction l with
  | nil =>
      intro bs _ j
      simp
  | cons x t ih =>
      intro bs h j
      have hx : f x < bs.length := h x (mem_cons_self x t)
      have hT : ∀ y ∈ t, f y < (bs.set (f x) (bs.getD (f x) [] ++ [x])).length := by
        intro y hy
        rw [length_set]
        exact h y (mem_cons_of_mem x hy)
      rw [foldl_cons, ih _ hT j]
      by_cases hj : f x = j
      · have hset : (bs.set (f x) (bs.getD (f x) [] ++ [x])).getD j [] =
            bs.getD j [] ++ [x] := by
          rw [← hj, getD_eq_getElem?_getD, getElem?_set_self hx]
          rfl
        rw [hset]
        have hfil : (x :: t).filter (fun y => decide (f y = j)) =
            x :: t.filter (fun y => decide (f y = j)) := by
          simp [filter_cons, hj]
        rw [hfil, append_assoc]
        rfl
      · have hset : (bs.set (f x) (bs.getD (f x) [] ++ [x])).getD j [] =
            bs.getD j [] := by
          rw [getD_eq_getElem?_getD, getElem?_set_ne hj, ← getD_eq_getElem?_getD]
        rw [hset]
        have hfil : (x :: t).filter (fun y => decide (f y = j)) =
            t.filter (fun y => decide (f y = j)) := by
          simp [filter_cons, hj]
        rw [hfil]

theorem bucket_blocks_eq (l : List ℚ) (nb : ℕ) (f : ℚ → ℕ)
    (hK : ∀ x ∈ l, f x < nb) :
    l.foldl (fun bs x => bs.set (f x) (bs.getD (f x) [] ++ [x]))
        (List.replicate nb ([] : List ℚ)) =
      (range nb).map (fun j => l.filter (fun x => f x = j)) := by
  have hlen : (l.foldl (fun bs x => bs.set (f x) (bs.getD (f x) [] ++ [x]))
      (List.replicate nb ([] : List ℚ))).length = nb := by
    rw [bucketFold_length]
    simp
  have hK2 : ∀ x ∈ l, f x < (List.replicate nb ([] : List ℚ)).length := by
    intro x hx
    rw [length_replicate]
    exact hK x hx
  have hcontent := bucketFold_getD f l (List.replicate nb ([] : List ℚ)) hK2
  apply ext_getElem?
  intro j
  by_cases hj : j < nb
  · have hjB : j < (l.foldl (fun bs x => bs.set (f x) (bs.getD (f x) [] ++ [x]))
        (List.replicate nb ([] : List ℚ))).length := by
      rw [hlen]
      exact hj
    have h1 : (l.foldl (fun bs x => bs.set (f x) (bs.getD (f x) [] ++ [x]))
        (List.replicate nb ([] : List ℚ)))[j]? =
        some ((l.foldl (fun bs x => bs.set (f x) (bs.getD (f x) [] ++ [x]))
          (List.replicate nb ([] : List ℚ))).getD j []) := by
      rw [getElem?_eq_getElem hjB, getD_eq_getElem?_getD, getElem?_eq_getElem hjB]
      rfl
    have hrep : (List.replicate nb ([] : List ℚ)).getD j [] = [] := by
      rw [getD_eq_getElem?_getD, getElem?_replicate_of_lt hj]
      rfl
    rw [h1, hcontent j, hrep, nil_append, getElem?_map, getElem?_range hj]
    rfl
  · have hj2 : nb ≤ j := Nat.le_of_not_lt hj
    rw [getElem?_eq_none (by rw [hlen]; exact hj2),
      getElem?_eq_none (by rw [length_map, length_range]; exact hj2)]

theorem flatten_map_perm (g h : ℕ → List ℚ) :
    ∀ (js : List ℕ), (∀ j ∈ js, g j ~ h j) →
      (js.map g).flatten ~ (js.map h).flatten := by
  intro js
  induction js with
  | nil => intro _; exact Perm.refl _
  | cons j t ih =>
      intro hp
      rw [map_cons, map_cons, flatten_cons, flatten_cons]
      exact Perm.append (hp j (mem_cons_self j t))
        (ih (fun a ha => hp a (mem_cons_of_mem j ha)))

theorem bucket_sort_eq (l : List ℚ) (nb : ℕ) (hnb : nb ≠ 0) (hl : l ≠ [])
    (hmm : pymin l ≠ pymax l) :
    bucket_sort l nb = some (((range nb).map (fun j =>
      insertion_sort (l.filter (fun x =>
        bucketIndex (pymin l) ((pymax l - pymin l) / (nb : ℚ)) nb x = j)))).flatten) := by
  have hrpos := bucket_rng_pos l nb (Nat.pos_of_ne_zero hnb) hl hmm
  rw [bucket_sort, if_neg hl, if_neg hnb, if_neg (ne_of_gt hrpos),
    bucket_blocks_eq l nb _ (bucketIndex_lt l nb (Nat.pos_of_ne_zero hnb) hl hmm),
    map_map]
  rfl

theorem bucket_sort_correct (l : List ℚ) (nb : ℕ) (hnb : nb ≠ 0)
    (hmm : pymin l ≠ pymax l) (hl : l ≠ []) :
    ∃ out, bucket_sort l nb = some out ∧ out ~ l ∧ out.Sorted (· ≤ ·) := by
  have hnb0 : 0 < nb := Nat.pos_of_ne_zero hnb
  have hK := bucketIndex_lt l nb hnb0 hl hmm
  refine ⟨_, bucket_sort_eq l nb hnb hl hmm, ?_, ?_⟩
  · refine Perm.trans (flatten_map_perm _ _ (range nb) ?_) (flatten_filter_perm _ nb l hK)
    intro j _
    exact insertion_sort_perm _
  · rw [Sorted, pairwise_flatten]
    constructor
    · intro b hb
      obtain ⟨j, hj, rfl⟩ := mem_map.mp hb
      exact insertion_sort_sorted _
    · rw [pairwise_map]
      apply Pairwise.imp ?_ (pairwise_lt_range nb)
      intro i j hij x hxm y hym
      have hx1 : x ∈ l.filter (fun z =>
          bucketIndex (pymin l) ((pymax l - pymin l) / (nb : ℚ)) nb z = i) :=
        (insertion_sort_perm _).mem_iff.mp hxm
      have hy1 : y ∈ l.filter (fun z =>
          bucketIndex (pymin l) ((pymax l - pymin l) / (nb : ℚ)) nb z = j) :=
        (insertion_sort_perm _).mem_iff.mp hym
      have hxl : x ∈ l := mem_of_mem_filter hx1
      have hyl : y ∈ l := mem_of_mem_filter hy1
      have hxi : bucketIndex (pymin l) ((pymax l - pymin l) / (nb : ℚ)) nb x = i := by
        have := of_mem_filter hx1
        simpa using this
      have hyj : bucketIndex (pymin l) ((pymax l - pymin l) / (nb : ℚ)) nb y = j := by
        have := of_mem_filter hy1
        simpa using this
      by_contra hxy
      have hyx : y ≤ x := le_of_not_le hxy
      have := bucketIndex_mono l nb hnb0 hl hmm hyl hxl hyx
      omega

theorem bucket_sort_degenerate : bucket_sort [(7:ℚ), 7, 7] 10 = none := by
  have hmax : pymax [(7:ℚ), 7, 7] = 7 := by simp [pymax]
  have hmin : pymin [(7:ℚ), 7, 7] = 7 := by simp [pymin]
  have h3 : (pymax [(7:ℚ), 7, 7] - pymin [(7:ℚ), 7, 7]) / ((10:ℕ) : ℚ) = 0 := by
    rw [hmax, hmin]
    norm_num
  rw [bucket_sort, if_neg (by simp : ¬([(7:ℚ),7,7] = [])),
    if_neg (by norm_num : ¬((10:ℕ) = 0)), if_pos h3]

/-! ## Heap sort

`heap_sort` of sorting_algorithms.py (lines 139-176).  The Python helper
`heapify(arr, n, i)` sifts index `i` down inside the prefix of length `n`,
recursing on the larger child; we give it explicit fuel (the recursion
index at least doubles each step, so `fuel = n` is always enough, and the
fuel-based definition reduces in the kernel).  `largest1`/`largest2` are
the two chained `if` statements computing `largest`, and `lswap` is the
simultaneous assignment `arr[i], arr[j] = arr[j], arr[i]`. -/

def lswap (l : List β) (i j : ℕ) : List β :=
  (l.set i (l.getD j default)).set j (l.getD i default)

def largest1 (n i : ℕ) (l : List β) : ℕ :=
  if 2 * i + 1 < n ∧ l.getD i default < l.getD (2 * i + 1) default then 2 * i + 1
  else i

def largest2 (n i : ℕ) (l : List β) : ℕ :=
  if 2 * i + 2 < n ∧ l.getD (largest1 n i l) default < l.getD (2 * i + 2) default
  then 2 * i + 2
  else largest1 n i l

def heapify : ℕ → ℕ → ℕ → List β → List β
  | 0, _, _, l => l
  | fuel + 1, n, i, l =>
      if largest2 n i l = i then l
      else heapify fuel n (largest2 n i l) (lswap l i (largest2 n i l))

/-- The build phase `for i in range(n // 2 - 1, -1, -1): heapify(arr, n, i)`;
`buildLoop n k l` runs `heapify` at indices `k-1, k-2, ..., 0`. -/
def buildLoop (n : ℕ) : ℕ → List β → List β
  | 0, l => l
  | k + 1, l => buildLoop n k (heapify n n k l)

/-- The extraction phase `for i in range(n - 1, 0, -1)`; `extractLoop i l`
runs the body at loop indices `i, i-1, ..., 1`. -/
def extractLoop : ℕ → List β → List β
  | 0, l => l
  | i + 1, l => extractLoop i (heapify (i + 1) (i + 1) 0 (lswap l 0 (i + 1)))

def heap_sort (l : List β) : List β :=
  extractLoop (l.length - 1) (buildLoop l.length (l.length / 2) l)

theorem lswap_length (l : List β) (i j : ℕ) :
    (lswap l i j).length = l.length := by
  simp [lswap]

theorem getElem?_lswap_fst (l : List β) {i j : ℕ} (hij : i ≠ j)
    (hi : i < l.length) :
    (lswap l i j)[i]? = some (l.getD j default) := by
  rw [lswap, getElem?_set_ne (Ne.symm hij), getElem?_set_self hi]

theorem getElem?_lswap_snd (l : List β) {i j : ℕ} (hj : j < l.length) :
    (lswap l i j)[j]? = some (l.getD i default) := by
  rw [lswap, getElem?_set_self (by rw [length_set]; exact hj)]

theorem getElem?_lswap_other (l : List β) {i j k : ℕ} (hik : k ≠ i)
    (hjk : k ≠ j) :
    (lswap l i j)[k]? = l[k]? := by
  rw [lswap, getElem?_set_ne (Ne.symm hjk), getElem?_set_ne (Ne.symm hik)]

theorem getD_congr_of_getElem? {l1 l2 : List β} {j : ℕ} (d : β)
    (h : l1[j]? = l2[j]?) : l1.getD j d = l2.getD j d := by
  rw [getD_eq_getElem?_getD, getD_eq_getElem?_getD, h]

theorem getD_lswap_fst (l : List β) {i j : ℕ} (hij : i ≠ j)
    (hi : i < l.length) :
    (lswap l i j).getD i default = l.getD j default := by
  rw [getD_eq_getElem?_getD, getElem?_lswap_fst l hij hi]
  rfl

theorem getD_lswap_snd (l : List β) {i j : ℕ} (hj : j < l.length) :
    (lswap l i j).getD j default = l.getD i default := by
  rw [getD_eq_getElem?_getD, getElem?_lswap_snd l hj]
  rfl

theorem getD_lswap_other (l : List β) {i j k : ℕ} (hik : k ≠ i)
    (hjk : k ≠ j) :
    (lswap l i j).getD k default = l.getD k default :=
  getD_congr_of_getElem? default (getElem?_lswap_other l hik hjk)

theorem lswap_perm (l : List β) {i j : ℕ} (hi : i < l.length)
    (hj : j < l.length) : lswap l i j ~ l := by
  by_cases hij : i = j
  · subst hij
    rw [lswap, set_set, set_getD_self hi]
  · have hgi : l[i]? = some (l.getD i default) := by
      rw [getElem?_eq_getElem hi, getD_eq_getElem?_getD, getElem?_eq_getElem hi]
      rfl
    have hgj : (l.set i (l.getD j default))[j]? = some (l.getD j default) := by
      rw [getElem?_set_ne hij, getElem?_eq_getElem hj, getD_eq_getElem?_getD,
        getElem?_eq_getElem hj]
      rfl
    have h1 : l.getD i default :: (l.set i (l.getD j default)) ~
        l.getD j default :: l := set_perm l i (l.getD j default) _ hgi
    have h2 : l.getD j default :: lswap l i j ~
        l.getD i default :: (l.set i (l.getD j default)) :=
      set_perm _ j (l.getD i default) _ hgj
    have h3 : l.getD j default :: lswap l i j ~ l.getD j default :: l :=
      Perm.trans h2 h1
    exact h3.cons_inv

/-- `InSub r j`: index `j` lies in the binary-heap subtree rooted at `r`
(children of `p` are `2p+1` and `2p+2`). -/
inductive InSub : ℕ → ℕ → Prop
  | refl (r : ℕ) : InSub r r
  | left {r j : ℕ} : InSub r j → InSub r (2 * j + 1)
  | right {r j : ℕ} : InSub r j → InSub r (2 * j + 2)

theorem InSub_le {r j : ℕ} (h : InSub r j) : r ≤ j := by
  induction h with
  | refl => exact le_refl r
  | left _ ih => omega
  | right _ ih => omega

theorem InSub_eq_or_ge {r j : ℕ} (h : InSub r j) : j = r ∨ 2 * r + 1 ≤ j := by
  cases h with
  | refl => exact Or.inl rfl
  | left h => have := InSub_le h; omega
  | right h => have := InSub_le h; omega

theorem InSub_trans {r s j : ℕ} (h1 : InSub r s) (h2 : InSub s j) :
    InSub r j := by
  induction h2 with
  | refl => exact h1
  | left _ ih => exact InSub.left ih
  | right _ ih => exact InSub.right ih

theorem InSub_zero (j : ℕ) : InSub 0 j := by
  induction j using Nat.strong_induction_on with
  | _ j ih =>
      match j with
      | 0 => exact InSub.refl 0
      | j + 1 =>
          have hp : (j + 1 - 1) / 2 < j + 1 := by omega
          have hc : j + 1 = 2 * ((j + 1 - 1) / 2) + 1 ∨
              j + 1 = 2 * ((j + 1 - 1) / 2) + 2 := by omega
          rcases hc with hc | hc
          · rw [hc]
            exact InSub.left (ih _ hp)
          · rw [hc]
            exact InSub.right (ih _ hp)

/-- All nodes from index `k` on dominate their in-range children: every
subtree rooted at an index `≥ k` is heap-ordered within the prefix of
length `n`. -/
def SubHeaps (n k : ℕ) (l : List β) : Prop :=
  ∀ p, k ≤ p →
    (2 * p + 1 < n → l.getD (2 * p + 1) default ≤ l.getD p default) ∧
    (2 * p + 2 < n → l.getD (2 * p + 2) default ≤ l.getD p default)

theorem SubHeaps_mono {n k k2 : ℕ} {l : List β} (h : SubHeaps n k l)
    (hk : k ≤ k2) : SubHeaps n k2 l :=
  fun p hp => h p (le_trans hk hp)

theorem subtree_le {n r : ℕ} {l : List β} (h : SubHeaps n r l) :
    ∀ j, InSub r j → j < n → l.getD j default ≤ l.getD r default := by
  intro j hj
  induction hj with
  | refl => intro _; exact le_refl _
  | left hp ih =>
      intro hlt
      refine le_trans ((h _ (InSub_le hp)).1 hlt) (ih (by omega))
  | right hp ih =>
      intro hlt
      refine le_trans ((h _ (InSub_le hp)).2 hlt) (ih (by omega))

theorem largest2_eq_i {n i : ℕ} {l : List β} (h : largest2 n i l = i) :
    (2 * i + 1 < n → l.getD (2 * i + 1) default ≤ l.getD i default) ∧
    (2 * i + 2 < n → l.getD (2 * i + 2) default ≤ l.getD i default) := by
  rw [largest2, largest1] at h
  by_cases c1 : 2 * i + 1 < n ∧ l.getD i default < l.getD (2 * i + 1) default
  · rw [if_pos c1] at h
    by_cases c2 : 2 * i + 2 < n ∧
        l.getD (2 * i + 1) default < l.getD (2 * i + 2) default
    · rw [if_pos c2] at h
      omega
    · rw [if_neg c2] at h
      omega
  · rw [if_neg c1] at h
    constructor
    · intro hlt
      rcases not_and_or.mp c1 with hc | hc
      · exact absurd hlt hc
      · exact le_of_not_lt hc
    · intro hlt
      by_cases c2 : 2 * i + 2 < n ∧ l.getD i default < l.getD (2 * i + 2) default
      · rw [if_pos c2] at h
        omega
      · rcases not_and_or.mp c2 with hc | hc
        · exact absurd hlt hc
        · exact le_of_not_lt hc

theorem largest2_ne_i {n i : ℕ} {l : List β} (h : largest2 n i l ≠ i) :
    i < largest2 n i l ∧ largest2 n i l < n ∧
    (largest2 n i l = 2 * i + 1 ∨ largest2 n i l = 2 * i + 2) ∧
    l.getD i default < l.getD (largest2 n i l) default ∧
    (2 * i + 1 < n →
      l.getD (2 * i + 1) default ≤ l.getD (largest2 n i l) default) ∧
    (2 * i + 2 < n →
      l.getD (2 * i + 2) default ≤ l.getD (largest2 n i l) default) := by
  rw [largest2, largest1] at h ⊢
  by_cases c1 : 2 * i + 1 < n ∧ l.getD i default < l.getD (2 * i + 1) default
  · rw [if_pos c1] at h ⊢
    by_cases c2 : 2 * i + 2 < n ∧
        l.getD (2 * i + 1) default < l.getD (2 * i + 2) default
    · rw [if_pos c2] at h ⊢
      refine ⟨by omega, c2.1, Or.inr rfl, lt_trans c1.2 c2.2, ?_, ?_⟩
      · intro _
        exact le_of_lt c2.2
      · intro _
        exact le_refl _
    · rw [if_neg c2] at h ⊢
      refine ⟨by omega, c1.1, Or.inl rfl, c1.2, ?_, ?_⟩
      · intro _
        exact le_refl _
      · intro h2
        rcases not_and_or.mp c2 with hc | hc
        · exact absurd h2 hc
        · exact le_of_not_lt hc
  · rw [if_neg c1] at h ⊢
    by_cases c2 : 2 * i + 2 < n ∧ l.getD i default < l.getD (2 * i + 2) default
    · rw [if_pos c2] at h ⊢
      refine ⟨by omega, c2.1, Or.inr rfl, c2.2, ?_, ?_⟩
      · intro h2
        rcases not_and_or.mp c1 with hc | hc
        · exact absurd h2 hc
        · exact le_of_lt (lt_of_le_of_lt (le_of_not_lt hc) c2.2)
      · intro _
        exact le_refl _
    · rw [if_neg c2] at h
      exact absurd rfl h

/-- Master specification of `heapify`: assuming every strictly deeper root
already dominates its children, sifting down at `i` (with enough fuel)
yields domination from `i` on, permutes the list, touches only the subtree
of `i` inside the prefix of length `n`, and never raises a value above a
bound that dominated the subtree. -/
theorem heapify_spec : ∀ (fuel n i : ℕ) (l : List β), n ≤ fuel + i →
    n ≤ l.length → SubHeaps n (i + 1) l →
    heapify fuel n i l ~ l ∧
    SubHeaps n i (heapify fuel n i l) ∧
    (∀ j, ¬ InSub i j → (heapify fuel n i l)[j]? = l[j]?) ∧
    (∀ j, n ≤ j → (heapify fuel n i l)[j]? = l[j]?) ∧
    (∀ b : β, (∀ j, InSub i j → j < n → l.getD j default ≤ b) →
      ∀ j, InSub i j → j < n → (heapify fuel n i l).getD j default ≤ b) := by
  intro fuel
  induction fuel with
  | zero =>
      intro n i l hfi hln hsub
      rw [heapify]
      refine ⟨Perm.refl l, ?_, fun j _ => rfl, fun j _ => rfl,
        fun b hb j hj hjn => hb j hj hjn⟩
      intro p hp
      by_cases hpi : p = i
      · subst hpi
        constructor
        · intro hlt
          omega
        · intro hlt
          omega
      · exact hsub p (by omega)
  | succ fuel ih =>
      intro n i l hfi hln hsub
      rw [heapify]
      by_cases hc : largest2 n i l = i
      · rw [if_pos hc]
        obtain ⟨hd1, hd2⟩ := largest2_eq_i hc
        refine ⟨Perm.refl l, ?_, fun j _ => rfl, fun j _ => rfl,
          fun b hb j hj hjn => hb j hj hjn⟩
        intro p hp
        by_cases hpi : p = i
        · subst hpi
          exact ⟨hd1, hd2⟩
        · exact hsub p (by omega)
      · rw [if_neg hc]
        obtain ⟨hic, hcn, hcor, hival, hlval, hrval⟩ := largest2_ne_i hc
        set c := largest2 n i l with hcdef
        have hcle : c ≤ 2 * i + 2 := by
          rcases hcor with h | h <;> omega
        have hcl : c < l.length := lt_of_lt_of_le hcn hln
        have hil : i < l.length := lt_of_le_of_lt (le_of_lt hic) hcl
        have hswap_len : n ≤ (lswap l i c).length := by
          rw [lswap_length]
          exact hln
        have hfi2 : n ≤ fuel + c := by omega
        have hsub2 : SubHeaps n (c + 1) (lswap l i c) := by
          intro p hp
          obtain ⟨hq1, hq2⟩ := hsub p (by omega)
          constructor
          · intro hlt
            rw [getD_lswap_other l (by omega) (by omega),
              getD_lswap_other l (by omega) (by omega)]
            exact hq1 hlt
          · intro hlt
            rw [getD_lswap_other l (by omega) (by omega),
              getD_lswap_other l (by omega) (by omega)]
            exact hq2 hlt
        obtain ⟨ihperm, ihsub, ihuntouch, ihhigh, ihbound⟩ :=
          ih n c (lswap l i c) hfi2 hswap_len hsub2
        have hInSub_ic : InSub i c := by
          rcases hcor with h | h
          · rw [h]
            exact InSub.left (InSub.refl i)
          · rw [h]
            exact InSub.right (InSub.refl i)
        have huntouch : ∀ j, ¬ InSub i j →
            (heapify fuel n c (lswap l i c))[j]? = l[j]? := by
          intro j hj
          have hjc : ¬ InSub c j := fun h => hj (InSub_trans hInSub_ic h)
          have hji : j ≠ i := fun h => hj (h ▸ InSub.refl i)
          have hjc2 : j ≠ c := fun h => hj (h ▸ hInSub_ic)
          rw [ihuntouch j hjc, getElem?_lswap_other l hji hjc2]
        have hhigh : ∀ j, n ≤ j →
            (heapify fuel n c (lswap l i c))[j]? = l[j]? := by
          intro j hjn
          rw [ihhigh j hjn, getElem?_lswap_other l (by omega) (by omega)]
        have hperm : heapify fuel n c (lswap l i c) ~ l :=
          Perm.trans ihperm (lswap_perm l hil hcl)
        have hbound : ∀ b : β, (∀ j, InSub i j → j < n →
              l.getD j default ≤ b) →
            ∀ j, InSub i j → j < n →
              (heapify fuel n c (lswap l i c)).getD j default ≤ b := by
          intro b hb j hj hjn
          by_cases hjsub : InSub c j
          · refine ihbound b ?_ j hjsub hjn
            intro j2 hj2 hj2n
            by_cases hj2c : j2 = c
            · subst hj2c
              rw [getD_lswap_snd l hcl]
              exact hb i (InSub.refl i) (by omega)
            · have hj2i : j2 ≠ i := by
                have := InSub_le hj2
                omega
              rw [getD_lswap_other l hj2i hj2c]
              exact hb j2 (InSub_trans hInSub_ic hj2) hj2n
          · have hgd : (heapify fuel n c (lswap l i c)).getD j default =
                (lswap l i c).getD j default :=
              getD_congr_of_getElem? default (ihuntouch j hjsub)
            rw [hgd]
            by_cases hji : j = i
            · subst hji
              rw [getD_lswap_fst l (by omega) hil]
              exact hb c hInSub_ic hcn
            · rw [getD_lswap_other l hji
                (fun h => hjsub (h ▸ InSub.refl c))]
              exact hb j hj hjn
        have hsubfinal : SubHeaps n i (heapify fuel n c (lswap l i c)) := by
          intro p hp
          by_cases hpc : c ≤ p
          · exact ihsub p hpc
          · by_cases hpi : p = i
            · subst hpi
              have hival3 : (heapify fuel n c (lswap l p c)).getD p default =
                  l.getD c default := by
                have h1 : ¬ InSub c p := fun h => by
                  have := InSub_le h
                  omega
                rw [getD_congr_of_getElem? default (ihuntouch p h1),
                  getD_lswap_fst l (by omega) hil]
              have hsubc : ∀ j2, InSub c j2 → j2 < n →
                  (lswap l p c).getD j2 default ≤ l.getD c default := by
                intro j2 hj2 hj2n
                by_cases hj2c : j2 = c
                · subst hj2c
                  rw [getD_lswap_snd l hcl]
                  exact le_of_lt hival
                · have hj2i : j2 ≠ p := by
                    have := InSub_le hj2
                    omega
                  rw [getD_lswap_other l hj2i hj2c]
                  exact subtree_le (SubHeaps_mono hsub (by omega)) j2 hj2 hj2n
              constructor
              · intro hlt
                rw [hival3]
                by_cases hch : 2 * p + 1 = c
                · rw [hch]
                  exact ihbound (l.getD c default) hsubc c (InSub.refl c) hcn
                · have hns : ¬ InSub c (2 * p + 1) := by
                    intro h
                    rcases InSub_eq_or_ge h with h2 | h2
                    · exact hch h2
                    · omega
                  rw [getD_congr_of_getElem? default (ihuntouch _ hns),
                    getD_lswap_other l (by omega) hch]
                  exact hlval hlt
              · intro hlt
                rw [hival3]
                by_cases hch : 2 * p + 2 = c
                · rw [hch]
                  exact ihbound (l.getD c default) hsubc c (InSub.refl c) hcn
                · have hns : ¬ InSub c (2 * p + 2) := by
                    intro h
                    rcases InSub_eq_or_ge h with h2 | h2
                    · exact hch h2
                    · omega
                  rw [getD_congr_of_getElem? default (ihuntouch _ hns),
                    getD_lswap_other l (by omega) hch]
                  exact hrval hlt
            · obtain ⟨hq1, hq2⟩ := hsub p (by omega)
              have hpun : ¬ InSub c p := fun h => by
                have := InSub_le h
                omega
              have hpval : (heapify fuel n c (lswap l i c)).getD p default =
                  l.getD p default := by
                rw [getD_congr_of_getElem? default (ihuntouch p hpun),
                  getD_lswap_other l (by omega) (by omega)]
              have hq1un : ¬ InSub c (2 * p + 1) := by
                intro h
                rcases InSub_eq_or_ge h with h2 | h2 <;> omega
              have hq2un : ¬ InSub c (2 * p + 2) := by
                intro h
                rcases InSub_eq_or_ge h with h2 | h2 <;> omega
              constructor
              · intro hlt
                rw [hpval, getD_congr_of_getElem? default (ihuntouch _ hq1un),
                  getD_lswap_other l (by omega) (by omega)]
                exact hq1 hlt
              · intro hlt
                rw [hpval, getD_congr_of_getElem? default (ihuntouch _ hq2un),
                  getD_lswap_other l (by omega) (by omega)]
                exact hq2 hlt
        exact ⟨hperm, hsubfinal, huntouch, hhigh, hbound⟩

theorem buildLoop_spec (n : ℕ) : ∀ (k : ℕ) (l : List β), n ≤ l.length →
    SubHeaps n k l →
    buildLoop n k l ~ l ∧ SubHeaps n 0 (buildLoop n k l) := by
  intro k
  induction k with
  | zero =>
      intro l _ hsub
      exact ⟨Perm.refl l, hsub⟩
  | succ k ih =>
      intro l hln hsub
      obtain ⟨hperm, hsub2, _, _, _⟩ :=
        heapify_spec n n k l (by omega) hln hsub
      rw [buildLoop]
      obtain ⟨hp2, hs2⟩ := ih (heapify n n k l)
        (by rw [hperm.length_eq]; exact hln) hsub2
      exact ⟨Perm.trans hp2 hperm, hs2⟩

theorem eq_getD_cons_drop (l : List β) (h : 0 < l.length) :
    l = l.getD 0 default :: l.drop 1 := by
  cases l with
  | nil => simp at h
  | cons a t => rfl

theorem extractLoop_spec : ∀ (i : ℕ) (l : List β), i + 1 ≤ l.length →
    SubHeaps (i + 1) 0 l →
    (l.drop (i + 1)).Sorted (· ≤ ·) →
    (∀ j, j < i + 1 → ∀ y ∈ l.drop (i + 1), l.getD j default ≤ y) →
    extractLoop i l ~ l ∧ (extractLoop i l).Sorted (· ≤ ·) := by
  intro i
  induction i with
  | zero =>
      intro l hlen hsub hsorted hdom
      rw [extractLoop]
      refine ⟨Perm.refl l, ?_⟩
      have h3 : l = l.getD 0 default :: l.drop 1 :=
        eq_getD_cons_drop l (by omega)
      rw [h3, sorted_cons]
      constructor
      · intro y hy
        exact hdom 0 (by omega) y hy
      · exact hsorted
  | succ i ih =>
      intro l hlen hsub hsorted hdom
      rw [extractLoop]
      set l2 := lswap l 0 (i + 1) with hl2
      have hi1len : i + 1 < l.length := by omega
      have hl2len : l2.length = l.length := lswap_length l 0 (i + 1)
      have hsub2 : SubHeaps (i + 1) 1 l2 := by
        intro p hp
        obtain ⟨hq1, hq2⟩ := hsub p (by omega)
        constructor
        · intro hlt
          rw [hl2, getD_lswap_other l (by omega) (by omega),
            getD_lswap_other l (by omega) (by omega)]
          exact hq1 (by omega)
        · intro hlt
          rw [hl2, getD_lswap_other l (by omega) (by omega),
            getD_lswap_other l (by omega) (by omega)]
          exact hq2 (by omega)
      obtain ⟨hperm3, hsub3, huntouch3, hhigh3, hbound3⟩ :=
        heapify_spec (i + 1) (i + 1) 0 l2 (by omega)
          (by rw [hl2len]; omega) hsub2
      set l3 := heapify (i + 1) (i + 1) 0 l2 with hl3
      have hl3len : l3.length = l.length := by
        rw [hperm3.length_eq, hl2len]
      have hrootmax : ∀ j, j < i + 1 + 1 →
          l.getD j default ≤ l.getD 0 default :=
        fun j hj => subtree_le hsub j (InSub_zero j) hj
      have hdrop : l3.drop (i + 1) = l.getD 0 default :: l.drop (i + 1 + 1) := by
        apply ext_getElem?
        intro k
        cases k with
        | zero =>
            rw [getElem?_drop, Nat.add_zero, hhigh3 (i + 1) (le_refl _), hl2,
              getElem?_lswap_snd l hi1len, getElem?_cons_zero]
        | succ k =>
            rw [getElem?_drop, getElem?_cons_succ, getElem?_drop]
            rw [hhigh3 (i + 1 + (k + 1)) (by omega), hl2,
              getElem?_lswap_other l (by omega) (by omega)]
            have he2 : i + 1 + (k + 1) = i + 1 + 1 + k := by omega
            rw [he2]
      have hsorted3 : (l3.drop (i + 1)).Sorted (· ≤ ·) := by
        rw [hdrop, sorted_cons]
        constructor
        · intro y hy
          exact hdom 0 (by omega) y hy
        · exact hsorted
      have hdom3 : ∀ j, j < i + 1 → ∀ y ∈ l3.drop (i + 1),
          l3.getD j default ≤ y := by
        intro j hj y hy
        have hpre : ∀ j2, InSub 0 j2 → j2 < i + 1 → l2.getD j2 default ≤ y := by
          intro j2 _ hj2
          rw [hdrop] at hy
          rcases mem_cons.mp hy with hy | hy
          · subst hy
            by_cases hj20 : j2 = 0
            · subst hj20
              rw [hl2, getD_lswap_fst l (by omega) (by omega)]
              exact hrootmax (i + 1) (by omega)
            · rw [hl2, getD_lswap_other l hj20 (by omega)]
              exact hrootmax j2 (by omega)
          · by_cases hj20 : j2 = 0
            · subst hj20
              rw [hl2, getD_lswap_fst l (by omega) (by omega)]
              exact hdom (i + 1) (by omega) y hy
            · rw [hl2, getD_lswap_other l hj20 (by omega)]
              exact hdom j2 (by omega) y hy
        exact hbound3 y hpre j (InSub_zero j) hj
      obtain ⟨heperm, hesorted⟩ := ih l3 (by omega) hsub3 hsorted3 hdom3
      refine ⟨?_, hesorted⟩
      exact Perm.trans heperm
        (Perm.trans hperm3 (lswap_perm l (by omega) hi1len))

theorem heap_sort_perm_sorted (l : List β) :
    heap_sort l ~ l ∧ (heap_sort l).Sorted (· ≤ ·) := by
  have hinit : SubHeaps l.length (l.length / 2) l := by
    intro p hp
    constructor
    · intro hlt
      omega
    · intro hlt
      omega
  obtain ⟨hbperm, hbsub⟩ :=
    buildLoop_spec l.length (l.length / 2) l (le_refl _) hinit
  by_cases hl0 : l = []
  · subst hl0
    have h : heap_sort ([] : List β) = [] := by
      simp [heap_sort, buildLoop, extractLoop]
    rw [h]
    exact ⟨Perm.refl _, by constructor⟩
  · have hlen : 1 ≤ l.length := length_pos.mpr hl0
    have hBlen : (buildLoop l.length (l.length / 2) l).length = l.length :=
      hbperm.length_eq
    have heq : l.length - 1 + 1 = l.length := by omega
    have hdropnil : (buildLoop l.length (l.length / 2) l).drop
        (l.length - 1 + 1) = [] := by
      rw [heq]
      exact drop_eq_nil_of_le (by rw [hBlen])
    obtain ⟨heperm, hesorted⟩ :=
      extractLoop_spec (l.length - 1) (buildLoop l.length (l.length / 2) l)
        (by omega) (heq ▸ hbsub)
        (by rw [hdropnil]; constructor)
        (by intro j _ y hy
            rw [hdropnil] at hy
            exact absurd hy (not_mem_nil y))
    rw [heap_sort]
    exact ⟨Perm.trans heperm hbperm, hesorted⟩

theorem heap_sort_perm (l : List β) : heap_sort l ~ l :=
  (heap_sort_perm_sorted l).1

theorem heap_sort_sorted (l : List β) : (heap_sort l).Sorted (· ≤ ·) :=
  (heap_sort_perm_sorted l).2

/-! ## Graph traversal

Embedding of graph_traversal.py.  `self.graph` is a Python dict mapping a
vertex to its adjacency list; we model it as an association list
`List (V × List V)` in insertion order (Python dicts preserve insertion
order; all lookups are by key, so only key membership and per-key values
matter).  `sorted(...)` on a list of vertices of a totally ordered type is
a sorted permutation; since a linear order is antisymmetric, elements that
compare equal are equal and stability is vacuous, so we use
`insertion_sort`.  The `while`/recursion of the traversals is modelled
with explicit fuel returning `Option` (`none` = fuel exhausted or a
`KeyError` on adjacency lookup, neither of which occurs for graphs built
by `add_vertex`/`add_edge` with enough fuel, as proved below). -/

section GraphSection

variable {V : Type} [LinearOrder V]

/-- Dict lookup `self.graph[v]` / membership `v in self.graph`
(graph_traversal.py line 21: `self.graph = {}`). -/
def glookup (g : List (V × List V)) (v : V) : Option (List V) :=
  match g with
  | [] => none
  | p :: t => if p.1 = v then some p.2 else glookup t v

/-- `add_vertex` (lines 23-26): insert key with empty adjacency list if
absent (a fresh dict key goes to the end in insertion order). -/
def add_vertex (g : List (V × List V)) (v : V) : List (V × List V) :=
  if (glookup g v).isSome then g else g ++ [(v, [])]

/-- Overwrite the value stored at key `v` (used by `add_edge` for the
in-place `self.graph[v].append(...)`). -/
def gset (g : List (V × List V)) (v : V) (ns : List V) : List (V × List V) :=
  match g with
  | [] => []
  | p :: t => if p.1 = v then (v, ns) :: t else p :: gset t v ns

/-- `add_edge` (lines 28-36): ensure both endpoints exist, then append
each endpoint to the other's adjacency list. -/
def add_edge (g : List (V × List V)) (v1 v2 : V) : List (V × List V) :=
  let g1 := if (glookup g v1).isSome then g else add_vertex g v1
  let g2 := if (glookup g1 v2).isSome then g1 else add_vertex g1 v2
  let g3 := gset g2 v1 ((glookup g2 v1).getD [] ++ [v2])
  gset g3 v2 ((glookup g3 v2).getD [] ++ [v1])

/-- Every adjacency entry is itself a key of the dict; graphs built by
`add_vertex`/`add_edge` satisfy this. -/
def Closed (g : List (V × List V)) : Prop :=
  ∀ p ∈ g, ∀ n ∈ p.2, (glookup g n).isSome = true

/-- One construction step: either an `add_vertex` or an `add_edge` call. -/
def applyOp (g : List (V × List V)) (op : V ⊕ V × V) : List (V × List V) :=
  match op with
  | Sum.inl v => add_vertex g v
  | Sum.inr e => add_edge g e.1 e.2

/-- A graph built from the empty graph by a sequence of
`add_vertex`/`add_edge` calls. -/
def buildGraph (ops : List (V ⊕ V × V)) : List (V × List V) :=
  ops.foldl applyOp []

theorem glookup_isSome_iff (g : List (V × List V)) (v : V) :
    (glookup g v).isSome = true ↔ ∃ p ∈ g, p.1 = v := by
  induction g with
  | nil => simp [glookup]
  | cons p t ih =>
      rw [glookup]
      by_cases h : p.1 = v
      · simp [h]
      · rw [if_neg h, ih]
        constructor
        · intro ⟨q, hq, hqv⟩
          exact ⟨q, mem_cons_of_mem p hq, hqv⟩
        · intro ⟨q, hq, hqv⟩
          rcases mem_cons.mp hq with hq | hq
          · exact absurd (hq ▸ hqv) h
          · exact ⟨q, hq, hqv⟩

theorem glookup_mem (g : List (V × List V)) (v : V) (ns : List V)
    (h : glookup g v = some ns) : (v, ns) ∈ g := by
  induction g with
  | nil => simp [glookup] at h
  | cons p t ih =>
      rw [glookup] at h
      by_cases hp : p.1 = v
      · rw [if_pos hp] at h
        have : p = (v, ns) := by
          obtain ⟨a, b⟩ := p
          simp at hp h ⊢
          exact ⟨hp, h⟩
        exact this ▸ mem_cons_self p t
      · rw [if_neg hp] at h
        exact mem_cons_of_mem p (ih h)

theorem glookup_gset_isSome (g : List (V × List V)) (v w : V) (ns : List V) :
    (glookup (gset g v ns) w).isSome = (glookup g w).isSome := by
  induction g with
  | nil => rfl
  | cons p t ih =>
      rw [gset]
      by_cases hp : p.1 = v
      · rw [if_pos hp, glookup, glookup]
        by_cases hw : p.1 = w
        · rw [if_pos hw, if_pos (by rw [← hp, hw])]
          rfl
        · rw [if_neg hw, if_neg (by rw [← hp]; exact hw)]
      · rw [if_neg hp, glookup, glookup]
        by_cases hw : p.1 = w
        · rw [if_pos hw, if_pos hw]
        · rw [if_neg hw, if_neg hw]
          exact ih

theorem gset_mem (g : List (V × List V)) (v : V) (ns : List V) :
    ∀ p ∈ gset g v ns, p = (v, ns) ∨ p ∈ g := by
  induction g with
  | nil => intro p hp; simp [gset] at hp
  | cons q t ih =>
      intro p hp
      rw [gset] at hp
      by_cases hq : q.1 = v
      · rw [if_pos hq] at hp
        rcases mem_cons.mp hp with hp | hp
        · exact Or.inl hp
        · exact Or.inr (mem_cons_of_mem q hp)
      · rw [if_neg hq] at hp
        rcases mem_cons.mp hp with hp | hp
        · exact Or.inr (hp ▸ mem_cons_self q t)
        · rcases ih p hp with h | h
          · exact Or.inl h
          · exact Or.inr (mem_cons_of_mem q h)

theorem glookup_gset_ne (g : List (V × List V)) {v w : V} (ns : List V)
    (hw : w ≠ v) : glookup (gset g v ns) w = glookup g w := by
  induction g with
  | nil => rfl
  | cons p t ih =>
      rw [gset]
      by_cases hp : p.1 = v
      · rw [if_pos hp, glookup, glookup, if_neg (fun h => hw h.symm),
          if_neg (by rw [hp]; exact fun h => hw h.symm)]
      · rw [if_neg hp, glookup, glookup]
        by_cases hpw : p.1 = w
        · rw [if_pos hpw, if_pos hpw]
        · rw [if_neg hpw, if_neg hpw]
          exact ih

theorem glookup_gset_self (g : List (V × List V)) (v : V) (ns : List V)
    (h : (glookup g v).isSome = true) :
    glookup (gset g v ns) v = some ns := by
  induction g with
  | nil => simp [glookup] at h
  | cons p t ih =>
      rw [gset]
      by_cases hp : p.1 = v
      · rw [if_pos hp, glookup, if_pos rfl]
      · rw [if_neg hp, glookup, if_neg hp]
        rw [glookup, if_neg hp] at h
        exact ih h

theorem glookup_append (g1 g2 : List (V × List V)) (w : V) :
    glookup (g1 ++ g2) w =
      match glookup g1 w with
      | some x => some x
      | none => glookup g2 w := by
  induction g1 with
  | nil => rfl
  | cons p t ih =>
      rw [cons_append, glookup, glookup]
      by_cases hp : p.1 = w
      · rw [if_pos hp, if_pos hp]
      · rw [if_neg hp, if_neg hp]
        exact ih

theorem isSome_addv_of (g : List (V × List V)) (v w : V)
    (h : (glookup g w).isSome = true) :
    (glookup (add_vertex g v) w).isSome = true := by
  rw [add_vertex]
  by_cases hv : (glookup g v).isSome = true
  · rw [if_pos hv]
    exact h
  · rw [if_neg hv, glookup_append]
    obtain ⟨x, hx⟩ := Option.isSome_iff_exists.mp h
    rw [hx]
    rfl

theorem addv_self_isSome (g : List (V × List V)) (v : V) :
    (glookup (add_vertex g v) v).isSome = true := by
  rw [add_vertex]
  by_cases hv : (glookup g v).isSome = true
  · rw [if_pos hv]
    exact hv
  · rw [if_neg hv, glookup_append]
    cases hg : glookup g v with
    | some x => rw [hg] at hv; simp at hv
    | none => simp [glookup]

theorem addv_mem (g : List (V × List V)) (v : V) :
    ∀ p ∈ add_vertex g v, p ∈ g ∨ p = (v, ([] : List V)) := by
  intro p hp
  rw [add_vertex] at hp
  by_cases hv : (glookup g v).isSome = true
  · rw [if_pos hv] at hp
    exact Or.inl hp
  · rw [if_neg hv] at hp
    rcases mem_append.mp hp with h | h
    · exact Or.inl h
    · exact Or.inr (by simpa using h)

theorem Closed_add_vertex {g : List (V × List V)} (hg : Closed g) (v : V) :
    Closed (add_vertex g v) := by
  intro p hp n hn
  rcases addv_mem g v p hp with h | h
  · exact isSome_addv_of g v n (hg p h n hn)
  · rw [h] at hn
    simp at hn

theorem Closed_gset_append {g : List (V × List V)} (hg : Closed g)
    {a b : V} (ha : (glookup g a).isSome = true)
    (hb : (glookup g b).isSome = true) :
    Closed (gset g a ((glookup g a).getD [] ++ [b])) := by
  obtain ⟨adj, hadj⟩ := Option.isSome_iff_exists.mp ha
  intro p hp n hn
  rw [show (glookup (gset g a ((glookup g a).getD [] ++ [b])) n).isSome =
      (glookup g n).isSome from glookup_gset_isSome g a n _]
  rcases gset_mem g a _ p hp with h | h
  · rw [h] at hn
    simp only [hadj] at hn
    rcases mem_append.mp hn with h2 | h2
    · exact hg (a, adj) (glookup_mem g a adj hadj) n (by simpa using h2)
    · rw [show n = b from by simpa using h2]
      exact hb
  · exact hg p h n hn

theorem Closed_add_edge {g : List (V × List V)} (hg : Closed g)
    (v1 v2 : V) : Closed (add_edge g v1 v2) := by
  rw [add_edge]
  have h1 : Closed (if (glookup g v1).isSome then g else add_vertex g v1) ∧
      (glookup (if (glookup g v1).isSome then g else add_vertex g v1)
        v1).isSome = true := by
    by_cases hv : (glookup g v1).isSome = true
    · rw [if_pos hv]
      exact ⟨hg, hv⟩
    · rw [if_neg hv]
      exact ⟨Closed_add_vertex hg v1, addv_self_isSome g v1⟩
  set g1 := if (glookup g v1).isSome then g else add_vertex g v1 with hg1
  have h2 : Closed (if (glookup g1 v2).isSome then g1 else add_vertex g1 v2) ∧
      (glookup (if (glookup g1 v2).isSome then g1 else add_vertex g1 v2)
        v1).isSome = true ∧
      (glookup (if (glookup g1 v2).isSome then g1 else add_vertex g1 v2)
        v2).isSome = true := by
    by_cases hv : (glookup g1 v2).isSome = true
    · rw [if_pos hv]
      exact ⟨h1.1, h1.2, hv⟩
    · rw [if_neg hv]
      exact ⟨Closed_add_vertex h1.1 v2, isSome_addv_of g1 v2 v1 h1.2,
        addv_self_isSome g1 v2⟩
  set g2 := if (glookup g1 v2).isSome then g1 else add_vertex g1 v2 with hg2
  have h3 : Closed (gset g2 v1 ((glookup g2 v1).getD [] ++ [v2])) :=
    Closed_gset_append h2.1 h2.2.1 h2.2.2
  set g3 := gset g2 v1 ((glookup g2 v1).getD [] ++ [v2]) with hg3
  have h3v1 : (glookup g3 v1).isSome = true := by
    rw [hg3, glookup_gset_isSome]
    exact h2.2.1
  have h3v2 : (glookup g3 v2).isSome = true := by
    rw [hg3, glookup_gset_isSome]
    exact h2.2.2
  exact Closed_gset_append h3 h3v2 h3v1

theorem Closed_buildGraph (ops : List (V ⊕ V × V)) :
    Closed (buildGraph ops) := by
  rw [buildGraph]
  have h : ∀ (l : List (V ⊕ V × V)) (g : List (V × List V)), Closed g →
      Closed (l.foldl applyOp g) := by
    intro l
    induction l with
    | nil => intro g hgC; exact hgC
    | cons op t ih =>
        intro g hgC
        rw [foldl_cons]
        apply ih
        match op with
        | Sum.inl v => exact Closed_add_vertex hgC v
        | Sum.inr e => exact Closed_add_edge hgC e.1 e.2
  exact h ops [] (fun p hp => by simp at hp)

/-- Total number of adjacency entries, used to size the traversal fuel. -/
def adjSize (g : List (V × List V)) : ℕ :=
  (g.map (fun p => p.2.length)).sum

/-- Number of dict keys not yet visited. -/
def unvisitedCount (g : List (V × List V)) (res : List V) : ℕ :=
  ((g.map Prod.fst).filter (fun k => ¬ k ∈ res)).length

/-- `Graph.bfs` (lines 38-72): dequeue, record, then enqueue the not yet
visited neighbors in ascending order, marking them visited as they are
enqueued.  `visited` is a Python `set`; since every membership test is
order-insensitive we model it as the list of its elements in insertion
order. -/
def bfsLoop (g : List (V × List V)) :
    ℕ → List V → List V → List V → Option (List V)
  | 0, _, [], res => some res
  | 0, _, _ :: _, _ => none
  | _ + 1, _, [], res => some res
  | fuel + 1, visited, v :: qrest, res =>
      match glookup g v with
      | none => none
      | some ns =>
          let p := (insertion_sort ns).foldl
            (fun (p : List V × List V) n =>
              if n ∈ p.1 then p else (p.1 ++ [n], p.2 ++ [n]))
            (visited, qrest)
          bfsLoop g fuel p.1 p.2 (res ++ [v])

def bfs (g : List (V × List V)) (start : V) : Option (List V) :=
  if (glookup g start).isSome then
    bfsLoop g (g.length + 1) [start] [start] []
  else some []

/-- `Graph.dfs_recursive` (lines 74-106).  The nested `dfs_helper` marks
and records `vertex`, then recurses on each not-yet-visited sorted
neighbor; the visited set always equals the set of recorded vertices, so
the state is just `res`.  We run the recursion with an explicit call
stack: each frame is the not-yet-iterated tail of `sorted(self.graph[v])`
of an active `dfs_helper(v)` call, innermost first. -/
def dfsRecLoop (g : List (V × List V)) :
    ℕ → List (List V) → List V → Option (List V)
  | 0, [], res => some res
  | 0, _ :: _, _ => none
  | _ + 1, [], res => some res
  | fuel + 1, [] :: rest, res => dfsRecLoop g fuel rest res
  | fuel + 1, (n :: ns) :: rest, res =>
      if n ∈ res then dfsRecLoop g fuel (ns :: rest) res
      else
        match glookup g n with
        | none => none
        | some nns =>
            dfsRecLoop g fuel (insertion_sort nns :: ns :: rest) (res ++ [n])

def dfs_recursive (g : List (V × List V)) (start : V) : Option (List V) :=
  match glookup g start with
  | none => some []
  | some ns =>
      dfsRecLoop g (1 + adjSize g + (adjSize g + 2) * g.length)
        [insertion_sort ns] [start]

/-- `Graph.dfs_iterative` (lines 108-145): pop, skip if already visited,
otherwise record and push the unvisited neighbors in descending order
(each push prepends, so the smallest ends on top). -/
def dfsIterLoop (g : List (V × List V)) :
    ℕ → List V → List V → Option (List V)
  | 0, [], res => some res
  | 0, _ :: _, _ => none
  | _ + 1, [], res => some res
  | fuel + 1, v :: rest, res =>
      if v ∈ res then dfsIterLoop g fuel rest res
      else
        match glookup g v with
        | none => none
        | some ns =>
            dfsIterLoop g fuel
              ((insertion_sort ns).reverse.foldl
                (fun st n => if n ∈ res ++ [v] then st else n :: st) rest)
              (res ++ [v])

def dfs_iterative (g : List (V × List V)) (start : V) : Option (List V) :=
  if (glookup g start).isSome then
    dfsIterLoop g (1 + (adjSize g + 1) * g.length) [start] []
  else some []

theorem adj_length_le (g : List (V × List V)) (p : V × List V)
    (hp : p ∈ g) : p.2.length ≤ adjSize g := by
  induction g with
  | nil => simp at hp
  | cons q t ih =>
      rw [adjSize, map_cons, sum_cons]
      rcases mem_cons.mp hp with h | h
      · rw [h]
        omega
      · have := ih h
        rw [adjSize] at this
        omega

theorem nodup_concat {l : List V} {n : V} (h1 : l.Nodup) (h2 : ¬ n ∈ l) :
    (l ++ [n]).Nodup := by
  rw [nodup_append]
  refine ⟨h1, nodup_singleton n, ?_⟩
  intro a ha han
  rw [mem_singleton] at han
  exact h2 (han ▸ ha)

theorem uc_concat_le (g : List (V × List V)) (res : List V) (v : V) :
    unvisitedCount g (res ++ [v]) ≤ unvisitedCount g res := by
  rw [unvisitedCount, unvisitedCount, ← countP_eq_length_filter,
    ← countP_eq_length_filter]
  apply countP_mono_left
  intro x _ hx
  simp only [decide_eq_true_eq] at hx ⊢
  intro h2
  exact hx (mem_append.mpr (Or.inl h2))

theorem uc_concat_lt (g : List (V × List V)) (res : List V) (v : V)
    (hkey : (glookup g v).isSome = true) (hnv : ¬ v ∈ res) :
    unvisitedCount g (res ++ [v]) < unvisitedCount g res := by
  have hmem : v ∈ g.map Prod.fst := by
    obtain ⟨p, hp, hpv⟩ := (glookup_isSome_iff g v).mp hkey
    exact hpv ▸ mem_map_of_mem Prod.fst hp
  obtain ⟨s, t, hst⟩ := append_of_mem hmem
  rw [unvisitedCount, unvisitedCount, hst, ← countP_eq_length_filter,
    ← countP_eq_length_filter, countP_append, countP_append]
  have hcneg : countP (fun k => decide (¬ k ∈ res ++ [v])) (v :: t) =
      countP (fun k => decide (¬ k ∈ res ++ [v])) t := by
    apply countP_cons_of_neg
    simp
  have hcpos : countP (fun k => decide (¬ k ∈ res)) (v :: t) =
      countP (fun k => decide (¬ k ∈ res)) t + 1 := by
    apply countP_cons_of_pos
    simp [hnv]
  rw [hcneg, hcpos]
  have h1 : countP (fun k => decide (¬ k ∈ res ++ [v])) s ≤
      countP (fun k => decide (¬ k ∈ res)) s := by
    apply countP_mono_left
    intro x _ hx
    simp only [decide_eq_true_eq] at hx ⊢
    intro h2
    exact hx (mem_append.mpr (Or.inl h2))
  have h2 : countP (fun k => decide (¬ k ∈ res ++ [v])) t ≤
      countP (fun k => decide (¬ k ∈ res)) t := by
    apply countP_mono_left
    intro x _ hx
    simp only [decide_eq_true_eq] at hx ⊢
    intro h2
    exact hx (mem_append.mpr (Or.inl h2))
  omega

theorem uc_nil (g : List (V × List V)) :
    unvisitedCount g [] = g.length := by
  rw [unvisitedCount]
  have h : (g.map Prod.fst).filter (fun k => ¬ k ∈ ([] : List V)) =
      g.map Prod.fst := by
    apply filter_eq_self.mpr
    intro a _
    simp
  rw [h, length_map]

theorem bfsPush_spec (g : List (V × List V)) :
    ∀ (l : List V) (vis q R : List V), vis = R ++ q → vis.Nodup →
      (∀ x ∈ vis, (glookup g x).isSome = true) →
      (∀ x ∈ l, (glookup g x).isSome = true) →
      (l.foldl (fun (p : List V × List V) n =>
          if n ∈ p.1 then p else (p.1 ++ [n], p.2 ++ [n])) (vis, q)).1 =
        R ++ (l.foldl (fun (p : List V × List V) n =>
          if n ∈ p.1 then p else (p.1 ++ [n], p.2 ++ [n])) (vis, q)).2 ∧
      (l.foldl (fun (p : List V × List V) n =>
          if n ∈ p.1 then p else (p.1 ++ [n], p.2 ++ [n])) (vis, q)).1.Nodup ∧
      (∀ x ∈ (l.foldl (fun (p : List V × List V) n =>
          if n ∈ p.1 then p else (p.1 ++ [n], p.2 ++ [n])) (vis, q)).1,
        (glookup g x).isSome = true) ∧
      unvisitedCount g (l.foldl (fun (p : List V × List V) n =>
          if n ∈ p.1 then p else (p.1 ++ [n], p.2 ++ [n])) (vis, q)).1 +
        (l.foldl (fun (p : List V × List V) n =>
          if n ∈ p.1 then p else (p.1 ++ [n], p.2 ++ [n])) (vis, q)).2.length ≤
        unvisitedCount g vis + q.length := by
  intro l
  induction l with
  | nil =>
      intro vis q R hvq hnd hkeys _
      exact ⟨hvq, hnd, hkeys, le_refl _⟩
  | cons n t ih =>
      intro vis q R hvq hnd hkeys hlk
      rw [foldl_cons]
      by_cases hn : n ∈ vis
      · rw [if_pos hn]
        exact ih vis q R hvq hnd hkeys
          (fun x hx => hlk x (mem_cons_of_mem n hx))
      · rw [if_neg hn]
        have hnk : (glookup g n).isSome = true := hlk n (mem_cons_self n t)
        have hvq2 : vis ++ [n] = R ++ (q ++ [n]) := by
          rw [hvq, append_assoc]
        have hnd2 : (vis ++ [n]).Nodup := nodup_concat hnd hn
        have hkeys2 : ∀ x ∈ vis ++ [n], (glookup g x).isSome = true := by
          intro x hx
          rcases mem_append.mp hx with h | h
          · exact hkeys x h
          · rw [mem_singleton] at h
            exact h ▸ hnk
        obtain ⟨h1, h2, h3, h4⟩ := ih (vis ++ [n]) (q ++ [n]) R hvq2 hnd2
          hkeys2 (fun x hx => hlk x (mem_cons_of_mem n hx))
        refine ⟨h1, h2, h3, le_trans h4 ?_⟩
        have := uc_concat_lt g vis n hnk hn
        rw [length_append]
        simp only [length_singleton]
        omega

theorem bfsLoop_spec (g : List (V × List V)) (hC : Closed g) :
    ∀ (fuel : ℕ) (visited queue res : List V), visited = res ++ queue →
      visited.Nodup → (∀ x ∈ visited, (glookup g x).isSome = true) →
      unvisitedCount g visited + queue.length ≤ fuel →
      ∃ r, bfsLoop g fuel visited queue res = some r ∧ r.Nodup := by
  intro fuel
  induction fuel with
  | zero =>
      intro visited queue res hvq hnd hkeys hfuel
      match queue, hfuel with
      | [], _ =>
          refine ⟨res, rfl, ?_⟩
          rw [hvq, append_nil] at hnd
          exact hnd
      | v :: qrest, hfuel => simp at hfuel
  | succ fuel ih =>
      intro visited queue res hvq hnd hkeys hfuel
      match queue with
      | [] =>
          refine ⟨res, rfl, ?_⟩
          rw [hvq, append_nil] at hnd
          exact hnd
      | v :: qrest =>
          have hv : v ∈ visited := by
            rw [hvq]
            exact mem_append.mpr (Or.inr (mem_cons_self v qrest))
          obtain ⟨ns, hns⟩ := Option.isSome_iff_exists.mp (hkeys v hv)
          have hnsk : ∀ x ∈ insertion_sort ns, (glookup g x).isSome = true := by
            intro x hx
            have hx2 : x ∈ ns := (insertion_sort_perm ns).mem_iff.mp hx
            exact hC (v, ns) (glookup_mem g v ns hns) x hx2
          have hvq2 : visited = (res ++ [v]) ++ qrest := by
            rw [hvq, append_assoc]
            rfl
          obtain ⟨h1, h2, h3, h4⟩ := bfsPush_spec g (insertion_sort ns)
            visited qrest (res ++ [v]) hvq2 hnd hkeys hnsk
          rw [bfsLoop, hns]
          have hfuel2 : unvisitedCount g (((insertion_sort ns).foldl
              (fun (p : List V × List V) n =>
                if n ∈ p.1 then p else (p.1 ++ [n], p.2 ++ [n]))
              (visited, qrest)).1) +
              ((insertion_sort ns).foldl (fun (p : List V × List V) n =>
                if n ∈ p.1 then p else (p.1 ++ [n], p.2 ++ [n]))
              (visited, qrest)).2.length ≤ fuel := by
            rw [length_cons] at hfuel
            omega
          exact ih _ _ _ h1 h2 h3 hfuel2

theorem bfs_some_nodup (g : List (V × List V)) (hC : Closed g) (start : V)
    (hs : (glookup g start).isSome = true) :
    ∃ r, bfs g start = some r ∧ r.Nodup := by
  rw [bfs, if_pos hs]
  apply bfsLoop_spec g hC (g.length + 1) [start] [start] []
  · rfl
  · exact nodup_singleton start
  · intro x hx
    rw [mem_singleton] at hx
    exact hx ▸ hs
  · have h1 : unvisitedCount g [] = g.length := uc_nil g
    have h2 : unvisitedCount g ([] ++ [start]) < unvisitedCount g [] :=
      uc_concat_lt g [] start hs (by simp)
    rw [nil_append] at h2
    simp only [length_singleton]
    omega

theorem bfs_absent (g : List (V × List V)) (start : V)
    (hs : ¬ (glookup g start).isSome = true) : bfs g start = some [] := by
  rw [bfs, if_neg hs]

theorem uc_le (g : List (V × List V)) (res : List V) :
    unvisitedCount g res ≤ g.length := by
  rw [unvisitedCount]
  calc ((g.map Prod.fst).filter (fun k => ¬ k ∈ res)).length
      ≤ (g.map Prod.fst).length := length_filter_le _ _
    _ = g.length := length_map _ _

theorem sort_length_le (g : List (V × List V)) (v : V) (ns : List V)
    (hns : glookup g v = some ns) :
    (insertion_sort ns).length ≤ adjSize g := by
  rw [(insertion_sort_perm ns).length_eq]
  exact adj_length_le g (v, ns) (glookup_mem g v ns hns)

theorem dfsRecLoop_spec (g : List (V × List V)) (hC : Closed g) :
    ∀ (fuel : ℕ) (S : List (List V)) (res : List V), res.Nodup →
      (∀ L ∈ S, ∀ x ∈ L, (glookup g x).isSome = true) →
      S.length + S.flatten.length +
        (adjSize g + 2) * unvisitedCount g res ≤ fuel →
      ∃ r, dfsRecLoop g fuel S res = some r ∧ r.Nodup := by
  intro fuel
  induction fuel with
  | zero =>
      intro S res hnd hSk hfuel
      match S, hfuel with
      | [], _ => exact ⟨res, rfl, hnd⟩
      | L :: rest, hfuel => simp at hfuel
  | succ fuel ih =>
      intro S res hnd hSk hfuel
      match S with
      | [] => exact ⟨res, rfl, hnd⟩
      | [] :: rest =>
          rw [dfsRecLoop]
          apply ih rest res hnd (fun L hL => hSk L (mem_cons_of_mem _ hL))
          rw [length_cons, flatten_cons, nil_append] at hfuel
          omega
      | (n :: ns) :: rest =>
          rw [dfsRecLoop]
          by_cases hn : n ∈ res
          · rw [if_pos hn]
            apply ih (ns :: rest) res hnd
            · intro L hL x hx
              rcases mem_cons.mp hL with h | h
              · exact hSk (n :: ns) (mem_cons_self _ _) x
                  (h ▸ mem_cons_of_mem n hx)
              · exact hSk L (mem_cons_of_mem _ h) x hx
            · simp only [length_cons, flatten_cons, length_append] at hfuel ⊢
              omega
          · rw [if_neg hn]
            have hnk : (glookup g n).isSome = true :=
              hSk (n :: ns) (mem_cons_self _ _) n (mem_cons_self n ns)
            obtain ⟨nns, hnns⟩ := Option.isSome_iff_exists.mp hnk
            rw [hnns]
            apply ih (insertion_sort nns :: ns :: rest) (res ++ [n])
              (nodup_concat hnd hn)
            · intro L hL x hx
              rcases mem_cons.mp hL with h | h
              · have hx2 : x ∈ nns :=
                  (insertion_sort_perm nns).mem_iff.mp (h ▸ hx)
                exact hC (n, nns) (glookup_mem g n nns hnns) x hx2
              · rcases mem_cons.mp h with h2 | h2
                · exact hSk (n :: ns) (mem_cons_self _ _) x
                    (h2 ▸ mem_cons_of_mem n hx)
                · exact hSk L (mem_cons_of_mem _ h2) x hx
            · have hlen : (insertion_sort nns).length ≤ adjSize g :=
                sort_length_le g n nns hnns
              have huc : unvisitedCount g (res ++ [n]) <
                  unvisitedCount g res := uc_concat_lt g res n hnk hn
              simp only [length_cons, flatten_cons, length_append]
                at hfuel ⊢
              have hA : (adjSize g + 2) * unvisitedCount g (res ++ [n]) + 
                  (adjSize g + 2) ≤
                  (adjSize g + 2) * unvisitedCount g res := by
                have h2 : unvisitedCount g (res ++ [n]) + 1 ≤
                    unvisitedCount g res := huc
                calc (adjSize g + 2) * unvisitedCount g (res ++ [n]) +
                    (adjSize g + 2)
                    = (adjSize g + 2) * (unvisitedCount g (res ++ [n]) + 1) := by
                      ring
                  _ ≤ (adjSize g + 2) * unvisitedCount g res :=
                      Nat.mul_le_mul_left _ h2
              omega

theorem push_foldl_eq (res2 : List V) :
    ∀ (l acc : List V),
      l.foldl (fun st n => if n ∈ res2 then st else n :: st) acc =
        (l.filter (fun n => ¬ n ∈ res2)).reverse ++ acc := by
  intro l
  induction l with
  | nil =>
      intro acc
      simp
  | cons n t ih =>
      intro acc
      rw [foldl_cons]
      by_cases hn : n ∈ res2
      · rw [if_pos hn, ih]
        have hf : (n :: t).filter (fun n => ¬ n ∈ res2) =
            t.filter (fun n => ¬ n ∈ res2) := by
          simp [filter_cons, hn]
        rw [hf]
      · rw [if_neg hn, ih]
        have hf : (n :: t).filter (fun n => ¬ n ∈ res2) =
            n :: t.filter (fun n => ¬ n ∈ res2) := by
          simp [filter_cons, hn]
        rw [hf, reverse_cons, append_assoc, singleton_append]

theorem dfsIterLoop_spec (g : List (V × List V)) (hC : Closed g) :
    ∀ (fuel : ℕ) (s res : List V), res.Nodup →
      (∀ x ∈ s, (glookup g x).isSome = true) →
      s.length + (adjSize g + 1) * unvisitedCount g res ≤ fuel →
      ∃ r, dfsIterLoop g fuel s res = some r ∧ r.Nodup := by
  intro fuel
  induction fuel with
  | zero =>
      intro s res hnd hsk hfuel
      match s, hfuel with
      | [], _ => exact ⟨res, rfl, hnd⟩
      | v :: rest, hfuel => simp at hfuel
  | succ fuel ih =>
      intro s res hnd hsk hfuel
      match s with
      | [] => exact ⟨res, rfl, hnd⟩
      | v :: rest =>
          rw [dfsIterLoop]
          by_cases hv : v ∈ res
          · rw [if_pos hv]
            apply ih rest res hnd (fun x hx => hsk x (mem_cons_of_mem v hx))
            rw [length_cons] at hfuel
            omega
          · rw [if_neg hv]
            have hvk : (glookup g v).isSome = true := hsk v (mem_cons_self v rest)
            obtain ⟨ns, hns⟩ := Option.isSome_iff_exists.mp hvk
            rw [hns]
            apply ih ((insertion_sort ns).reverse.foldl
                (fun st n => if n ∈ res ++ [v] then st else n :: st) rest)
              (res ++ [v]) (nodup_concat hnd hv)
            · intro x hx
              rw [push_foldl_eq (res ++ [v]) (insertion_sort ns).reverse rest,
                filter_reverse, reverse_reverse] at hx
              rcases mem_append.mp hx with h | h
              · have hx2 : x ∈ ns := (insertion_sort_perm ns).mem_iff.mp
                  (mem_of_mem_filter h)
                exact hC (v, ns) (glookup_mem g v ns hns) x hx2
              · exact hsk x (mem_cons_of_mem v h)
            · have hlen : ((insertion_sort ns).filter
                  (fun n => ¬ n ∈ res ++ [v])).length ≤ adjSize g :=
                le_trans (length_filter_le _ _) (sort_length_le g v ns hns)
              have huc : unvisitedCount g (res ++ [v]) <
                  unvisitedCount g res := uc_concat_lt g res v hvk hv
              rw [length_cons] at hfuel
              rw [push_foldl_eq (res ++ [v]) (insertion_sort ns).reverse rest,
                filter_reverse, reverse_reverse, length_append]
              have hA : (adjSize g + 1) * unvisitedCount g (res ++ [v]) +
                  (adjSize g + 1) ≤
                  (adjSize g + 1) * unvisitedCount g res := by
                have h2 : unvisitedCount g (res ++ [v]) + 1 ≤
                    unvisitedCount g res := huc
                calc (adjSize g + 1) * unvisitedCount g (res ++ [v]) +
                    (adjSize g + 1)
                    = (adjSize g + 1) * (unvisitedCount g (res ++ [v]) + 1) := by
                      ring
                  _ ≤ (adjSize g + 1) * unvisitedCount g res :=
                      Nat.mul_le_mul_left _ h2
              omega

theorem dfs_recursive_some_nodup (g : List (V × List V)) (hC : Closed g)
    (start : V) (hs : (glookup g start).isSome = true) :
    ∃ r, dfs_recursive g start = some r ∧ r.Nodup := by
  obtain ⟨ns, hns⟩ := Option.isSome_iff_exists.mp hs
  rw [dfs_recursive, hns]
  apply dfsRecLoop_spec g hC _ [insertion_sort ns] [start]
    (nodup_singleton start)
  · intro L hL x hx
    rw [mem_singleton] at hL
    have hx2 : x ∈ ns := (insertion_sort_perm ns).mem_iff.mp (hL ▸ hx)
    exact hC (start, ns) (glookup_mem g start ns hns) x hx2
  · have h1 : (insertion_sort ns).length ≤ adjSize g :=
      sort_length_le g start ns hns
    have h2 : unvisitedCount g [start] ≤ g.length := uc_le g [start]
    rw [length_cons, length_nil, flatten_cons, flatten_nil, append_nil]
    have h3 : (adjSize g + 2) * unvisitedCount g [start] ≤
        (adjSize g + 2) * g.length := Nat.mul_le_mul_left _ h2
    omega

theorem dfs_iterative_some_nodup (g : List (V × List V)) (hC : Closed g)
    (start : V) (hs : (glookup g start).isSome = true) :
    ∃ r, dfs_iterative g start = some r ∧ r.Nodup := by
  rw [dfs_iterative, if_pos hs]
  apply dfsIterLoop_spec g hC _ [start] [] (nodup_nil)
  · intro x hx
    rw [mem_singleton] at hx
    exact hx ▸ hs
  · have h2 : unvisitedCount g [] ≤ g.length := uc_le g []
    rw [length_cons, length_nil]
    have h3 : (adjSize g + 1) * unvisitedCount g [] ≤
        (adjSize g + 1) * g.length := Nat.mul_le_mul_left _ h2
    omega

theorem dfs_recursive_absent (g : List (V × List V)) (start : V)
    (hs : glookup g start = none) : dfs_recursive g start = some [] := by
  rw [dfs_recursive, hs]

theorem dfs_iterative_absent (g : List (V × List V)) (start : V)
    (hs : ¬ (glookup g start).isSome = true) :
    dfs_iterative g start = some [] := by
  rw [dfs_iterative, if_neg hs]

theorem dfsRecLoop_nil (g : List (V × List V)) (fr : ℕ) (res : List V) :
    dfsRecLoop g fr [] res = some res := by
  cases fr <;> rfl

theorem dfsIterLoop_drain (g : List (V × List V)) : ∀ (s res : List V),
    (∀ x ∈ s, x ∈ res) → ∀ fi, s.length ≤ fi →
    dfsIterLoop g fi s res = some res := by
  intro s
  induction s with
  | nil =>
      intro res _ fi _
      cases fi <;> rfl
  | cons v t ih =>
      intro res hall fi hlen
      cases fi with
      | zero =>
          exfalso
          rw [length_cons] at hlen
          omega
      | succ fi =>
          rw [dfsIterLoop, if_pos (hall v (mem_cons_self v t))]
          apply ih res (fun x hx => hall x (mem_cons_of_mem v hx)) fi
          rw [length_cons] at hlen
          omega

theorem filter_idem (p : V → Bool) (l : List V) :
    (l.filter p).filter p = l.filter p :=
  filter_eq_self.mpr (fun a ha => of_mem_filter ha)

theorem filter_unvisited_concat (l res : List V) (n : V) :
    l.filter (fun x => ¬ x ∈ res ++ [n]) =
      (l.filter (fun x => ¬ x ∈ res)).filter (fun x => ¬ x = n) := by
  rw [filter_filter]
  apply filter_congr
  intro x _
  by_cases h1 : x ∈ res
  · simp [h1]
  · by_cases h2 : x = n
    · simp [h1, h2]
    · simp [h1, h2]

/-- Pop-time re-checking (recursive dfs) and push-time filtering plus
pop-time checking (iterative dfs) visit the same vertices in the same
order: with enough fuel on both sides the two loops produce identical
results whenever the iterative stack and the flattened recursive frame
stack agree on their not-yet-visited entries. -/
theorem iter_eq_rec (g : List (V × List V)) (hC : Closed g) :
    ∀ (N fi fr : ℕ) (s : List V) (S : List (List V)) (res : List V),
      fi + fr ≤ N →
      (∀ x ∈ s, (glookup g x).isSome = true) →
      (∀ L ∈ S, ∀ x ∈ L, (glookup g x).isSome = true) →
      s.filter (fun x => ¬ x ∈ res) =
        S.flatten.filter (fun x => ¬ x ∈ res) →
      s.length + (adjSize g + 1) * unvisitedCount g res ≤ fi →
      S.length + S.flatten.length +
        (adjSize g + 2) * unvisitedCount g res ≤ fr →
      dfsIterLoop g fi s res = dfsRecLoop g fr S res := by
  intro N
  induction N with
  | zero =>
      intro fi fr s S res hN hsk hSk hfil hfi hfr
      have hfi0 : fi = 0 := by omega
      have hfr0 : fr = 0 := by omega
      have hs : s = [] := by
        cases s with
        | nil => rfl
        | cons v t =>
            exfalso
            rw [length_cons] at hfi
            omega
      have hS : S = [] := by
        cases S with
        | nil => rfl
        | cons L t =>
            exfalso
            rw [length_cons] at hfr
            omega
      rw [hs, hS, hfi0, hfr0]
      rfl
  | succ N ihN =>
      intro fi fr s S res hN hsk hSk hfil hfi hfr
      match S with
      | [] =>
          rw [dfsRecLoop_nil]
          apply dfsIterLoop_drain
          · intro x hx
            by_cases hxr : x ∈ res
            · exact hxr
            · exfalso
              have hxf : x ∈ s.filter (fun x => ¬ x ∈ res) :=
                mem_filter.mpr ⟨hx, by simp [hxr]⟩
              rw [hfil] at hxf
              simp at hxf
          · omega
      | L :: rest =>
          have hfr1 : 1 ≤ fr := by
            rw [length_cons] at hfr
            omega
          match L with
          | [] =>
              cases fr with
              | zero => omega
              | succ fr =>
                  rw [dfsRecLoop]
                  apply ihN fi fr s rest res (by omega) hsk
                    (fun L2 hL2 => hSk L2 (mem_cons_of_mem _ hL2))
                  · rw [flatten_cons, nil_append] at hfil
                    exact hfil
                  · exact hfi
                  · rw [length_cons, flatten_cons, nil_append] at hfr
                    omega
          | n :: ns =>
              by_cases hn : n ∈ res
              · cases fr with
                | zero => omega
                | succ fr =>
                    rw [dfsRecLoop, if_pos hn]
                    apply ihN fi fr s (ns :: rest) res (by omega) hsk
                    · intro L2 hL2 x hx
                      rcases mem_cons.mp hL2 with h | h
                      · exact hSk (n :: ns) (mem_cons_self _ _) x
                          (h ▸ mem_cons_of_mem n hx)
                      · exact hSk L2 (mem_cons_of_mem _ h) x hx
                    · rw [flatten_cons, cons_append] at hfil
                      rw [flatten_cons]
                      have hfc : ((n :: (ns ++ rest.flatten)).filter
                          (fun x => ¬ x ∈ res)) = (ns ++ rest.flatten).filter
                          (fun x => ¬ x ∈ res) := by
                        simp [filter_cons, hn]
                      rw [hfc] at hfil
                      exact hfil
                    · exact hfi
                    · rw [length_cons, flatten_cons, cons_append,
                        length_cons] at hfr
                      rw [length_cons, flatten_cons]
                      omega
              · match s with
                | [] =>
                    exfalso
                    rw [flatten_cons, cons_append] at hfil
                    have hfc : ((n :: (ns ++ rest.flatten)).filter
                        (fun x => ¬ x ∈ res)) = n :: ((ns ++ rest.flatten).filter
                        (fun x => ¬ x ∈ res)) := by
                      simp [filter_cons, hn]
                    rw [hfc] at hfil
                    simp at hfil
                | v :: si =>
                    by_cases hv : v ∈ res
                    · cases fi with
                      | zero =>
                          exfalso
                          rw [length_cons] at hfi
                          omega
                      | succ fi =>
                          rw [dfsIterLoop, if_pos hv]
                          apply ihN fi fr si ((n :: ns) :: rest) res (by omega)
                            (fun x hx => hsk x (mem_cons_of_mem v hx)) hSk
                          · have hfc : ((v :: si).filter
                                (fun x => ¬ x ∈ res)) = si.filter
                                (fun x => ¬ x ∈ res) := by
                              simp [filter_cons, hv]
                            rw [hfc] at hfil
                            exact hfil
                          · rw [length_cons] at hfi
                            omega
                          · exact hfr
                    · -- both sides visit, and the vertices agree
                      have hfc1 : ((v :: si).filter (fun x => ¬ x ∈ res)) =
                          v :: (si.filter (fun x => ¬ x ∈ res)) := by
                        simp [filter_cons, hv]
                      have hfc2 : (((n :: ns) :: rest).flatten.filter
                          (fun x => ¬ x ∈ res)) =
                          n :: ((ns ++ rest.flatten).filter
                            (fun x => ¬ x ∈ res)) := by
                        rw [flatten_cons, cons_append]
                        simp [filter_cons, hn]
                      rw [hfc1, hfc2] at hfil
                      have hvn : v = n := (cons.injEq _ _ _ _).mp hfil |>.1
                      have htail : si.filter (fun x => ¬ x ∈ res) =
                          (ns ++ rest.flatten).filter (fun x => ¬ x ∈ res) :=
                        (cons.injEq _ _ _ _).mp hfil |>.2
                      subst hvn
                      have hnk : (glookup g v).isSome = true :=
                        hSk (v :: ns) (mem_cons_self _ _) v (mem_cons_self v ns)
                      obtain ⟨nns, hnns⟩ := Option.isSome_iff_exists.mp hnk
                      cases fi with
                      | zero =>
                          exfalso
                          rw [length_cons] at hfi
                          omega
                      | succ fi =>
                          cases fr with
                          | zero => omega
                          | succ fr =>
                              have hiter : dfsIterLoop g (fi + 1) (v :: si) res =
                                  dfsIterLoop g fi
                                    ((insertion_sort nns).reverse.foldl
                                      (fun st m => if m ∈ res ++ [v] then st
                                        else m :: st) si)
                                    (res ++ [v]) := by
                                rw [dfsIterLoop, if_neg hv, hnns]
                              have hrec : dfsRecLoop g (fr + 1)
                                  ((v :: ns) :: rest) res =
                                  dfsRecLoop g fr
                                    (insertion_sort nns :: ns :: rest)
                                    (res ++ [v]) := by
                                rw [dfsRecLoop, if_neg hv, hnns]
                              rw [hiter, hrec]
                              have hnsk : ∀ x ∈ insertion_sort nns,
                                  (glookup g x).isSome = true := by
                                intro x hx
                                have hx2 : x ∈ nns :=
                                  (insertion_sort_perm nns).mem_iff.mp hx
                                exact hC (v, nns) (glookup_mem g v nns hnns) x hx2
                              have hpush : (insertion_sort nns).reverse.foldl
                                  (fun st m => if m ∈ res ++ [v] then st
                                    else m :: st) si =
                                  (insertion_sort nns).filter
                                    (fun m => ¬ m ∈ res ++ [v]) ++ si := by
                                rw [push_foldl_eq (res ++ [v])
                                  (insertion_sort nns).reverse si,
                                  filter_reverse, reverse_reverse]
                              apply ihN fi fr _ _ (res ++ [v]) (by omega)
                              · intro x hx
                                rw [hpush] at hx
                                rcases mem_append.mp hx with h | h
                                · exact hnsk x (mem_of_mem_filter h)
                                · exact hsk x (mem_cons_of_mem v h)
                              · intro L2 hL2 x hx
                                rcases mem_cons.mp hL2 with h | h
                                · exact hnsk x (h ▸ hx)
                                · rcases mem_cons.mp h with h2 | h2
                                  · exact hSk (v :: ns) (mem_cons_self _ _) x
                                      (h2 ▸ mem_cons_of_mem v hx)
                                  · exact hSk L2 (mem_cons_of_mem _ h2) x hx
                              · rw [hpush, filter_append, flatten_cons,
                                  filter_append, flatten_cons]
                                have hid : ((insertion_sort nns).filter
                                    (fun m => ¬ m ∈ res ++ [v])).filter
                                    (fun x => ¬ x ∈ res ++ [v]) =
                                    (insertion_sort nns).filter
                                      (fun m => ¬ m ∈ res ++ [v]) :=
                                  filter_idem _ _
                                rw [hid]
                                have htail2 : si.filter
                                    (fun x => ¬ x ∈ res ++ [v]) =
                                    (ns ++ rest.flatten).filter
                                      (fun x => ¬ x ∈ res ++ [v]) := by
                                  rw [filter_unvisited_concat si res v,
                                    filter_unvisited_concat (ns ++ rest.flatten)
                                      res v, htail]
                                rw [htail2]
                              · rw [hpush, length_append]
                                have hlen : ((insertion_sort nns).filter
                                    (fun m => ¬ m ∈ res ++ [v])).length ≤
                                    adjSize g :=
                                  le_trans (length_filter_le _ _)
                                    (sort_length_le g v nns hnns)
                                have huc : unvisitedCount g (res ++ [v]) <
                                    unvisitedCount g res :=
                                  uc_concat_lt g res v hnk hv
                                have hA : (adjSize g + 1) *
                                    unvisitedCount g (res ++ [v]) +
                                    (adjSize g + 1) ≤ (adjSize g + 1) *
                                    unvisitedCount g res := by
                                  calc (adjSize g + 1) *
                                      unvisitedCount g (res ++ [v]) +
                                      (adjSize g + 1)
                                      = (adjSize g + 1) *
                                        (unvisitedCount g (res ++ [v]) + 1) := by
                                        ring
                                    _ ≤ (adjSize g + 1) *
                                        unvisitedCount g res :=
                                        Nat.mul_le_mul_left _ huc
                                rw [length_cons] at hfi
                                omega
                              · have hlen : (insertion_sort nns).length ≤
                                    adjSize g := sort_length_le g v nns hnns
                                have huc : unvisitedCount g (res ++ [v]) <
                                    unvisitedCount g res :=
                                  uc_concat_lt g res v hnk hv
                                have hA : (adjSize g + 2) *
                                    unvisitedCount g (res ++ [v]) +
                                    (adjSize g + 2) ≤ (adjSize g + 2) *
                                    unvisitedCount g res := by
                                  calc (adjSize g + 2) *
                                      unvisitedCount g (res ++ [v]) +
                                      (adjSize g + 2)
                                      = (adjSize g + 2) *
                                        (unvisitedCount g (res ++ [v]) + 1) := by
                                        ring
                                    _ ≤ (adjSize g + 2) *
                                        unvisitedCount g res :=
                                        Nat.mul_le_mul_left _ huc
                                rw [length_cons, flatten_cons, cons_append,
                                  length_cons, length_append] at hfr
                                rw [length_cons, length_cons, flatten_cons,
                                  flatten_cons, length_append, length_append]
                                omega

theorem dfs_iterative_eq_recursive (g : List (V × List V)) (hC : Closed g)
    (start : V) : dfs_iterative g start = dfs_recursive g start := by
  cases hlook : glookup g start with
  | none =>
      rw [dfs_iterative_absent g start (by rw [hlook]; simp),
        dfs_recursive_absent g start hlook]
  | some ns =>
      have hs : (glookup g start).isSome = true := by
        rw [hlook]
        rfl
      rw [dfs_iterative, if_pos hs, dfs_recursive, hlook]
      have hfuel_eq : 1 + (adjSize g + 1) * g.length =
          (adjSize g + 1) * g.length + 1 := by omega
      rw [hfuel_eq]
      have hstep : dfsIterLoop g ((adjSize g + 1) * g.length + 1) [start] [] =
          dfsIterLoop g ((adjSize g + 1) * g.length)
            ((insertion_sort ns).reverse.foldl
              (fun st m => if m ∈ [] ++ [start] then st else m :: st) [])
            ([] ++ [start]) := by
        rw [dfsIterLoop, if_neg (by simp : ¬ start ∈ ([] : List V)), hlook]
      rw [hstep, nil_append]
      have hpush : (insertion_sort ns).reverse.foldl
          (fun st m => if m ∈ [start] then st else m :: st) [] =
          (insertion_sort ns).filter (fun m => ¬ m ∈ [start]) ++ [] := by
        rw [push_foldl_eq [start] (insertion_sort ns).reverse [],
          filter_reverse, reverse_reverse]
      have hnsk : ∀ x ∈ insertion_sort ns, (glookup g x).isSome = true := by
        intro x hx
        have hx2 : x ∈ ns := (insertion_sort_perm ns).mem_iff.mp hx
        exact hC (start, ns) (glookup_mem g start ns hlook) x hx2
      have hsortlen : (insertion_sort ns).length ≤ adjSize g :=
        sort_length_le g start ns hlook
      have huc1 : unvisitedCount g [start] < g.length := by
        have h2 := uc_concat_lt g [] start hs (by simp)
        rw [nil_append] at h2
        rw [← uc_nil g]
        exact h2
      apply iter_eq_rec g hC
        ((adjSize g + 1) * g.length + (1 + adjSize g + (adjSize g + 2) * g.length))
      · exact le_refl _
      · intro x hx
        rw [hpush, append_nil] at hx
        exact hnsk x (mem_of_mem_filter hx)
      · intro L hL x hx
        rw [mem_singleton] at hL
        exact hnsk x (hL ▸ hx)
      · rw [hpush, append_nil, filter_idem, flatten_cons, flatten_nil,
          append_nil]
      · rw [hpush, append_nil]
        have hlen2 : ((insertion_sort ns).filter
            (fun m => ¬ m ∈ [start])).length ≤ adjSize g :=
          le_trans (length_filter_le _ _) hsortlen
        have hmul : (adjSize g + 1) * unvisitedCount g [start] +
            (adjSize g + 1) ≤ (adjSize g + 1) * g.length := by
          calc (adjSize g + 1) * unvisitedCount g [start] + (adjSize g + 1)
              = (adjSize g + 1) * (unvisitedCount g [start] + 1) := by ring
            _ ≤ (adjSize g + 1) * g.length := Nat.mul_le_mul_left _ huc1
        omega
      · rw [length_cons, length_nil, flatten_cons, flatten_nil, append_nil]
        have hmul : (adjSize g + 2) * unvisitedCount g [start] ≤
            (adjSize g + 2) * g.length :=
          Nat.mul_le_mul_left _ (uc_le g [start])
        omega

end GraphSection

/-- `create_sample_graph` (graph_traversal.py lines 156-176): the six
edges added in source order. -/
def create_sample_graph : List (Char × List Char) :=
  buildGraph [Sum.inr ('A', 'B'), Sum.inr ('A', 'C'), Sum.inr ('B', 'D'),
    Sum.inr ('B', 'E'), Sum.inr ('C', 'F'), Sum.inr ('E', 'F')]

theorem sample_bfs_eval :
    bfs create_sample_graph 'A' = some ['A', 'B', 'C', 'D', 'E', 'F'] := by
  rfl

theorem sample_dfs_recursive_eval :
    dfs_recursive create_sample_graph 'A' =
      some ['A', 'B', 'D', 'E', 'F', 'C'] := by
  rfl

/-! ## Call effect model

A Python call `f(arr)` returns a list and may also mutate the caller's
list object.  `SortCall` records both: `ret` is the returned list and
`final` is the contents of the caller's list after the call.  Which one a
sort writes to is read directly off the source: `quick_sort` (line 134),
`heap_sort` (line 164) and `shell_sort` (line 314) first take
`arr_copy = arr.copy()` and only ever assign into the copy, so the
caller's list keeps its original contents; `bubble_sort`,
`selection_sort`, `insertion_sort` and `merge_sort` assign into `arr`
itself (and return it), so after the call the caller's list holds exactly
the returned, sorted sequence. -/

structure SortCall (γ : Type) where
  ret : List γ
  final : List γ

def quick_sort_call (l : List β) : SortCall β := ⟨quick_sort l, l⟩

def shell_sort_call (l : List β) : SortCall β := ⟨shell_sort l, l⟩

def heap_sort_call (l : List β) : SortCall β := ⟨heap_sort l, l⟩

def bubble_sort_call (l : List β) : SortCall β := ⟨bubble_sort l, bubble_sort l⟩

def selection_sort_call (l : List β) : SortCall β :=
  ⟨selection_sort l, selection_sort l⟩

def insertion_sort_call (l : List β) : SortCall β :=
  ⟨insertion_sort l, insertion_sort l⟩

def merge_sort_call (l : List β) : SortCall β := ⟨merge_sort l, merge_sort l⟩

/-! ## The claims -/

/-- C1 (corrected).  Nine of the ten sorts return a sorted permutation of
any input over a linear order; `bucket_sort` (with its default
`num_buckets = 10`) does so for the empty list and whenever the input has
two distinct elements, but on a non-empty input whose elements are all
equal (`min == max`) the source raises `ZeroDivisionError` at
`(i - min_val) / bucket_range` (line 293), modelled here by `none`. -/
theorem claim_C1 :
    (∀ (γ : Type) [inst : LinearOrder γ] (l : List γ),
      (bubble_sort l ~ l ∧ (bubble_sort l).Sorted (· ≤ ·)) ∧
      (selection_sort l ~ l ∧ (selection_sort l).Sorted (· ≤ ·)) ∧
      (insertion_sort l ~ l ∧ (insertion_sort l).Sorted (· ≤ ·)) ∧
      (merge_sort l ~ l ∧ (merge_sort l).Sorted (· ≤ ·)) ∧
      (quick_sort l ~ l ∧ (quick_sort l).Sorted (· ≤ ·))) ∧
    (∀ (γ : Type) [inst : LinearOrder γ] [inst2 : Inhabited γ] (l : List γ),
      (heap_sort l ~ l ∧ (heap_sort l).Sorted (· ≤ ·)) ∧
      (shell_sort l ~ l ∧ (shell_sort l).Sorted (· ≤ ·))) ∧
    (∀ l : List ℤ,
      (counting_sort l ~ l ∧ (counting_sort l).Sorted (· ≤ ·)) ∧
      (radix_sort l ~ l ∧ (radix_sort l).Sorted (· ≤ ·))) ∧
    (∀ l : List ℚ,
      (l = [] → bucket_sort l 10 = some []) ∧
      (pymin l ≠ pymax l →
        ∃ out, bucket_sort l 10 = some out ∧ out ~ l ∧
          out.Sorted (· ≤ ·)) ∧
      (l ≠ [] → pymin l = pymax l → bucket_sort l 10 = none)) := by
  refine ⟨?_, ?_, ?_, ?_⟩
  · intro γ inst l
    exact ⟨⟨bubble_sort_perm l, bubble_sort_sorted l⟩,
      ⟨selection_sort_perm l, selection_sort_sorted l⟩,
      ⟨insertion_sort_perm l, insertion_sort_sorted l⟩,
      ⟨merge_sort_perm l, merge_sort_sorted l⟩,
      ⟨quick_sort_perm l, quick_sort_sorted l⟩⟩
  · intro γ inst inst2 l
    exact ⟨⟨heap_sort_perm l, heap_sort_sorted l⟩,
      ⟨shell_sort_perm l, shell_sort_sorted l⟩⟩
  · intro l
    exact ⟨⟨counting_sort_perm l, counting_sort_sorted l⟩,
      radix_sort_correct l⟩
  · intro l
    refine ⟨?_, ?_, ?_⟩
    · intro hl
      rw [hl]
      rfl
    · intro hmm
      have hl : l ≠ [] := fun h => hmm (by rw [h]; rfl)
      exact bucket_sort_correct l 10 (by norm_num) hmm hl
    · intro hl hmm
      have h0 : (pymax l - pymin l) / ((10 : ℕ) : ℚ) = 0 := by
        rw [show pymax l - pymin l = 0 from by rw [hmm]; ring]
        exact zero_div _
      rw [bucket_sort, if_neg hl, if_neg (by norm_num : ¬(10 : ℕ) = 0),
        if_pos h0]

theorem claim_C1_witness :
    pymin [(1 : ℚ), 3] ≠ pymax [(1 : ℚ), 3] ∧
    ∃ out, bucket_sort [(1 : ℚ), 3] 10 = some out ∧ out ~ [(1 : ℚ), 3] ∧
      out.Sorted (· ≤ ·) := by
  have h : pymin [(1 : ℚ), 3] ≠ pymax [(1 : ℚ), 3] := by
    have h1 : pymin [(1 : ℚ), 3] = 1 := by
      rw [pymin]
      simp
    have h2 : pymax [(1 : ℚ), 3] = 3 := by
      rw [pymax]
      simp
    rw [h1, h2]
    norm_num
  exact ⟨h, (claim_C1.2.2.2 [(1 : ℚ), 3]).2.1 h⟩

/-- Counterexample for the original wording of C1: on the non-empty
all-equal input `[7, 7]` the code divides by the zero bucket width and
raises instead of returning `[7, 7]`. -/
theorem claim_C1_counterexample : bucket_sort [(7 : ℚ), 7] 10 = none := by
  have h0 : (pymax [(7 : ℚ), 7] - pymin [(7 : ℚ), 7]) / ((10 : ℕ) : ℚ) = 0 := by
    have h1 : pymin [(7 : ℚ), 7] = 7 := by
      rw [pymin]
      simp
    have h2 : pymax [(7 : ℚ), 7] = 7 := by
      rw [pymax]
      simp
    rw [h1, h2]
    norm_num
  rw [bucket_sort, if_neg (by simp : ¬([(7 : ℚ), 7] = [])),
    if_neg (by norm_num : ¬(10 : ℕ) = 0), if_pos h0]

/-- C2 (code bug).  The claim asserts `bucket_sort([7,7,7]) == [7,7,7]`
with no division by zero; in the source, `bucket_range` is `0.0` for this
input and `int((i - min_val) / bucket_range)` raises `ZeroDivisionError`
(line 293), modelled by `none`. -/
theorem claim_C2 : bucket_sort [(7 : ℚ), 7, 7] 10 = none :=
  bucket_sort_degenerate

/-- C3 (confirmed).  On any graph built by `add_vertex`/`add_edge`, each
traversal started at a present vertex succeeds and visits no vertex
twice. -/
theorem claim_C3 : ∀ (V : Type) [inst : LinearOrder V]
    (ops : List (V ⊕ V × V)) (start : V),
    (glookup (buildGraph ops) start).isSome = true →
    (∃ r, bfs (buildGraph ops) start = some r ∧ r.Nodup) ∧
    (∃ r, dfs_recursive (buildGraph ops) start = some r ∧ r.Nodup) ∧
    (∃ r, dfs_iterative (buildGraph ops) start = some r ∧ r.Nodup) := by
  intro V inst ops start hs
  have hC := Closed_buildGraph ops
  exact ⟨bfs_some_nodup _ hC start hs,
    dfs_recursive_some_nodup _ hC start hs,
    dfs_iterative_some_nodup _ hC start hs⟩

theorem claim_C3_witness :
    (glookup (buildGraph [Sum.inr (('A', 'B') : Char × Char)])
      'A').isSome = true ∧
    ((∃ r, bfs (buildGraph [Sum.inr (('A', 'B') : Char × Char)]) 'A' =
        some r ∧ r.Nodup) ∧
     (∃ r, dfs_recursive (buildGraph [Sum.inr (('A', 'B') : Char × Char)])
        'A' = some r ∧ r.Nodup) ∧
     (∃ r, dfs_iterative (buildGraph [Sum.inr (('A', 'B') : Char × Char)])
        'A' = some r ∧ r.Nodup)) :=
  ⟨rfl, claim_C3 Char [Sum.inr ('A', 'B')] 'A' rfl⟩

/-- C4 (confirmed).  On any graph built by `add_vertex`/`add_edge`, the
iterative DFS (descending pushes, mark on pop) visits exactly the same
sequence as the recursive DFS, for every start vertex. -/
theorem claim_C4 : ∀ (V : Type) [inst : LinearOrder V]
    (ops : List (V ⊕ V × V)) (start : V),
    dfs_iterative (buildGraph ops) start =
      dfs_recursive (buildGraph ops) start := by
  intro V inst ops start
  exact dfs_iterative_eq_recursive _ (Closed_buildGraph ops) start

/-- C5 (confirmed).  `radix_sort` sorts integer lists with negatives, and
on the concrete example returns `[-5, -1, 0, 2, 3]`. -/
theorem claim_C5 :
    (∀ l : List ℤ, radix_sort l ~ l ∧ (radix_sort l).Sorted (· ≤ ·)) ∧
    radix_sort [-5, 3, -1, 0, 2] = [-5, -1, 0, 2, 3] := by
  refine ⟨radix_sort_correct, ?_⟩
  obtain ⟨hp, hs⟩ := radix_sort_correct [-5, 3, -1, 0, 2]
  exact eq_of_perm_of_sorted (hp.trans (by decide)) hs (by decide)

/-- C6 (confirmed).  A start vertex absent from the graph yields the
empty visitation sequence for all three traversals, with no error. -/
theorem claim_C6 : ∀ (V : Type) [inst : LinearOrder V]
    (g : List (V × List V)) (start : V), glookup g start = none →
    bfs g start = some [] ∧ dfs_recursive g start = some [] ∧
    dfs_iterative g start = some [] := by
  intro V inst g start h
  have hs : ¬ (glookup g start).isSome = true := by
    rw [h]
    simp
  exact ⟨bfs_absent g start hs, dfs_recursive_absent g start h,
    dfs_iterative_absent g start hs⟩

theorem claim_C6_witness :
    glookup ([] : List (Char × List Char)) 'A' = none ∧
    (bfs ([] : List (Char × List Char)) 'A' = some [] ∧
     dfs_recursive ([] : List (Char × List Char)) 'A' = some [] ∧
     dfs_iterative ([] : List (Char × List Char)) 'A' = some []) :=
  ⟨rfl, claim_C6 Char [] 'A' rfl⟩

/-- C7 (confirmed).  Keyed insertion sort, merge sort and counting sort
are stable: the subsequence of pairs with any fixed key is unchanged. -/
theorem claim_C7 : ∀ (l : List (ℤ × ℤ)) (c : ℤ),
    (insertion_sort_key Prod.fst l).filter (fun x => x.1 = c) =
      l.filter (fun x => x.1 = c) ∧
    (merge_sort_key Prod.fst l).filter (fun x => x.1 = c) =
      l.filter (fun x => x.1 = c) ∧
    (counting_sort_pairs l).filter (fun x => x.1 = c) =
      l.filter (fun x => x.1 = c) := by
  intro l c
  exact ⟨insertion_sort_key_stable Prod.fst c l,
    merge_sort_key_stable Prod.fst c l,
    counting_sort_pairs_stable l c⟩

/-- C8 (confirmed).  `quick_sort`, `heap_sort` and `shell_sort` sort a
copy: the caller's list is unchanged and the returned list is the sorted
permutation. -/
theorem claim_C8 : ∀ (γ : Type) [inst : LinearOrder γ] [inst2 : Inhabited γ]
    (l : List γ),
    ((quick_sort_call l).final = l ∧ (quick_sort_call l).ret ~ l ∧
      (quick_sort_call l).ret.Sorted (· ≤ ·)) ∧
    ((heap_sort_call l).final = l ∧ (heap_sort_call l).ret ~ l ∧
      (heap_sort_call l).ret.Sorted (· ≤ ·)) ∧
    ((shell_sort_call l).final = l ∧ (shell_sort_call l).ret ~ l ∧
      (shell_sort_call l).ret.Sorted (· ≤ ·)) := by
  intro γ inst inst2 l
  exact ⟨⟨rfl, quick_sort_perm l, quick_sort_sorted l⟩,
    ⟨rfl, heap_sort_perm l, heap_sort_sorted l⟩,
    ⟨rfl, shell_sort_perm l, shell_sort_sorted l⟩⟩

/-- C9 (confirmed).  On the sample graph with edges
(A,B),(A,C),(B,D),(B,E),(C,F),(E,F), `bfs('A')` visits A,B,C,D,E,F and
`dfs_recursive('A')` visits A,B,D,E,F,C. -/
theorem claim_C9 :
    bfs create_sample_graph 'A' = some ['A', 'B', 'C', 'D', 'E', 'F'] ∧
    dfs_recursive create_sample_graph 'A' =
      some ['A', 'B', 'D', 'E', 'F', 'C'] :=
  ⟨sample_bfs_eval, sample_dfs_recursive_eval⟩

/-- C10 (confirmed).  `bubble_sort`, `selection_sort`, `insertion_sort`
and `merge_sort` sort the caller's list in place: after the call the
caller's list is the sorted permutation, and it is what is returned. -/
theorem claim_C10 : ∀ (γ : Type) [inst : LinearOrder γ] (l : List γ),
    ((bubble_sort_call l).final = (bubble_sort_call l).ret ∧
      (bubble_sort_call l).final ~ l ∧
      (bubble_sort_call l).final.Sorted (· ≤ ·)) ∧
    ((selection_sort_call l).final = (selection_sort_call l).ret ∧
      (selection_sort_call l).final ~ l ∧
      (selection_sort_call l).final.Sorted (· ≤ ·)) ∧
    ((insertion_sort_call l).final = (insertion_sort_call l).ret ∧
      (insertion_sort_call l).final ~ l ∧
      (insertion_sort_call l).final.Sorted (· ≤ ·)) ∧
    ((merge_sort_call l).final = (merge_sort_call l).ret ∧
      (merge_sort_call l).final ~ l ∧
      (merge_sort_call l).final.Sorted (· ≤ ·)) := by
  intro γ inst l
  exact ⟨⟨rfl, bubble_sort_perm l, bubble_sort_sorted l⟩,
    ⟨rfl, selection_sort_perm l, selection_sort_sorted l⟩,
    ⟨rfl, insertion_sort_perm l, insertion_sort_sorted l⟩,
    ⟨rfl, merge_sort_perm l, merge_sort_sorted l⟩⟩

end TechNotes
